import Mathlib

/-!
# MadFS (ulayfs): a shallow embedding of the block allocator and of the tx log helpers

The development covers `src/src/alloc.cpp` (the per-thread block allocator) and,
after it, the helpers of `src/src/block.h`, `src/src/block/tx.h`, `src/src/tx.h` and
`src/src/shm.h` that map bitmap block ids to block indices, move a tx index
forward, append to a tx block, keep the hints of the meta block and build the
path of the shared memory object, and the intercepted `open`, `pwrite` and `pread`
of `src/src/lib.cpp` with `File::open` of `src/src/file.cpp`. The write path and
the read path behind `pwrite` and `pread` are not among the sources; they are
modelled from the specification, for one thread.

The per-thread allocator keeps 64 free lists (`free_lists[k-1]` holds the first
block index of free runs of exactly `k` blocks), a hint into the shared bitmap
and the cursor of the current log-entry block.

Conventions of the embedding

* Block indices (`LogicalBlockIdx`, an unsigned 32-bit integer in the source) and
  the other machine integers are natural numbers; the 32-bit unsigned
  arithmetic of the source is written with `add32` / `sub32`, which reduce
  modulo `2^32`.
* A `std::vector` free list is a `List` in the vector's order: `emplace_back`
  appends at the end, `back()` is the last element, `pop_back()` drops it.
* `free_lists` is a C array of `BITMAP_CAPACITY` vectors; every subscript is
  checked against `BITMAP_CAPACITY` and a subscript outside the array is the
  outcome `Outcome.fault`.
* A compare-and-swap is modelled as run by one thread: it compares, and stores
  when the comparison succeeds. A field of a block is passed to the function that
  updates it and the new value is returned.
* A call into the OS, or into code that is not among the sources, is given by its
  answer: the functions take the answers as arguments.
* `Bitmap::try_alloc` works on the shared persistent bitmap and is not part of
  this development; the field `Allocator.bitmap` lists the answers that the
  successive calls of `Bitmap::try_alloc` give.
-/

namespace MadFS

/-! ## Machine integers and constants -/

/-- Modelled from the spec: the constant `BITMAP_CAPACITY` is declared outside the
files of this development (`const.h`); a bitmap word is a 64-bit value and the
free lists are those of the run lengths 1..64. -/
def BITMAP_CAPACITY : Nat := 64

/-- Modelled from the spec: the constant `BITMAP_CAPACITY_SHIFT` is declared
outside the files of this development; it is the shift with
`1 << BITMAP_CAPACITY_SHIFT = BITMAP_CAPACITY`, so that a block-index slot stands
for 64 blocks. -/
def BITMAP_CAPACITY_SHIFT : Nat := 6

/-- Modelled from the spec: the constant `BLOCK_SIZE` is declared outside the files
of this development; a block is a fixed 4,096-byte unit. -/
def BLOCK_SIZE : Nat := 4096

/-- Modelled from the spec: the type `LogicalBlockIdx` is declared outside the
files of this development (`idx.h`); a logical block index is a 32-bit value, so
`sizeof(LogicalBlockIdx)` is 4. -/
def LIDX_SIZE : Nat := 4

/-- Addition of two `uint32_t` values. -/
def add32 (a b : Nat) : Nat := (a + b) % 4294967296

/-- Subtraction of two `uint32_t` values: the difference modulo `2^32`, that is
`a - b` when nothing is borrowed and `2^32 - (b - a)` when the result wraps. -/
def sub32 (a b : Nat) : Nat :=
  if b % 4294967296 ≤ a % 4294967296 then a % 4294967296 - b % 4294967296
  else 4294967296 - (b % 4294967296 - a % 4294967296)

/-- Auxiliary for `countr_one`: trailing one bits among the lowest `k` bits. -/
def countr_one_aux : Nat → Nat → Nat
  | 0, _ => 0
  | k + 1, w => if w % 2 = 1 then countr_one_aux k (w / 2) + 1 else 0

/-- The function `std::countr_one` on a 64-bit word. -/
def countr_one (w : Nat) : Nat := countr_one_aux 64 w

/-- Auxiliary for `countr_zero`: trailing zero bits among the lowest `k` bits. -/
def countr_zero_aux : Nat → Nat → Nat
  | 0, _ => 0
  | k + 1, w => if w % 2 = 0 then countr_zero_aux k (w / 2) + 1 else 0

/-- The function `std::countr_zero` on a 64-bit word (64 for the zero word). -/
def countr_zero (w : Nat) : Nat := countr_zero_aux 64 w

/-- Modelled from the spec: the header of a log entry is declared outside the
files of this development (`entry.h`); the spec gives it as
`{has_next:1, is_next_same_block:1, num_blocks:30}`, so a value stored in the
field `num_blocks` keeps its lowest 30 bits. -/
def num_blocks_field (v : Nat) : Nat := v % 1073741824

/-- Modelled from the spec: the macro `ALIGN_UP` is defined outside the files of
this development; `ALIGN_UP(x, a)` rounds `x` up to the next multiple of `a`, so
that `ALIGN_UP(num_blocks, BITMAP_CAPACITY) >> BITMAP_CAPACITY_SHIFT` is the
number `ceil(num_blocks/64)` of block indices that the spec gives for an entry. -/
def ALIGN_UP (x a : Nat) : Nat := (x + a - 1) / a * a

/-! ## State of the allocator and outcomes of a call -/

/-- One answer of `Bitmap::try_alloc`: `none` when the returned index is negative
(nothing could be reserved), `some (idx, bits)` for the index of the first block
of the reserved word and the captured 64-bit pattern (bit set = block in use). -/
abbrev TryAlloc := Option (Nat × Nat)

/-- Modelled from the spec: the class `dram::Allocator` is declared outside the
files of this development (`alloc.h`); the spec gives its state as an array of
free lists indexed by run length minus one (lengths 1..64), a recent-bitmap-word
hint, and the block index and byte offset of the current log-entry block. The
field `bitmap` stands for the shared bitmap that `Bitmap::try_alloc` works on. -/
structure Allocator where
  /-- The array `free_lists[BITMAP_CAPACITY]`; only subscripts below 64 are used. -/
  free_lists : Nat → List Nat
  /-- The answers that the next calls of `Bitmap::try_alloc` will give. -/
  bitmap : List TryAlloc
  /-- The hint passed to `Bitmap::try_alloc`. -/
  recent_bitmap_idx : Nat
  /-- Block index of the current log-entry block (0: none yet). -/
  curr_log_block_idx : Nat
  /-- Byte offset of the free space in the current log-entry block. -/
  curr_log_offset : Nat

/-- How a call ends. -/
inductive Outcome (α : Type) where
  /-- The call returns `v`. -/
  | ok (v : α) : Outcome α
  /-- A `PANIC_IF` fired; the argument is the allocator at that moment. -/
  | panic (s : Allocator) : Outcome α
  /-- A failed `assert` or a `free_lists` subscript outside `0..63`. -/
  | fault : Outcome α
  /-- The recorded answers of `Bitmap::try_alloc` are used up while the call
  still asks for another word; the argument is the allocator at that moment. -/
  | starved (s : Allocator) : Outcome α
  /-- The bound that the embedding puts on the iterations of a `while (true)`
  loop is used up (`alloc_log_entry_sat` shows that this never happens). -/
  | unfinished : Outcome α

/-- Sequencing of two steps: the second step runs on the value that the first
one returns; every other outcome of the first step ends the call. -/
def Outcome.bind {α β : Type} (o : Outcome α) (f : α → Outcome β) : Outcome β :=
  match o with
  | Outcome.ok v => f v
  | Outcome.panic s => Outcome.panic s
  | Outcome.fault => Outcome.fault
  | Outcome.starved s => Outcome.starved s
  | Outcome.unfinished => Outcome.unfinished

/-- The statement `free_lists[i].emplace_back(x)`, with the subscript checked. -/
def push_back (fl : Nat → List Nat) (i : Nat) (x : Nat) :
    Option (Nat → List Nat) :=
  if i < BITMAP_CAPACITY then some (Function.update fl i (fl i ++ [x])) else none

/-- The statement `free_lists[i].pop_back()`. -/
def pop_back (fl : Nat → List Nat) (i : Nat) : Nat → List Nat :=
  Function.update fl i (fl i).dropLast

/-! ## `Allocator::alloc` -/

/-- The loop `for (n = num_blocks + 1; n <= BITMAP_CAPACITY; ++n)` of
`Allocator::alloc` (lines 31-42). The first argument bounds the number of
iterations; `none` means that the loop ended without returning. -/
def alloc_longer (num_blocks : Nat) (a : Allocator) :
    Nat → Nat → Option (Outcome (Nat × Allocator))
  | 0, _ => none
  | todo + 1, n =>
    if n ≤ BITMAP_CAPACITY then
      if sub32 n 1 < BITMAP_CAPACITY then
        match (a.free_lists (sub32 n 1)).getLast? with
        | some lidx =>
          match push_back (pop_back a.free_lists (sub32 n 1))
              (sub32 (sub32 n num_blocks) 1) (add32 lidx num_blocks) with
          | some fl => some (Outcome.ok (lidx, { a with free_lists := fl }))
          | none => some Outcome.fault
        | none => alloc_longer num_blocks a todo (n + 1)
      else some Outcome.fault
    else none

/-- The body of the loop `while (num_bits_left > 0)` of `Allocator::alloc` for one
zero-run (lines 74-91): `left1` is `num_bits_left` at the first bit of the run
and `num_right_zeros` the length of the run. The first run that is long enough
is taken (its remainder goes to a free list), every other run goes to the free
list of its length. The result is the new `is_found`, `allocated_block_idx` and
free lists, or `none` for a subscript out of range. -/
def place_run (num_blocks allocated_idx left1 num_right_zeros : Nat) (is_found : Bool)
    (allocated_block_idx : Nat) (fl : Nat → List Nat) :
    Option (Bool × Nat × (Nat → List Nat)) :=
  if is_found = false ∧ num_right_zeros ≥ num_blocks then
    if num_right_zeros > num_blocks then
      match push_back fl (sub32 (sub32 num_right_zeros num_blocks) 1)
          (add32 (sub32 (add32 allocated_idx BITMAP_CAPACITY) left1) num_blocks) with
      | some fl1 => some (true, sub32 (add32 allocated_idx BITMAP_CAPACITY) left1, fl1)
      | none => none
    else some (true, sub32 (add32 allocated_idx BITMAP_CAPACITY) left1, fl)
  else
    match push_back fl (sub32 num_right_zeros 1)
        (sub32 (add32 allocated_idx BITMAP_CAPACITY) left1) with
    | some fl1 => some (is_found, allocated_block_idx, fl1)
    | none => none

/-- The loop `while (num_bits_left > 0)` of `Allocator::alloc` (lines 61-94),
which walks over the zero-runs of the captured word. The first argument bounds
the number of iterations (every iteration that does not leave the loop uses up
at least one of the 64 bits). The result is `is_found`, `allocated_block_idx`
and the free lists after the loop, or `none` for a subscript out of range.
The shifts are shifts of natural numbers; a shift by 64 happens only when it
uses up all bits that are left, and the loop then ends without looking at the
shifted value again. -/
def scan_word (num_blocks allocated_idx : Nat) :
    Nat → Nat → Nat → Bool → Nat → (Nat → List Nat) →
    Option (Bool × Nat × (Nat → List Nat))
  | 0, _, _, is_found, allocated_block_idx, fl => some (is_found, allocated_block_idx, fl)
  | fuel + 1, allocated_bits, num_bits_left, is_found, allocated_block_idx, fl =>
    if num_bits_left = 0 then some (is_found, allocated_block_idx, fl)
    else
      let num_right_ones := countr_one allocated_bits
      let bits1 := allocated_bits >>> num_right_ones
      let left1 := sub32 num_bits_left num_right_ones
      let num_right_zeros := min (countr_zero bits1) left1
      if num_right_zeros = 0 then some (is_found, allocated_block_idx, fl)
      else
        match place_run num_blocks allocated_idx left1 num_right_zeros is_found
            allocated_block_idx fl with
        | some (found1, blk1, fl1) =>
          scan_word num_blocks allocated_idx fuel (bits1 >>> num_right_zeros)
            (sub32 left1 num_right_zeros) found1 blk1 fl1
        | none => none

/-- The part of `Allocator::alloc` from the label `retry` on (lines 50-100): ask
the bitmap for a word, put its zero-runs on the free lists, and go back to
`retry` when no run was long enough. The recursion follows the answers of
`Bitmap::try_alloc`. The macro `PANIC_IF` is defined outside the files of this
development; its firing is the outcome `Outcome.panic`. -/
def alloc_retry (num_blocks : Nat) :
    List TryAlloc → Allocator → Outcome (Nat × Allocator)
  | [], a => Outcome.starved a
  | none :: rest, a => Outcome.panic { a with bitmap := rest }
  | some (allocated_idx, bits) :: rest, a =>
    match scan_word num_blocks allocated_idx BITMAP_CAPACITY (bits % 18446744073709551616)
        BITMAP_CAPACITY false 0 a.free_lists with
    | none => Outcome.fault
    | some (is_found, allocated_block_idx, fl) =>
      let a1 : Allocator :=
        { a with free_lists := fl, bitmap := rest,
                 recent_bitmap_idx := add32 allocated_idx BITMAP_CAPACITY }
      if is_found then Outcome.ok (allocated_block_idx, a1)
      else alloc_retry num_blocks rest a1

/-- The method `Allocator::alloc(num_blocks)` (lines 18-101). A failed
`assert(num_blocks <= BITMAP_CAPACITY)` is the outcome `Outcome.fault`. -/
def alloc (num_blocks : Nat) (a : Allocator) : Outcome (Nat × Allocator) :=
  if num_blocks ≤ BITMAP_CAPACITY then
    if sub32 num_blocks 1 < BITMAP_CAPACITY then
      match (a.free_lists (sub32 num_blocks 1)).getLast? with
      | some lidx =>
        Outcome.ok (lidx, { a with free_lists := pop_back a.free_lists (sub32 num_blocks 1) })
      | none =>
        match alloc_longer num_blocks a BITMAP_CAPACITY (num_blocks + 1) with
        | some r => r
        | none => alloc_retry num_blocks a.bitmap a
    else Outcome.fault
  else Outcome.fault

/-! ## `Allocator::free` -/

/-- The method `Allocator::free(block_idx, num_blocks)` (lines 103-108). -/
def free (block_idx : Nat) (num_blocks : Nat) (a : Allocator) : Outcome Allocator :=
  if block_idx = 0 then Outcome.ok a
  else
    match push_back a.free_lists (sub32 num_blocks 1) block_idx with
    | some fl => Outcome.ok { a with free_lists := fl }
    | none => Outcome.fault

/-- The loop `for (curr = group_begin; curr < image_size; ++curr)` of
`Allocator::free(recycle_image, image_size)` (lines 119-135). The first argument
is the number of iterations still to run, `image_size - curr`. The result is
`group_begin`, `group_begin_lidx` and the free lists after the loop. -/
def free_image_loop (recycle_image : List Nat) :
    Nat → Nat → Nat → Nat → (Nat → List Nat) →
    Option (Nat × Nat × (Nat → List Nat))
  | 0, _, group_begin, group_begin_lidx, fl => some (group_begin, group_begin_lidx, fl)
  | todo + 1, curr, group_begin, group_begin_lidx, fl =>
    if group_begin_lidx = 0 then
      if recycle_image.getD curr 0 = 0 then
        free_image_loop recycle_image todo (curr + 1) group_begin group_begin_lidx fl
      else
        free_image_loop recycle_image todo (curr + 1) curr (recycle_image.getD curr 0) fl
    else if recycle_image.getD curr 0 = add32 group_begin_lidx (sub32 curr group_begin) then
      free_image_loop recycle_image todo (curr + 1) group_begin group_begin_lidx fl
    else
      match push_back fl (sub32 (sub32 curr group_begin) 1) group_begin_lidx with
      | some fl1 =>
        free_image_loop recycle_image todo (curr + 1)
          (if recycle_image.getD curr 0 ≠ 0 then curr else group_begin)
          (recycle_image.getD curr 0) fl1
      | none => none

/-- The method `Allocator::free(recycle_image, image_size)` (lines 110-141); the
array and its size are one list. -/
def free_image (recycle_image : List Nat) (a : Allocator) : Outcome Allocator :=
  if recycle_image.length = 0 then Outcome.ok a
  else
    match free_image_loop recycle_image recycle_image.length 0 0 0 a.free_lists with
    | none => Outcome.fault
    | some (group_begin, group_begin_lidx, fl) =>
      if group_begin_lidx ≠ 0 then
        match push_back fl (sub32 (sub32 recycle_image.length group_begin) 1)
            group_begin_lidx with
        | some fl1 => Outcome.ok { a with free_lists := fl1 }
        | none => Outcome.fault
      else Outcome.ok { a with free_lists := fl }

/-! ## `Allocator::alloc_log_entry` -/

/-- One fragment of a log entry as `alloc_log_entry` sets it up: the place of its
header (`block_idx`, `local_offset`), the header fields it writes, and the number
of block-index slots it reserves behind the header. `next` is `none` when
`is_next_same_block` and `next` are not written (last fragment),
`some (true, off)` for `is_next_same_block = true` with `next.local_offset = off`
and `some (false, blk)` for `is_next_same_block = false` with
`next.block_idx = blk`. -/
structure Fragment where
  block_idx : Nat
  local_offset : Nat
  has_next : Bool
  num_blocks : Nat
  num_lidxs : Nat
  next : Option (Bool × Nat)

/-- What `alloc_log_entry` hands back: the output parameter `first_idx`
(block index and byte offset), the block that `first_block` points to, and the
chain of fragments that starts at the returned `first_entry`. -/
structure LogEntryAlloc where
  first_idx : Nat × Nat
  first_block : Nat
  fragments : List Fragment

/-- The loop `while (true)` of `Allocator::alloc_log_entry` (lines 164-196); the
fragment `curr_entry` is at `curr_log_offset` of the block `curr_log_block_idx`.
`fixed_size` is `pmem::LogEntry::fixed_size`, the first argument after it
bounds the number of iterations. The result lists the fragments set up from
this iteration on. A failed `assert` is the outcome `Outcome.fault`;
`BLOCK_SIZE - curr_log_offset` is a difference of unsigned 32-bit values. -/
def log_entry_loop (fixed_size : Nat) :
    Nat → Nat → Nat → Allocator → Outcome (List Fragment × Allocator)
  | 0, _, _, _ => Outcome.unfinished
  | fuel + 1, num_blocks, needed_lidxs_cnt, a =>
    let off1 := a.curr_log_offset + fixed_size
    let avail_lidxs_cnt := sub32 BLOCK_SIZE off1 / LIDX_SIZE
    if avail_lidxs_cnt > 0 then
      if needed_lidxs_cnt ≤ avail_lidxs_cnt then
        Outcome.ok
          ([⟨a.curr_log_block_idx, a.curr_log_offset, false, num_blocks_field num_blocks,
              needed_lidxs_cnt, none⟩],
            { a with curr_log_offset := off1 + needed_lidxs_cnt * LIDX_SIZE })
      else
        let stored := num_blocks_field ((avail_lidxs_cnt <<< BITMAP_CAPACITY_SHIFT) % 4294967296)
        let off2 := off1 + avail_lidxs_cnt * LIDX_SIZE
        if off2 ≤ BLOCK_SIZE then
          if sub32 BLOCK_SIZE off2 < fixed_size + LIDX_SIZE then
            (alloc 1 { a with curr_log_offset := off2 }).bind fun r =>
              (log_entry_loop fixed_size fuel (sub32 num_blocks stored)
                (sub32 needed_lidxs_cnt avail_lidxs_cnt)
                { r.2 with curr_log_block_idx := r.1, curr_log_offset := 0 }).bind fun rest =>
                  Outcome.ok
                    (⟨a.curr_log_block_idx, a.curr_log_offset, true, stored, avail_lidxs_cnt,
                        some (false, r.1)⟩ :: rest.1, rest.2)
          else
            (log_entry_loop fixed_size fuel (sub32 num_blocks stored)
              (sub32 needed_lidxs_cnt avail_lidxs_cnt)
              { a with curr_log_offset := off2 }).bind fun rest =>
                Outcome.ok
                  (⟨a.curr_log_block_idx, a.curr_log_offset, true, stored, avail_lidxs_cnt,
                      some (true, off2)⟩ :: rest.1, rest.2)
        else Outcome.fault
    else Outcome.fault

/-- The first statement of `Allocator::alloc_log_entry` (lines 148-156): take a
fresh log-entry block when there is none yet or when the current one has less
than `fixed_size + sizeof(LogicalBlockIdx)` bytes left. -/
def ensure_log_block (fixed_size : Nat) (a : Allocator) : Outcome Allocator :=
  if a.curr_log_block_idx = 0 ∨ sub32 BLOCK_SIZE a.curr_log_offset < fixed_size + LIDX_SIZE then
    (alloc 1 a).bind fun r =>
      Outcome.ok { r.2 with curr_log_block_idx := r.1, curr_log_offset := 0 }
  else Outcome.ok a

/-- The part of `Allocator::alloc_log_entry` after the first statement (lines
158-197): `first_idx` and `first_block` are taken from the cursor, then the loop
sets up the fragments. The loop runs at most `needed_lidxs_cnt + 1` times, since
every iteration that does not return reserves at least one block-index slot. -/
def place_log_entry (fixed_size num_blocks : Nat) (a0 : Allocator) :
    Outcome (LogEntryAlloc × Allocator) :=
  (log_entry_loop fixed_size
    (ALIGN_UP num_blocks BITMAP_CAPACITY >>> BITMAP_CAPACITY_SHIFT + 1) num_blocks
    (ALIGN_UP num_blocks BITMAP_CAPACITY >>> BITMAP_CAPACITY_SHIFT) a0).bind fun r =>
      Outcome.ok
        (⟨(a0.curr_log_block_idx, a0.curr_log_offset), a0.curr_log_block_idx, r.1⟩, r.2)

/-- The method `Allocator::alloc_log_entry(num_blocks, first_idx, first_block)`
(lines 143-197); `fixed_size` is `pmem::LogEntry::fixed_size`. -/
def alloc_log_entry (fixed_size num_blocks : Nat) (a : Allocator) :
    Outcome (LogEntryAlloc × Allocator) :=
  (ensure_log_block fixed_size a).bind (place_log_entry fixed_size num_blocks)

/-! ## Notions used to state the properties -/

/-- The outcome is a return with a value that satisfies `P`, or the failure of a
block allocation (panic of `PANIC_IF`, or no recorded bitmap answer left); it is
neither a fault nor an unfinished loop. -/
def Outcome.sat {α : Type} (o : Outcome α) (P : α → Prop) : Prop :=
  match o with
  | Outcome.ok v => P v
  | Outcome.panic _ => True
  | Outcome.starved _ => True
  | Outcome.fault => False
  | Outcome.unfinished => False

/-- The pair `(q, k)` is a maximal run of zero bits of the 64-bit word `w`: the
bits `q .. q+k-1` are 0, the bit below (if `q > 0`) is 1 and the bit above (if
`q + k < 64`) is 1. -/
def IsZeroRun (w q k : Nat) : Prop :=
  0 < k ∧ q + k ≤ 64 ∧ (∀ i, q ≤ i → i < q + k → w.testBit i = false) ∧
  (q = 0 ∨ w.testBit (q - 1) = true) ∧ (q + k = 64 ∨ w.testBit (q + k) = true)

instance (w q k : Nat) : Decidable (IsZeroRun w q k) := by
  unfold IsZeroRun; infer_instance

/-- The entry that a zero-run `(q, k)` of the word with base index `b` leaves
on `free_lists[i]` when it is put on the free lists whole: `b + q` on
`free_lists[k-1]`. -/
def whole_run_entry (b i : Nat) (r : Nat × Nat) : Option Nat :=
  if r.2 - 1 = i then some (add32 b r.1) else none

/-- The positions `s .. s+len-1` of the image are a maximal run of non-zero,
numerically consecutive block indices: every entry is non-zero, every entry is
its predecessor plus one, and the run can be extended neither to the left nor
to the right. -/
def IsImageRun (image : List Nat) (s len : Nat) : Prop :=
  0 < len ∧ s + len ≤ image.length ∧
  (∀ i, s ≤ i → i < s + len → image.getD i 0 ≠ 0) ∧
  (∀ i, s ≤ i → i < s + len - 1 → image.getD (i + 1) 0 = image.getD i 0 + 1) ∧
  (s = 0 ∨ image.getD (s - 1) 0 = 0 ∨ image.getD s 0 ≠ image.getD (s - 1) 0 + 1) ∧
  (s + len = image.length ∨ image.getD (s + len) 0 = 0 ∨
    image.getD (s + len) 0 ≠ image.getD (s + len - 1) 0 + 1)

instance (image : List Nat) (s len : Nat) : Decidable (IsImageRun image s len) := by
  unfold IsImageRun; infer_instance

/-- The entry that a maximal run `(s, len)` of the image leaves on
`free_lists[i]`: the block index at the first position of the run, on
`free_lists[len-1]`. -/
def image_run_entry (image : List Nat) (i : Nat) (r : Nat × Nat) : Option Nat :=
  if r.2 - 1 = i then some (image.getD r.1 0) else none

/-- What the loop of `alloc_log_entry`, started with the cursor of `a`, guarantees
for the chain of fragments `r.1` and the allocator `r.2` it ends with: the fields
`num_blocks` add up to `num_blocks`, the reserved slots add up to `needed`;
exactly the last fragment has `has_next = false`, every other fragment has
`num_blocks = 64 * num_lidxs`, at least one slot, and a continuation in another
block; every fragment lies within its block; the first fragment is at the
cursor of `a`; the cursor stays within the block. -/
def LoopPost (fixed_size num_blocks needed : Nat) (a : Allocator)
    (r : List Fragment × Allocator) : Prop :=
  (r.1.map Fragment.num_blocks).sum = num_blocks ∧
  (r.1.map Fragment.num_lidxs).sum = needed ∧
  (∃ init last, r.1 = init ++ [last] ∧ last.has_next = false ∧ last.next = none ∧
    ∀ f ∈ init, f.has_next = true ∧ f.num_blocks = 64 * f.num_lidxs ∧ 1 ≤ f.num_lidxs ∧
      ∃ blk, f.next = some (false, blk)) ∧
  (∀ f ∈ r.1, f.local_offset + fixed_size + f.num_lidxs * LIDX_SIZE ≤ BLOCK_SIZE) ∧
  (∃ f rest, r.1 = f :: rest ∧ f.block_idx = a.curr_log_block_idx ∧
    f.local_offset = a.curr_log_offset) ∧
  r.2.curr_log_offset ≤ BLOCK_SIZE

/-- What the loop of `alloc_log_entry` guarantees for the assertion
`avail_lidxs_cnt > 0` and for its progress, when it is entered with
`needed_lidxs_cnt = needed`: behind the header of every fragment there is room for
at least one block index; every fragment that is not the last one reserves at
least one slot (and so does the last one when `needed ≥ 1`); the reserved slots
add up to `needed`, so that there are at most `needed + 1` fragments. -/
def LoopProgress (fixed_size needed : Nat) (frags : List Fragment) : Prop :=
  (frags.map Fragment.num_lidxs).sum = needed ∧ frags.length ≤ needed + 1 ∧
  ∀ f ∈ frags, f.local_offset + fixed_size + LIDX_SIZE ≤ BLOCK_SIZE ∧
    (f.has_next = true → 1 ≤ f.num_lidxs) ∧ (1 ≤ needed → 1 ≤ f.num_lidxs)

/-- Every fragment with `has_next = true` fills its block up to the last byte and
is continued at offset 0 of another block: `is_next_same_block` is false and
`next.block_idx` is the block of the fragment that follows. -/
def ContinuesInFreshBlock (fixed_size : Nat) : List Fragment → Prop
  | [] => True
  | f :: rest =>
    (f.has_next = true →
      f.local_offset + fixed_size + f.num_lidxs * LIDX_SIZE = BLOCK_SIZE ∧
      ∃ g rest1, rest = g :: rest1 ∧ f.next = some (false, g.block_idx) ∧
        g.local_offset = 0) ∧
    ContinuesInFreshBlock fixed_size rest

/-- The chain of fragments `frags`, laid out from the cursor of `a`, and the
allocator `a2` that is left: the header of the first fragment is at the cursor
of `a`. When it is the only fragment it has `has_next = false`, and in `a2` the
cursor stands behind its header and its `num_lidxs` slots, nothing else of `a`
being changed. Otherwise it has `has_next = true`, its slots are all the slots
that fit into the block behind its header, the cursor is moved behind them,
`alloc(1)` on that allocator returns a block `b`, which the fragment names as
its continuation, and the remaining fragments are laid out from offset 0 of `b`
in the allocator that `alloc(1)` has left. -/
def ReservesChain (fixed_size : Nat) : List Fragment → Allocator → Allocator → Prop
  | [], _, _ => False
  | f :: rest, a, a2 =>
    f.block_idx = a.curr_log_block_idx ∧ f.local_offset = a.curr_log_offset ∧
    (rest = [] → f.has_next = false ∧
      a2 = { a with
        curr_log_offset := a.curr_log_offset + fixed_size + f.num_lidxs * LIDX_SIZE }) ∧
    (rest ≠ [] → f.has_next = true ∧
      f.num_lidxs = (BLOCK_SIZE - (a.curr_log_offset + fixed_size)) / LIDX_SIZE ∧
      ∃ b a1,
        alloc 1 { a with
          curr_log_offset := a.curr_log_offset + fixed_size + f.num_lidxs * LIDX_SIZE }
          = Outcome.ok (b, a1) ∧
        f.next = some (false, b) ∧
        ReservesChain fixed_size rest
          { a1 with curr_log_block_idx := b, curr_log_offset := 0 } a2)

/-! ## Functions that list what the loops do, used in the proofs -/

/-- The zero-runs that the loop of `scan_word` meets, in the order of the loop:
for every iteration that does not leave the loop, the value of `num_bits_left`
after the ones were removed and the value of `num_right_zeros`. -/
def raw_runs : Nat → Nat → Nat → List (Nat × Nat)
  | 0, _, _ => []
  | fuel + 1, allocated_bits, num_bits_left =>
    if num_bits_left = 0 then []
    else
      let num_right_ones := countr_one allocated_bits
      let bits1 := allocated_bits >>> num_right_ones
      let left1 := sub32 num_bits_left num_right_ones
      let num_right_zeros := min (countr_zero bits1) left1
      if num_right_zeros = 0 then []
      else (left1, num_right_zeros) ::
        raw_runs fuel (bits1 >>> num_right_zeros) (sub32 left1 num_right_zeros)

/-- A zero-run as `raw_runs` lists it, turned into (first bit, length). -/
def run_of_raw (r : Nat × Nat) : Nat × Nat := (64 - r.1, r.2)

/-- The maximal zero-runs `(first bit, length)` of a 64-bit word from low to
high, as the loop of `scan_word` meets them (`zero_runs_of_word_spec` shows that
these are exactly the pairs with `IsZeroRun`). -/
def zero_runs_of_word (w : Nat) : List (Nat × Nat) := (raw_runs 64 w 64).map run_of_raw

/-- The entries that `free_lists[i]` receives when every zero-run of every word of
the list (pairs of base index and captured bits) is put on the free lists whole. -/
def pulled_entries (i : Nat) : List (Nat × Nat) → List Nat
  | [] => []
  | bw :: ws =>
    (zero_runs_of_word bw.2).filterMap (whole_run_entry bw.1 i) ++ pulled_entries i ws

/-- The function `place_run` applied to a list of zero-runs in turn, each run
given as in `raw_runs`. -/
def place_runs (num_blocks allocated_idx : Nat) :
    List (Nat × Nat) → Bool → Nat → (Nat → List Nat) →
    Option (Bool × Nat × (Nat → List Nat))
  | [], is_found, allocated_block_idx, fl => some (is_found, allocated_block_idx, fl)
  | r :: rs, is_found, allocated_block_idx, fl =>
    match place_run num_blocks allocated_idx r.1 r.2 is_found allocated_block_idx fl with
    | some (found1, blk1, fl1) => place_runs num_blocks allocated_idx rs found1 blk1 fl1
    | none => none

/-- The groups that `Allocator::free(recycle_image, image_size)` puts on the free
lists, in the order of the calls of `emplace_back`: for every call the values of
`group_begin`, of `curr` (`image_size` for the call after the loop) and of
`group_begin_lidx`. The arguments are those of `free_image_loop`. -/
def image_groups (recycle_image : List Nat) :
    Nat → Nat → Nat → Nat → List (Nat × Nat × Nat)
  | 0, curr, group_begin, group_begin_lidx =>
    if group_begin_lidx ≠ 0 then [(group_begin, curr, group_begin_lidx)] else []
  | todo + 1, curr, group_begin, group_begin_lidx =>
    if group_begin_lidx = 0 then
      if recycle_image.getD curr 0 = 0 then
        image_groups recycle_image todo (curr + 1) group_begin group_begin_lidx
      else
        image_groups recycle_image todo (curr + 1) curr (recycle_image.getD curr 0)
    else if recycle_image.getD curr 0 = add32 group_begin_lidx (sub32 curr group_begin) then
      image_groups recycle_image todo (curr + 1) group_begin group_begin_lidx
    else
      (group_begin, curr, group_begin_lidx) ::
        image_groups recycle_image todo (curr + 1)
          (if recycle_image.getD curr 0 ≠ 0 then curr else group_begin)
          (recycle_image.getD curr 0)

/-- A group `(group_begin, curr, group_begin_lidx)` of `image_groups` as the run
`(first position, length)`. -/
def run_of_group (g : Nat × Nat × Nat) : Nat × Nat := (g.1, g.2.1 - g.1)

/-- The calls `free_lists[e - g - 1].emplace_back(lidx)` for a list of groups
`(g, e, lidx)`. -/
def push_groups : List (Nat × Nat × Nat) → (Nat → List Nat) →
    Option (Nat → List Nat)
  | [], fl => some fl
  | g :: gs, fl =>
    match push_back fl (sub32 (sub32 g.2.1 g.1) 1) g.2.2 with
    | some fl1 => push_groups gs fl1
    | none => none

/-- The part of `Allocator::free(recycle_image, image_size)` after the loop
(lines 136-140), applied to the result of the loop. -/
def free_image_finish (image_size : Nat) :
    Option (Nat × Nat × (Nat → List Nat)) →
    Option (Nat → List Nat)
  | none => none
  | some (group_begin, group_begin_lidx, fl) =>
    if group_begin_lidx ≠ 0 then
      push_back fl (sub32 (sub32 image_size group_begin) 1) group_begin_lidx
    else some fl

/-- The state of the loop of `free(recycle_image, image_size)` before the
iteration for `curr`: without an open group the entry before `curr` is a hole
(or `curr = 0`); with an open group the entries `group_begin .. curr-1` count up
from `group_begin_lidx` and the group cannot be extended to the left. -/
def GroupInv (image : List Nat) (curr gb : Nat) (gbl : Nat) : Prop :=
  (gbl = 0 → curr = 0 ∨ image.getD (curr - 1) 0 = 0) ∧
  (gbl ≠ 0 → gb < curr ∧ (∀ j, gb ≤ j → j < curr → image.getD j 0 = gbl + (j - gb)) ∧
    (gb = 0 ∨ image.getD (gb - 1) 0 = 0 ∨ image.getD gb 0 ≠ image.getD (gb - 1) 0 + 1))

/-- The remainder of the run `(p, L)` after its first `n` bits were taken. -/
def run_remainder (p L n : Nat) : List (Nat × Nat) :=
  if n < L then [(p + n, L - n)] else []

/-! ## Concrete allocator states and inputs of the examples -/

/-- An allocator without free runs, bitmap answers or log-entry block. -/
def Allocator.empty : Allocator := ⟨fun _ => [], [], 0, 0, 0⟩

/-- An allocator whose `free_lists[1]` holds the runs 100 and 200 and whose
`free_lists[7]` holds the run 300. -/
def two_runs_of_two : Allocator :=
  ⟨fun i => if i = 1 then [100, 200] else if i = 7 then [300] else [], [some (0, 0)], 0, 0, 0⟩

/-- An allocator with empty free lists whose bitmap hands out one fresh word
(all 64 blocks free) starting at block 0. -/
def fresh_word : Allocator := ⟨fun _ => [], [some (0, 0)], 0, 0, 0⟩

/-- The allocator after `k` successful calls of `alloc(1)`. -/
def after_single_allocs : Nat → Allocator → Allocator
  | 0, a => a
  | k + 1, a =>
    match alloc 1 a with
    | Outcome.ok (_, a1) => after_single_allocs k a1
    | _ => a

/-- An allocator with empty free lists whose bitmap answers with the word
`0b1110001101` for the blocks 128..191: the maximal zero-runs of the word are
bit 1 (length 1), bits 4..6 (length 3) and bits 10..63 (length 54). -/
def word_with_three_runs : Allocator := ⟨fun _ => [], [some (128, 909)], 0, 0, 0⟩

/-- An allocator with empty free lists whose bitmap is exhausted. -/
def out_of_space : Allocator := ⟨fun _ => [], [none], 0, 0, 0⟩

/-- An allocator with empty free lists whose bitmap answers once with a word that
has a single zero-run (bits 1..2 of the blocks 192..255) and then fails. -/
def nearly_out_of_space : Allocator :=
  ⟨fun _ => [], [some (192, 18446744073709551609), none], 0, 0, 0⟩

/-- An image of 65 numerically consecutive block indices 1..65. -/
def image_of_65 : List Nat := List.range' 1 65

/-- An image of 65 entries: the block index `2^32 - 1`, a hole, and the block
indices 1..63. -/
def image_wrapping : List Nat := 4294967295 :: List.range 64

/-- An allocator whose current log-entry block 5 has 24 bytes left and whose
`free_lists[0]` holds the single blocks 9, 8 and 7. -/
def log_block_nearly_full : Allocator :=
  ⟨fun i => if i = 0 then [9, 8, 7] else [], [], 0, 5, 4072⟩

/-- An allocator without a log-entry block whose `free_lists[0]` holds the
single blocks 9, 8 and 7. -/
def no_log_block : Allocator := ⟨fun i => if i = 0 then [9, 8, 7] else [], [], 0, 0, 0⟩

/-- An allocator with five free single blocks whose log-entry block 5 has room for
one header and three block indices. -/
def nearly_full_five_free : Allocator :=
  ⟨fun i => if i = 0 then [11, 10, 9, 8, 7] else [], [], 0, 5, 4072⟩

/-! ## `BitmapBlock`: bitmap block ids and block indices (`block.h`) -/

/-- Modelled from the spec: the constant `INLINE_BITMAP_CAPACITY` is declared
outside the files of this development (`const.h`); the inline bitmap of the meta
block covers the blocks 0..16383. -/
def INLINE_BITMAP_CAPACITY : Nat := 16384

/-- Modelled from the spec: the constant `BITMAP_BLOCK_CAPACITY_SHIFT` is declared
outside the files of this development (`const.h`); a bitmap block covers
`1 << BITMAP_BLOCK_CAPACITY_SHIFT = 32768` blocks. -/
def BITMAP_BLOCK_CAPACITY_SHIFT : Nat := 15

/-- Left shift of a `uint32_t` value: the bits shifted past bit 31 are lost. -/
def shl32 (x s : Nat) : Nat := (x % 4294967296 * 2 ^ s) % 4294967296

/-- Right shift of a `uint32_t` value. -/
def shr32 (x s : Nat) : Nat := x % 4294967296 / 2 ^ s

/-- `BitmapBlock::get_block_idx`: the block index of the bit `bitmap_local_idx` of
the bitmap block `bitmap_block_id`; the shift and the sums are those of 32-bit
unsigned integers. -/
def get_block_idx (bitmap_block_id bitmap_local_idx : Nat) : Nat :=
  if bitmap_block_id = 0 then bitmap_local_idx
  else
    add32 (add32 (shl32 bitmap_block_id BITMAP_BLOCK_CAPACITY_SHIFT) INLINE_BITMAP_CAPACITY)
      bitmap_local_idx

/-- `BitmapBlock::get_bitmap_block_idx`: the block index of a bitmap block. -/
def get_bitmap_block_idx (bitmap_block_id : Nat) : Nat :=
  get_block_idx bitmap_block_id 0

/-- `BitmapBlock::get_bitmap_block_id`, commented in the source as the reverse
mapping of `get_bitmap_block_idx`. -/
def get_bitmap_block_id (idx : Nat) : Nat :=
  shr32 (sub32 idx INLINE_BITMAP_CAPACITY) BITMAP_BLOCK_CAPACITY_SHIFT

/-! ## `TxMgr::advance_tx_idx` and `TxMgr::handle_idx_overflow` (`tx.h`) -/

/-- Modelled from the spec: the constant `NUM_INLINE_TX_ENTRY` is declared outside
the files of this development; the meta block keeps 30 cache lines of 64 bytes
for its 8-byte tx entries (the `static_assert`s of `block.h`). -/
def NUM_INLINE_TX_ENTRY : Nat := 240

/-- Modelled from the spec: the constant `NUM_TX_ENTRY` is declared outside the
files of this development; a tx block of 4096 bytes holds two 4-byte words next
to its 8-byte tx entries. -/
def NUM_TX_ENTRY : Nat := 511

/-- `TxEntryIdx`: the block of a tx entry (0 is the meta block) and the index of
the entry within the block. `TxLocalIdx` is a signed type in the source. -/
structure TxEntryIdx where
  block_idx : Nat
  local_idx : Int
deriving DecidableEq

/-- What `handle_idx_overflow` reads through its object: the next pointer of the
meta block, the next pointer of the tx block at each block index, and the block
index that `alloc_next_block`, whose definition is outside the files of this
development, returns when it is called. -/
structure TxMem where
  meta_next : Nat
  next_tx_block : Nat → Nat
  alloc_next_block : Nat

/-- The values that `advance_tx_idx` and `handle_idx_overflow` leave in their
reference parameters, with the returned flag. The pointer `tx_block` is the block
index of the tx block it points to, `none` being the null pointer. -/
structure TxCursor where
  ret : Bool
  tx_idx : TxEntryIdx
  tx_block : Option Nat
deriving DecidableEq

/-- The local variable `capacity` of `handle_idx_overflow`. -/
def capacity (block_idx : Nat) : Nat :=
  if block_idx = 0 then NUM_INLINE_TX_ENTRY else NUM_TX_ENTRY

/-- The read `is_inline ? meta->get_next_tx_block() : tx_block->get_next_tx_block()`
of `handle_idx_overflow`; `none` when it goes through a null `tx_block`. -/
def read_next_tx_block (m : TxMem) (block_idx : Nat) (tx_block : Option Nat) : Option Nat :=
  if block_idx = 0 then some m.meta_next else tx_block.map m.next_tx_block

/-- The last three statements of the overflow branch of `handle_idx_overflow`. -/
def move_to_block (tx_idx : TxEntryIdx) (block_idx : Nat) : TxCursor :=
  { ret := true
    tx_idx := { block_idx := block_idx, local_idx := tx_idx.local_idx - capacity tx_idx.block_idx }
    tx_block := some block_idx }

/-- `TxMgr::handle_idx_overflow`; `none` is the dereference of a null `tx_block`. -/
def handle_idx_overflow (m : TxMem) (tx_idx : TxEntryIdx) (tx_block : Option Nat)
    (do_alloc : Bool) : Option TxCursor :=
  if tx_idx.local_idx ≥ capacity tx_idx.block_idx then
    match read_next_tx_block m tx_idx.block_idx tx_block with
    | none => none
    | some block_idx =>
      if block_idx = 0 then
        if !do_alloc then some { ret := false, tx_idx := tx_idx, tx_block := tx_block }
        else some (move_to_block tx_idx m.alloc_next_block)
      else some (move_to_block tx_idx block_idx)
  else some { ret := true, tx_idx := tx_idx, tx_block := tx_block }

/-- `TxMgr::advance_tx_idx`; `none` also stands for the failed assertion
`tx_idx.local_idx >= 0`. -/
def advance_tx_idx (m : TxMem) (tx_idx : TxEntryIdx) (tx_block : Option Nat)
    (do_alloc : Bool) : Option TxCursor :=
  if tx_idx.local_idx ≥ 0 then
    handle_idx_overflow m { tx_idx with local_idx := tx_idx.local_idx + 1 } tx_block do_alloc
  else none

/-- A meta block without a next tx block, in a file without tx blocks. -/
def no_next_tx_block : TxMem :=
  { meta_next := 0, next_tx_block := fun _ => 0, alloc_next_block := 0 }

/-- A file whose meta block is followed by the tx block 7 and then the tx block 9. -/
def chain_0_7_9 : TxMem :=
  { meta_next := 7, next_tx_block := fun b => if b = 7 then 9 else 0, alloc_next_block := 0 }

/-! ## Tx blocks: `try_append` and the next pointer (`block.h`, `block/tx.h`) -/

/-- The loop of `TxLogBlock::try_append` from the index `idx`, with `todo` indices
`idx, ..., num_entries - 1` still to try. A slot is the 64-bit word `data` of a tx
entry; the compare-and-swap stores `entry` where it finds 0. The result is the
returned index, -1 when the loop runs out, with the array afterwards. -/
def try_append_loop (entry : Nat) : Nat → Nat → List Nat → Int × List Nat
  | 0, _, entries => (-1, entries)
  | todo + 1, idx, entries =>
    if entries.getD idx 0 = 0 then ((idx : Int), entries.set idx entry)
    else try_append_loop entry todo (idx + 1) entries

/-- `TxLogBlock::try_append`, run by one thread. The array `entries` and its size
`num_entries` are one list; `hint` is a `TxLocalIdx` that is not negative. -/
def try_append (entries : List Nat) (entry : Nat) (hint : Nat) : Int × List Nat :=
  try_append_loop entry (entries.length - hint) hint entries

/-- `TxBlock::set_next_tx_block`, a compare-and-swap of the field `next` against 0:
the returned flag and the field afterwards. -/
def set_next_tx_block (next : Nat) (block_idx : Nat) : Bool × Nat :=
  if next = 0 then (true, block_idx) else (false, next)

/-- `TxLogBlock::set_next_block_idx`, the same compare-and-swap on the field `next`
of a `TxLogBlock`; `this_next` is the field and `next` the argument. -/
def set_next_block_idx (this_next : Nat) (next : Nat) : Bool × Nat :=
  if this_next = 0 then (true, next) else (false, this_next)

/-- The field `next` after a sequence of calls of `set_next_tx_block`. -/
def next_after_calls (next : Nat) (calls : List Nat) : Nat :=
  calls.foldl (fun n b => (set_next_tx_block n b).2) next

/-! ## The order of tx entries and the hints of the meta block (`block/tx.h`, `block.h`) -/

/-- Modelled from the spec: the comparison of two tx entry locators is implemented
outside the files of this development. The sources only hold the field `tx_seq` of
`TxBlock` with the comment that locators of one block compare by their local index
and locators of different blocks by the sequence numbers of their blocks; the
specification gives `a < b` as below, `tx_seq` being the sequence number of each
block (the meta block is block 0). -/
def tx_idx_lt (tx_seq : Nat → Nat) (a b : TxEntryIdx) : Prop :=
  tx_seq a.block_idx < tx_seq b.block_idx ∨
    (a.block_idx = b.block_idx ∧ a.local_idx < b.local_idx)

instance (tx_seq : Nat → Nat) (a b : TxEntryIdx) : Decidable (tx_idx_lt tx_seq a b) := by
  unfold tx_idx_lt; infer_instance

/-- Modelled from the spec: the blocks that hold the tx entries of one file, the
meta block followed by the tx blocks in the order of the next pointers; the
sequence number strictly increases along this list (the code that assigns the
sequence numbers is outside the files of this development). -/
def OneFile (tx_seq : Nat → Nat) (blocks : List Nat) : Prop :=
  blocks.Pairwise (fun x y => tx_seq x < tx_seq y)

instance (tx_seq : Nat → Nat) (blocks : List Nat) : Decidable (OneFile tx_seq blocks) := by
  unfold OneFile; infer_instance

/-- `MetaBlock::set_tx_log_tail`: the field `tx_log_tail` after the call. The
operator `<=` of `TxEntryIdx` is declared outside the files of this development
and is the parameter `le`. -/
def set_tx_log_tail (le : TxEntryIdx → TxEntryIdx → Bool)
    (this_tx_log_tail tx_log_tail : TxEntryIdx) : TxEntryIdx :=
  if le tx_log_tail this_tx_log_tail then this_tx_log_tail else tx_log_tail

/-- `MetaBlock::set_tx_log_head`: the field `tx_log_head` after the call. -/
def set_tx_log_head (le : TxEntryIdx → TxEntryIdx → Bool)
    (this_tx_log_head tx_log_head : TxEntryIdx) : TxEntryIdx :=
  if le tx_log_head this_tx_log_head then this_tx_log_head else tx_log_head

/-- An order of locators used in the examples: by block index, then by local
index. -/
def le_by_index (a b : TxEntryIdx) : Bool :=
  decide (a.block_idx < b.block_idx ∨ (a.block_idx = b.block_idx ∧ a.local_idx ≤ b.local_idx))

/-- The field `tx_log_tail` after a sequence of calls of `set_tx_log_tail`. -/
def tail_after_calls (le : TxEntryIdx → TxEntryIdx → Bool) (this_tx_log_tail : TxEntryIdx)
    (calls : List TxEntryIdx) : TxEntryIdx :=
  calls.foldl (set_tx_log_tail le) this_tx_log_tail

/-! ## `ShmMgr::init_shm_path` (`shm.h`) -/

/-- The digits that the conversion `%lx` of `sprintf` prints for `v`, most
significant first and in front of `acc`; lower-case letters stand for the digits
10..15. A 64-bit value has at most 16 digits, which bounds the recursion. -/
def lx_digits : Nat → Nat → List Char → List Char
  | 0, _, acc => acc
  | fuel + 1, v, acc =>
    if v < 16 then Nat.digitChar v :: acc
    else lx_digits fuel (v / 16) (Nat.digitChar (v % 16) :: acc)

/-- The conversion `%0<width>lx` of `sprintf` on an `unsigned long`: the digits of
the value, with zeros in front when there are fewer than `width` of them. -/
def fmt_0lx (width v : Nat) : List Char :=
  List.replicate (width - (lx_digits 16 (v % 18446744073709551616) []).length) '0' ++
    lx_digits 16 (v % 18446744073709551616) []

/-- What `fgetxattr` answers for the attribute that holds the path. -/
inductive GetXattr where
  /-- The attribute exists; its value is copied to `path`. -/
  | value (path : List Char) : GetXattr
  /-- `rc == -1 && errno == ENODATA`: the file has no such attribute. -/
  | no_data : GetXattr
  /-- `rc == -1` with another `errno`. -/
  | failed : GetXattr
deriving DecidableEq

/-- How a call of `init_shm_path` ends. -/
inductive ShmPath where
  /-- The call returns with these characters in `path`. -/
  | path (p : List Char) : ShmPath
  /-- A `PANIC` or `PANIC_IF` fired. -/
  | panic : ShmPath
  /-- The `long` arithmetic on the change time overflows. -/
  | undefined : ShmPath
deriving DecidableEq

/-- `ShmMgr::init_shm_path`. `st_ino` is an `unsigned long`; `tv_sec` and `tv_nsec`
are the change time `stat.st_ctim`, two `long` values that are not negative here;
`set_rc` is what `fsetxattr` returns. The characters written to `path` are given
without the terminating zero. -/
def init_shm_path (xattr : GetXattr) (set_rc : Int) (st_ino tv_sec tv_nsec : Nat) : ShmPath :=
  match xattr with
  | GetXattr.no_data =>
    if tv_sec * 1000000000 + tv_nsec < 9223372036854775808 then
      if set_rc = -1 then ShmPath.panic
      else
        ShmPath.path ("/dev/shm/ulayfs_".toList ++ fmt_0lx 16 st_ino ++ [ '_' ] ++
          fmt_0lx 13 ((tv_sec * 1000000000 + tv_nsec) >>> 3))
    else ShmPath.undefined
  | GetXattr.failed => ShmPath.panic
  | GetXattr.value p => ShmPath.path p

/-- The value of a lower-case hexadecimal digit. -/
def hex_digit_value (c : Char) : Nat :=
  if c.isDigit then c.toNat - 48 else c.toNat - 87

/-- The number that a string of hexadecimal digits denotes. -/
def hex_value (cs : List Char) : Nat :=
  cs.foldl (fun a c => 16 * a + hex_digit_value c) 0

/-- The lower-case hexadecimal digits `0..9`, `a..f`. -/
def is_lower_hex (c : Char) : Bool :=
  c.isDigit || (97 ≤ c.toNat && c.toNat ≤ 102)

/-! ## The byte range of a write and the flush of a tx block (`tx.h`, `block/tx.h`) -/

/-- Modelled from the spec: the derived, read-only members of `TxMgr::Tx`,
`TxMgr::CoWTx` and `TxMgr::MultiBlockTx`. The sources declare the members with
their comments (`tx.h`); the constructors that compute them are outside the files
of this development. -/
structure MultiBlockTx where
  /-- The byte range to be written is `[offset, end_offset)`. -/
  end_offset : Nat
  /-- The virtual block that contains the first byte. -/
  begin_vidx : Nat
  /-- The blocks to be written are `[begin_vidx, end_vidx)`. -/
  end_vidx : Nat
  /-- The first virtual block that is written entirely. -/
  begin_full_vidx : Nat
  /-- The end of the virtual blocks that are written entirely. -/
  end_full_vidx : Nat
  /-- The number of bytes written in the first block when it is partial. -/
  first_block_local_offset : Nat
  /-- The number of bytes written in the last block when it is partial. -/
  last_block_local_offset : Nat
deriving DecidableEq

/-- Modelled from the spec: the constructor of `TxMgr::MultiBlockTx` with those of
its base classes, which are outside the files of this development. The covered
block range is `[floor(off/4096), ceil((off+count)/4096))`, the inner aligned range
is `[ceil(off/4096), floor((off+count)/4096))`; the first partial block takes the
bytes from `offset` to the next block boundary (4095 bytes for the offset 4097)
and the last partial block the bytes from the last block boundary to `end_offset`
(1 byte for the end offset 4097). -/
def MultiBlockTx.init (count offset : Nat) : MultiBlockTx :=
  { end_offset := offset + count
    begin_vidx := offset / BLOCK_SIZE
    end_vidx := ALIGN_UP (offset + count) BLOCK_SIZE / BLOCK_SIZE
    begin_full_vidx := ALIGN_UP offset BLOCK_SIZE / BLOCK_SIZE
    end_full_vidx := (offset + count) / BLOCK_SIZE
    first_block_local_offset := ALIGN_UP offset BLOCK_SIZE - offset
    last_block_local_offset := (offset + count) % BLOCK_SIZE }

/-- Modelled from the spec: the constant `NUM_TX_ENTRY_PER_BLOCK` is declared
outside the files of this development; `static_assert(sizeof(TxBlock) ==
BLOCK_SIZE)` with 8-byte entries followed by the two 4-byte words `next` and
`tx_seq` gives 511 entries. -/
def NUM_TX_ENTRY_PER_BLOCK : Nat := 511

/-- `TxBlock::flush_tx_block(begin_idx)`: the arguments of `persist_unfenced`, as
the byte offset of `&tx_entries[begin_idx]` within the block and the length. The
array `tx_entries` is the first member of the block; `sizeof(TxEntry)` is 8 and
`sizeof(LogicalBlockIdx)` is 4; the length is a `size_t`. -/
def flush_tx_block (begin_idx : Int) : Int × Int :=
  (8 * begin_idx, (8 * (NUM_TX_ENTRY_PER_BLOCK - begin_idx) + 2 * 4) % 18446744073709551616)

/-! ## The intercepted `open`, `pwrite` and `pread` (`lib.cpp`, `file.cpp`) -/

/-- The flag `O_CREAT` of `<fcntl.h>` (Linux). -/
def O_CREAT : Nat := 64

/-- Modelled from the spec: a commit entry of the tx log,
`{virtual_block_start, num_blocks, new_logical_block_start}`; the classes of the tx
entries are declared outside the files of this development. -/
structure CommitEntry where
  virtual_block_start : Nat
  num_blocks : Nat
  new_logical_block_start : Nat
deriving DecidableEq

/-- Modelled from the spec: the mapped file as the write path and the read path
see it, the installed commit entries in the order of the tx log and the bytes of
the blocks (`blocks l j` is byte `j` of the block with logical index `l`). -/
structure Image where
  tx_log : List CommitEntry
  blocks : Nat → Nat → Nat

/-- Modelled from the spec: the class `dram::File` is declared outside the files
of this development (`file.h`). Of its members the descriptor, the open flags and
the mapping of the file (`meta`, `idx_map`) are kept; `is_mapped` tells whether
`meta` has been set. -/
structure File where
  fd : Int
  open_flags : Nat
  is_mapped : Bool
  image : Image

/-- The object that `new dram::File()` returns. -/
def File.fresh : File :=
  { fd := 0, open_flags := 0, is_mapped := false,
    image := { tx_log := [], blocks := fun _ _ => 0 } }

/-- The answers of the calls that `File::open` makes. -/
structure OpenAnswers where
  /-- The value that `posix::open` returns. -/
  open_fd : Int
  /-- The value that `posix::fstat` returns. -/
  fstat_ret : Int
  /-- The field `st_size` that `posix::fstat` fills in. -/
  st_size : Int
  /-- The value that `posix::ftruncate` returns. -/
  ftruncate_ret : Int
  /-- Whether `idx_map.init`, `allocator.init` and `meta->init` or
  `meta->verify_ready`, which are defined outside the files of this development,
  all return. -/
  init_returns : Bool
  /-- The content of the file that `idx_map.init` maps. -/
  mapped : Image

/-- How a call of `open` or `File::open` ends. -/
inductive OpenResult (α : Type) where
  /-- The call returns `v`. -/
  | returned (v : α) : OpenResult α
  /-- The call leaves by the exception `std::runtime_error(what)`. -/
  | threw (what : String) : OpenResult α
  /-- A call into code outside the files of this development does not return. -/
  | no_return : OpenResult α

/-- The end of `File::open`, from `meta = idx_map.init(fd)` on. -/
def File.open_mapping (file : File) (os : OpenAnswers) : OpenResult (Int × File) :=
  if os.init_returns then
    OpenResult.returned (file.fd, { file with is_mapped := true, image := os.mapped })
  else OpenResult.no_return

/-- `File::open(pathname, flags, mode)`: the returned value and the object
afterwards. -/
def File.open (file : File) (os : OpenAnswers) (flags : Nat) : OpenResult (Int × File) :=
  if os.open_fd < 0 then OpenResult.returned (os.open_fd, { file with fd := os.open_fd })
  else if flags &&& O_CREAT ≠ 0 then
    if os.fstat_ret ≠ 0 then OpenResult.threw "Fail to fstat!"
    else if os.st_size = 0 then
      if os.ftruncate_ret ≠ 0 then OpenResult.threw "Fail to ftruncate!"
      else File.open_mapping { file with fd := os.open_fd, open_flags := flags } os
    else File.open_mapping { file with fd := os.open_fd, open_flags := flags } os
  else File.open_mapping { file with fd := os.open_fd, open_flags := flags } os

/-- The function `open` of `lib.cpp`: the returned descriptor and the table
`files` afterwards. The table maps a descriptor to its `File`; the pointer `file`
comes from `new` and is not null, so the assignment `files[fd] = file` is made
whenever `file->open` returns. -/
def ulayfs.open (files : Int → Option File) (os : OpenAnswers) (flags : Nat) :
    OpenResult (Int × (Int → Option File)) :=
  match File.fresh.open os flags with
  | OpenResult.returned (fd, file) =>
    OpenResult.returned (fd, Function.update files fd (some file))
  | OpenResult.threw what => OpenResult.threw what
  | OpenResult.no_return => OpenResult.no_return

/-- The answers of the OS for an `open` that fails. -/
def open_fails : OpenAnswers :=
  { open_fd := -1, fstat_ret := 0, st_size := 0, ftruncate_ret := 0, init_returns := true,
    mapped := { tx_log := [], blocks := fun _ _ => 0 } }

/-- The answers of the OS for an `open` that succeeds with the descriptor 3 and is
followed by a failing `fstat`. -/
def fstat_fails : OpenAnswers :=
  { open_fd := 3, fstat_ret := -1, st_size := 0, ftruncate_ret := 0, init_returns := true,
    mapped := { tx_log := [], blocks := fun _ _ => 0 } }

/-- The answers of the OS for the creation of an empty file with the descriptor
3. -/
def creates_file : OpenAnswers :=
  { open_fd := 3, fstat_ret := 0, st_size := 0, ftruncate_ret := 0, init_returns := true,
    mapped := { tx_log := [], blocks := fun _ _ => 0 } }

/-- Modelled from the spec: the number `ve - vb` of blocks that the byte range
`[offset, offset + count)` of a write covers, `vb` being the block of its first
byte and `ve` the end of the covered block range (the member `num_blocks` of
`TxMgr::Tx`, whose constructor is outside the files of this development). -/
def Tx.num_blocks (count offset : Nat) : Nat :=
  ALIGN_UP (offset + count) BLOCK_SIZE / BLOCK_SIZE - offset / BLOCK_SIZE

theorem sub32_of_le {a b : Nat} (hb : b ≤ a) (ha : a < 4294967296) : sub32 a b = a - b := by
  unfold sub32; split <;> omega

theorem add32_of_lt {a b : Nat} (h : a + b < 4294967296) : add32 a b = a + b := by
  unfold add32; omega

theorem push_back_of_lt {fl : Nat → List Nat} {i : Nat} (x : Nat)
    (hi : i < 64) : push_back fl i x = some (Function.update fl i (fl i ++ [x])) := by
  simp [push_back, BITMAP_CAPACITY, hi]

/-- When `free_lists[n-1]` ends with `lidx`, `alloc(n)` pops and returns it. -/
theorem alloc_pop (n : Nat) (a : Allocator) (h1 : 1 ≤ n) (h64 : n ≤ 64)
    (rest : List Nat) (lidx : Nat)
    (hl : a.free_lists (n - 1) = rest ++ [lidx]) :
    alloc n a = Outcome.ok (lidx, { a with free_lists := Function.update a.free_lists (n - 1) rest }) := by
  have hs : sub32 n 1 = n - 1 := sub32_of_le h1 (by omega)
  have hlt : n - 1 < 64 := by omega
  simp [alloc, BITMAP_CAPACITY, h64, hs, hlt, hl, pop_back]

theorem exists_eq_concat_of_ne_nil {α : Type} {l : List α} (h : l ≠ []) :
    ∃ rest x, l = rest ++ [x] :=
  ⟨l.dropLast, l.getLast h, (List.dropLast_append_getLast h).symm⟩

/-- The loop over the longer free lists stops at the first non-empty one. -/
theorem alloc_longer_hit (nb : Nat) (a : Allocator) (m : Nat) (rest : List Nat)
    (lidx : Nat) (hnb : 1 ≤ nb) (hnm : nb < m) (hm : m ≤ 64)
    (hl : a.free_lists (m - 1) = rest ++ [lidx]) :
    ∀ (todo n : Nat), nb < n → n ≤ m → m - n < todo →
      (∀ j, n ≤ j → j < m → a.free_lists (j - 1) = []) →
      alloc_longer nb a todo n = some (Outcome.ok (lidx,
        { a with
          free_lists :=
            Function.update (Function.update a.free_lists (m - 1) rest)
              (m - nb - 1) (a.free_lists (m - nb - 1) ++ [add32 lidx nb]) })) := by
  intro todo
  induction todo with
  | zero => intro n _ _ h; omega
  | succ t ih =>
    intro n hn hnm2 ht hempty
    have hs : sub32 n 1 = n - 1 := sub32_of_le (by omega) (by omega)
    have hlt : n - 1 < 64 := by omega
    have hn64 : n ≤ 64 := by omega
    by_cases hcase : n = m
    · subst hcase
      have hs1 : sub32 n nb = n - nb := sub32_of_le (by omega) (by omega)
      have hs2 : sub32 (n - nb) 1 = n - nb - 1 := sub32_of_le (by omega) (by omega)
      have hlt2 : n - nb - 1 < 64 := by omega
      have hd : n - nb - 1 ≠ n - 1 := by omega
      simp only [alloc_longer, hs, hs1, hs2]
      simp [BITMAP_CAPACITY, hn64, hlt, hl, pop_back, push_back, hlt2, Function.update_noteq hd]
    · have he : a.free_lists (n - 1) = [] := hempty n (le_refl n) (by omega)
      have hrec := ih (n + 1) (by omega) (by omega) (by omega)
        (fun j hj1 hj2 => hempty j (by omega) hj2)
      simp [alloc_longer, BITMAP_CAPACITY, hn64, hs, hlt, he, hrec]

/-- C3: for 1 ≤ n ≤ 64 and a non-empty `free_lists[n-1]`, `alloc(n)` removes the
last entry of `free_lists[n-1]` and returns it; every other free list, the
bitmap, the bitmap hint and the log-entry cursor are unchanged. -/
theorem alloc_exact_fit (n : Nat) (a : Allocator) (h1 : 1 ≤ n) (h64 : n ≤ 64)
    (hne : a.free_lists (n - 1) ≠ []) :
    ∃ lidx a1, alloc n a = Outcome.ok (lidx, a1) ∧
      a.free_lists (n - 1) = a1.free_lists (n - 1) ++ [lidx] ∧
      (∀ i, i ≠ n - 1 → a1.free_lists i = a.free_lists i) ∧
      a1.bitmap = a.bitmap ∧ a1.recent_bitmap_idx = a.recent_bitmap_idx ∧
      a1.curr_log_block_idx = a.curr_log_block_idx ∧
      a1.curr_log_offset = a.curr_log_offset := by
  obtain ⟨rest, lidx, hl⟩ := exists_eq_concat_of_ne_nil hne
  refine ⟨lidx, { a with free_lists := Function.update a.free_lists (n - 1) rest },
    alloc_pop n a h1 h64 rest lidx hl, ?_, ?_, rfl, rfl, rfl, rfl⟩
  · simp [hl]
  · intro i hi
    simp [Function.update_noteq hi]

theorem alloc_exact_fit_witness :
    1 ≤ 2 ∧ 2 ≤ 64 ∧ two_runs_of_two.free_lists (2 - 1) ≠ [] ∧
    ∃ lidx a1, alloc 2 two_runs_of_two = Outcome.ok (lidx, a1) ∧
      two_runs_of_two.free_lists (2 - 1) = a1.free_lists (2 - 1) ++ [lidx] ∧
      (∀ i, i ≠ 2 - 1 → a1.free_lists i = two_runs_of_two.free_lists i) ∧
      a1.bitmap = two_runs_of_two.bitmap ∧
      a1.recent_bitmap_idx = two_runs_of_two.recent_bitmap_idx ∧
      a1.curr_log_block_idx = two_runs_of_two.curr_log_block_idx ∧
      a1.curr_log_offset = two_runs_of_two.curr_log_offset :=
  ⟨by decide, by decide, by simp [two_runs_of_two],
    alloc_exact_fit 2 two_runs_of_two (by decide) (by decide) (by simp [two_runs_of_two])⟩

/-- C2: for 1 ≤ n ≤ 64, an empty `free_lists[n-1]` and some non-empty
`free_lists[m-1]` with n < m ≤ 64, `alloc(n)` takes the smallest such m, removes
the last entry `lidx` of `free_lists[m-1]`, returns `lidx` and appends `lidx + n`
(a 32-bit sum) to `free_lists[m-n-1]`; no other free list changes, and the
bitmap answers and the bitmap hint are untouched. -/
theorem alloc_split_longer (n : Nat) (a : Allocator) (h1 : 1 ≤ n) (h64 : n ≤ 64)
    (hempty : a.free_lists (n - 1) = [])
    (hsome : ∃ m, n < m ∧ m ≤ 64 ∧ a.free_lists (m - 1) ≠ []) :
    ∃ m lidx a1,
      (n < m ∧ m ≤ 64 ∧ a.free_lists (m - 1) ≠ [] ∧
        ∀ j, n < j → j < m → a.free_lists (j - 1) = []) ∧
      alloc n a = Outcome.ok (lidx, a1) ∧
      a.free_lists (m - 1) = a1.free_lists (m - 1) ++ [lidx] ∧
      a1.free_lists (m - n - 1) = a.free_lists (m - n - 1) ++ [add32 lidx n] ∧
      (lidx + n < 4294967296 → add32 lidx n = lidx + n) ∧
      (∀ i, i ≠ m - 1 → i ≠ m - n - 1 → a1.free_lists i = a.free_lists i) ∧
      a1.bitmap = a.bitmap ∧ a1.recent_bitmap_idx = a.recent_bitmap_idx ∧
      a1.curr_log_block_idx = a.curr_log_block_idx ∧
      a1.curr_log_offset = a.curr_log_offset := by
  classical
  have hmin := Nat.find_spec hsome
  have hless := fun j (hj : j < Nat.find hsome) => Nat.find_min hsome hj
  generalize Nat.find hsome = m at hmin hless
  obtain ⟨hnm, hm, hne⟩ := hmin
  obtain ⟨rest, lidx, hl⟩ := exists_eq_concat_of_ne_nil hne
  have hsmall : ∀ j, n < j → j < m → a.free_lists (j - 1) = [] := by
    intro j hj1 hj2
    by_contra hc
    exact hless j hj2 ⟨hj1, by omega, hc⟩
  have hloop := alloc_longer_hit n a m rest lidx h1 hnm hm hl 64 (n + 1) (by omega) (by omega)
    (by omega) (fun j hj1 hj2 => hsmall j (by omega) hj2)
  have hs : sub32 n 1 = n - 1 := sub32_of_le h1 (by omega)
  have hlt : n - 1 < 64 := by omega
  have hd : m - n - 1 ≠ m - 1 := by omega
  refine ⟨m, lidx,
    { a with
      free_lists :=
        Function.update (Function.update a.free_lists (m - 1) rest)
          (m - n - 1) (a.free_lists (m - n - 1) ++ [add32 lidx n]) },
    ⟨hnm, hm, hne, hsmall⟩, ?_, ?_, ?_, fun h => add32_of_lt h, ?_, rfl, rfl, rfl, rfl⟩
  · simp [alloc, BITMAP_CAPACITY, h64, hs, hlt, hempty, hloop]
  · simp [hl, Function.update_noteq hd.symm]
  · simp [Function.update_noteq hd]
  · intro i hi1 hi2
    simp [Function.update_noteq hi1, Function.update_noteq hi2]

theorem alloc_split_longer_witness :
    1 ≤ 1 ∧ 1 ≤ 64 ∧ two_runs_of_two.free_lists (1 - 1) = [] ∧
    (∃ m, 1 < m ∧ m ≤ 64 ∧ two_runs_of_two.free_lists (m - 1) ≠ []) ∧
    ∃ m lidx a1,
      (1 < m ∧ m ≤ 64 ∧ two_runs_of_two.free_lists (m - 1) ≠ [] ∧
        ∀ j, 1 < j → j < m → two_runs_of_two.free_lists (j - 1) = []) ∧
      alloc 1 two_runs_of_two = Outcome.ok (lidx, a1) ∧
      two_runs_of_two.free_lists (m - 1) = a1.free_lists (m - 1) ++ [lidx] ∧
      a1.free_lists (m - 1 - 1) = two_runs_of_two.free_lists (m - 1 - 1) ++ [add32 lidx 1] ∧
      (lidx + 1 < 4294967296 → add32 lidx 1 = lidx + 1) ∧
      (∀ i, i ≠ m - 1 → i ≠ m - 1 - 1 → a1.free_lists i = two_runs_of_two.free_lists i) ∧
      a1.bitmap = two_runs_of_two.bitmap ∧
      a1.recent_bitmap_idx = two_runs_of_two.recent_bitmap_idx ∧
      a1.curr_log_block_idx = two_runs_of_two.curr_log_block_idx ∧
      a1.curr_log_offset = two_runs_of_two.curr_log_offset :=
  ⟨by decide, by decide, by simp [two_runs_of_two], ⟨2, by simp [two_runs_of_two]⟩,
    alloc_split_longer 1 two_runs_of_two (by decide) (by decide) (by simp [two_runs_of_two])
      ⟨2, by simp [two_runs_of_two]⟩⟩

/-- C4: for every allocator state, every lbi ≠ 0 and 1 ≤ n ≤ 64, `free(lbi, n)`
followed by `alloc(n)` returns lbi and restores the allocator (all free lists
included) to its state before the `free`. -/
theorem free_then_alloc (a : Allocator) (lbi : Nat) (n : Nat) (hl : lbi ≠ 0)
    (h1 : 1 ≤ n) (h64 : n ≤ 64) :
    ∃ a1, free lbi n a = Outcome.ok a1 ∧
      a1.free_lists (n - 1) = a.free_lists (n - 1) ++ [lbi] ∧
      alloc n a1 = Outcome.ok (lbi, a) := by
  have hs : sub32 n 1 = n - 1 := sub32_of_le h1 (by omega)
  have hlt : n - 1 < 64 := by omega
  refine ⟨{ a with free_lists := Function.update a.free_lists (n - 1) (a.free_lists (n - 1) ++ [lbi]) },
    ?_, ?_, ?_⟩
  · unfold free
    rw [if_neg hl, hs, push_back_of_lt _ hlt]
  · exact Function.update_same _ _ _
  · rw [alloc_pop n _ h1 h64 (a.free_lists (n - 1)) lbi (Function.update_same _ _ _)]
    simp only [Function.update_idem, Function.update_eq_self]

theorem free_then_alloc_witness :
    (31 ≠ 0 ∧ 1 ≤ 1 ∧ 1 ≤ 64) ∧
    ∃ a1, free 31 1 (after_single_allocs 63 fresh_word) = Outcome.ok a1 ∧
      a1.free_lists (1 - 1) = (after_single_allocs 63 fresh_word).free_lists (1 - 1) ++ [31] ∧
      alloc 1 a1 = Outcome.ok (31, after_single_allocs 63 fresh_word) :=
  ⟨by decide, free_then_alloc (after_single_allocs 63 fresh_word) 31 1 (by decide) (by decide)
    (by decide)⟩

theorem ok_inj {α : Type} {x y : α} (h : (Outcome.ok x : Outcome α) = Outcome.ok y) : x = y := by
  cases h; rfl

/-- C6, as stated, fails for the block index 0: `free(0, 1)` on the empty
allocator returns without appending 0 to `free_lists[0]`. -/
theorem free_zero_appends_nothing :
    ¬ ∃ a1, free 0 1 Allocator.empty = Outcome.ok a1 ∧
      a1.free_lists (1 - 1) = Allocator.empty.free_lists (1 - 1) ++ [0] := by
  rintro ⟨a1, h, hfl⟩
  have h1 : Allocator.empty = a1 := ok_inj h
  subst h1
  simp [Allocator.empty] at hfl

/-- C6 (amended): for 1 ≤ n ≤ 64 and lbi ≠ 0, `free(lbi, n)` appends lbi to
`free_lists[n-1]` and changes nothing else (no other free list, no existing
entry, no other field); `free(0, n)` changes nothing at all. -/
theorem free_appends (a : Allocator) (lbi : Nat) (n : Nat)
    (h1 : 1 ≤ n) (h64 : n ≤ 64) :
    (lbi ≠ 0 → ∃ a1, free lbi n a = Outcome.ok a1 ∧
      a1.free_lists (n - 1) = a.free_lists (n - 1) ++ [lbi] ∧
      (∀ i, i ≠ n - 1 → a1.free_lists i = a.free_lists i) ∧
      a1.bitmap = a.bitmap ∧ a1.recent_bitmap_idx = a.recent_bitmap_idx ∧
      a1.curr_log_block_idx = a.curr_log_block_idx ∧
      a1.curr_log_offset = a.curr_log_offset) ∧
    (lbi = 0 → free lbi n a = Outcome.ok a) := by
  have hs : sub32 n 1 = n - 1 := sub32_of_le h1 (by omega)
  have hlt : n - 1 < 64 := by omega
  constructor
  · intro hl
    refine ⟨{ a with
              free_lists := Function.update a.free_lists (n - 1) (a.free_lists (n - 1) ++ [lbi]) },
      ?_, Function.update_same _ _ _, fun i hi => Function.update_noteq hi _ _, rfl, rfl, rfl, rfl⟩
    unfold free
    rw [if_neg hl, hs, push_back_of_lt _ hlt]
  · intro hl
    unfold free
    rw [if_pos hl]

theorem free_appends_witness :
    (1 ≤ 2 ∧ 2 ≤ 64) ∧
    (300 ≠ 0 → ∃ a1, free 300 2 two_runs_of_two = Outcome.ok a1 ∧
      a1.free_lists (2 - 1) = two_runs_of_two.free_lists (2 - 1) ++ [300] ∧
      (∀ i, i ≠ 2 - 1 → a1.free_lists i = two_runs_of_two.free_lists i) ∧
      a1.bitmap = two_runs_of_two.bitmap ∧
      a1.recent_bitmap_idx = two_runs_of_two.recent_bitmap_idx ∧
      a1.curr_log_block_idx = two_runs_of_two.curr_log_block_idx ∧
      a1.curr_log_offset = two_runs_of_two.curr_log_offset) ∧
    (300 = 0 → free 300 2 two_runs_of_two = Outcome.ok two_runs_of_two) :=
  ⟨by decide, free_appends two_runs_of_two 300 2 (by decide) (by decide)⟩

set_option maxRecDepth 100000 in
/-- The scenario of the recycling test: sixty-three single-block allocations from
a fresh word use up the blocks 0..62 and leave block 63 on `free_lists[0]`. -/
theorem after_63_single_allocs :
    (after_single_allocs 63 fresh_word).free_lists 0 = [63] ∧
    (after_single_allocs 63 fresh_word).bitmap = [] := by
  constructor <;> rfl

theorem countr_one_aux_le (k v : Nat) : countr_one_aux k v ≤ k := by
  induction k generalizing v with
  | zero => simp [countr_one_aux]
  | succ k ih =>
    unfold countr_one_aux
    split
    · have := ih (v / 2); omega
    · omega

theorem countr_one_aux_bits (k v i : Nat) (h : i < countr_one_aux k v) : v.testBit i = true := by
  induction k generalizing v i with
  | zero => simp [countr_one_aux] at h
  | succ k ih =>
    unfold countr_one_aux at h
    split at h
    · rename_i hv
      cases i with
      | zero => simp [Nat.testBit_zero, hv]
      | succ j =>
        rw [Nat.testBit_succ]
        exact ih (v / 2) j (by omega)
    · omega

theorem countr_one_aux_stop (k v : Nat) (h : countr_one_aux k v < k) :
    v.testBit (countr_one_aux k v) = false := by
  induction k generalizing v with
  | zero => omega
  | succ k ih =>
    unfold countr_one_aux at h ⊢
    split
    · rename_i hv
      rw [if_pos hv] at h
      rw [Nat.testBit_succ]
      exact ih (v / 2) (by omega)
    · rename_i hv
      simp [Nat.testBit_zero, hv]

theorem countr_zero_aux_le (k v : Nat) : countr_zero_aux k v ≤ k := by
  induction k generalizing v with
  | zero => simp [countr_zero_aux]
  | succ k ih =>
    unfold countr_zero_aux
    split
    · have := ih (v / 2); omega
    · omega

theorem countr_zero_aux_bits (k v i : Nat) (h : i < countr_zero_aux k v) :
    v.testBit i = false := by
  induction k generalizing v i with
  | zero => simp [countr_zero_aux] at h
  | succ k ih =>
    unfold countr_zero_aux at h
    split at h
    · rename_i hv
      cases i with
      | zero => simp [Nat.testBit_zero, hv]
      | succ j =>
        rw [Nat.testBit_succ]
        exact ih (v / 2) j (by omega)
    · omega

theorem countr_zero_aux_stop (k v : Nat) (h : countr_zero_aux k v < k) :
    v.testBit (countr_zero_aux k v) = true := by
  induction k generalizing v with
  | zero => omega
  | succ k ih =>
    unfold countr_zero_aux at h ⊢
    split
    · rename_i hv
      rw [if_pos hv] at h
      rw [Nat.testBit_succ]
      exact ih (v / 2) (by omega)
    · rename_i hv
      have : v % 2 = 1 := by omega
      simp [Nat.testBit_zero, this]

theorem testBit_of_lt_word {w i : Nat} (hw : w < 18446744073709551616) (hi : 64 ≤ i) :
    w.testBit i = false := by
  apply Nat.testBit_lt_two_pow
  calc w < 2 ^ 64 := by simpa using hw
    _ ≤ 2 ^ i := Nat.pow_le_pow_right (by decide) hi

theorem raw_runs_succ (fuel bits left : Nat) (h : left ≠ 0) :
    raw_runs (fuel + 1) bits left =
      if min (countr_zero (bits >>> countr_one bits)) (sub32 left (countr_one bits)) = 0 then []
      else (sub32 left (countr_one bits),
          min (countr_zero (bits >>> countr_one bits)) (sub32 left (countr_one bits))) ::
        raw_runs fuel
          ((bits >>> countr_one bits) >>>
            min (countr_zero (bits >>> countr_one bits)) (sub32 left (countr_one bits)))
          (sub32 (sub32 left (countr_one bits))
            (min (countr_zero (bits >>> countr_one bits)) (sub32 left (countr_one bits)))) := by
  rw [raw_runs]
  simp only [h, if_false]

/-- What one iteration of the loop of `scan_word` sees at bit position `pos`:
`ones` one bits, then `zeros` zero bits, then a one bit or the end of the word. -/
theorem scan_step_facts (w : Nat) (hw : w < 18446744073709551616) (pos : Nat) (hpos : pos < 64) :
    ∃ ones zeros,
      countr_one (w >>> pos) = ones ∧
      min (countr_zero ((w >>> pos) >>> ones)) (sub32 (64 - pos) ones) = zeros ∧
      sub32 (64 - pos) ones = 64 - (pos + ones) ∧
      sub32 (64 - (pos + ones)) zeros = 64 - (pos + ones + zeros) ∧
      (w >>> pos) >>> ones >>> zeros = w >>> (pos + ones + zeros) ∧
      pos + ones + zeros ≤ 64 ∧
      (∀ i, pos ≤ i → i < pos + ones → w.testBit i = true) ∧
      (∀ i, pos + ones ≤ i → i < pos + ones + zeros → w.testBit i = false) ∧
      (pos + ones + zeros = 64 ∨ w.testBit (pos + ones + zeros) = true) ∧
      (zeros = 0 → pos + ones = 64) := by
  have h1 : ∀ i, i < countr_one (w >>> pos) → w.testBit (pos + i) = true := by
    intro i hi
    have := countr_one_aux_bits 64 (w >>> pos) i hi
    rwa [Nat.testBit_shiftRight] at this
  have h2 : countr_one (w >>> pos) ≤ 64 - pos := by
    by_contra hc
    have := h1 (64 - pos) (by omega)
    rw [testBit_of_lt_word hw (by omega)] at this
    exact absurd this (by decide)
  have h3 : countr_one (w >>> pos) < 64 → w.testBit (pos + countr_one (w >>> pos)) = false := by
    intro hlt
    have := countr_one_aux_stop 64 (w >>> pos) hlt
    rwa [Nat.testBit_shiftRight] at this
  generalize countr_one (w >>> pos) = ones at h1 h2 h3
  have hsh : (w >>> pos) >>> ones = w >>> (pos + ones) := (Nat.shiftRight_add w pos ones).symm
  have hsub : sub32 (64 - pos) ones = 64 - (pos + ones) := by
    rw [sub32_of_le h2 (by omega)]; omega
  have h4 : ∀ i, i < countr_zero (w >>> (pos + ones)) → w.testBit (pos + ones + i) = false := by
    intro i hi
    have := countr_zero_aux_bits 64 (w >>> (pos + ones)) i hi
    rwa [Nat.testBit_shiftRight] at this
  have h5 : countr_zero (w >>> (pos + ones)) < 64 →
      w.testBit (pos + ones + countr_zero (w >>> (pos + ones))) = true := by
    intro hlt
    have := countr_zero_aux_stop 64 (w >>> (pos + ones)) hlt
    rwa [Nat.testBit_shiftRight] at this
  refine ⟨ones, min (countr_zero (w >>> (pos + ones))) (64 - (pos + ones)), rfl,
    by rw [hsh, hsub], hsub, ?_⟩
  rw [hsh]
  generalize countr_zero (w >>> (pos + ones)) = zc at h4 h5
  refine ⟨?_, ?_, by omega, ?_, ?_, ?_, ?_⟩
  · rw [sub32_of_le (Nat.min_le_right _ _) (by omega)]; omega
  · exact (Nat.shiftRight_add w (pos + ones) _).symm
  · intro i hi1 hi2
    have := h1 (i - pos) (by omega)
    rwa [show pos + (i - pos) = i by omega] at this
  · intro i hi1 hi2
    have := h4 (i - (pos + ones)) (by omega)
    rwa [show pos + ones + (i - (pos + ones)) = i by omega] at this
  · by_cases hz : zc < 64 - (pos + ones)
    · right
      rw [Nat.min_eq_left (by omega)]
      exact h5 (by omega)
    · left
      rw [Nat.min_eq_right (by omega)]; omega
  · intro hz
    by_contra hne
    have hzc : zc = 0 := by omega
    have ht := h5 (by omega)
    have hf := h3 (by omega)
    rw [hzc] at ht
    rw [Nat.add_zero] at ht
    rw [hf] at ht
    exact absurd ht (by decide)

/-- The loop of `scan_word`, started at a run boundary `pos` of the word, meets
exactly the maximal zero-runs that start at or after `pos`, from low to high. -/
theorem raw_runs_spec (w : Nat) (hw : w < 18446744073709551616) :
    ∀ fuel pos, pos ≤ 64 → 64 - pos ≤ fuel →
      (pos = 0 ∨ pos = 64 ∨ w.testBit pos = true) →
      (∀ r ∈ raw_runs fuel (w >>> pos) (64 - pos), r.1 ≤ 64 - pos ∧ IsZeroRun w (64 - r.1) r.2) ∧
      (∀ q k, pos ≤ q → IsZeroRun w q k → (64 - q, k) ∈ raw_runs fuel (w >>> pos) (64 - pos)) ∧
      (raw_runs fuel (w >>> pos) (64 - pos)).Pairwise (fun r s => s.1 < r.1) := by
  intro fuel
  induction fuel with
  | zero =>
    intro pos hp hf _
    refine ⟨by simp [raw_runs], ?_, by simp [raw_runs]⟩
    intro q k hq hr
    obtain ⟨hk, hqk, _⟩ := hr
    omega
  | succ fuel ih =>
    intro pos hp hf hb
    by_cases hpos : pos = 64
    · have h0 : raw_runs (fuel + 1) (w >>> pos) (64 - pos) = [] := by
        rw [raw_runs]; simp [hpos]
      rw [h0]
      refine ⟨by simp, ?_, by simp⟩
      intro q k hq hr
      obtain ⟨hk, hqk, _⟩ := hr
      omega
    · obtain ⟨ones, zeros, e1, e2, e3, e4, e5, hle, hO, hZ, hend, hz0⟩ :=
        scan_step_facts w hw pos (by omega)
      rw [raw_runs_succ _ _ _ (by omega), e1, e2, e3, e4, e5]
      by_cases hz : zeros = 0
      · rw [if_pos hz]
        refine ⟨by simp, ?_, by simp⟩
        intro q k hq hr
        obtain ⟨hk, hqk, hzero, _⟩ := hr
        have ht := hO q hq (by have := hz0 hz; omega)
        rw [hzero q (le_refl q) (by omega)] at ht
        exact absurd ht (by decide)
      · rw [if_neg hz]
        have hb2 : pos + ones + zeros = 0 ∨ pos + ones + zeros = 64 ∨
            w.testBit (pos + ones + zeros) = true := by
          rcases hend with h | h
          · exact Or.inr (Or.inl h)
          · exact Or.inr (Or.inr h)
        obtain ⟨ihA, ihB, ihC⟩ := ih (pos + ones + zeros) hle (by omega) hb2
        have hhead : IsZeroRun w (pos + ones) zeros := by
          refine ⟨by omega, by omega, hZ, ?_, hend⟩
          by_cases hon : ones = 0
          · rcases hb with h | h | h
            · left; omega
            · omega
            · exfalso
              have hf := hZ pos (by omega) (by omega)
              rw [h] at hf
              exact absurd hf (by decide)
          · right
            exact hO (pos + ones - 1) (by omega) (by omega)
        refine ⟨?_, ?_, ?_⟩
        · intro r hr
          rcases List.mem_cons.1 hr with h | h
          · subst h
            refine ⟨by simp; omega, ?_⟩
            have : 64 - (64 - (pos + ones)) = pos + ones := by omega
            simpa [this] using hhead
          · have := ihA r h
            exact ⟨by omega, this.2⟩
        · intro q k hq hr
          obtain ⟨hk, hqk, hzero, hleft, hright⟩ := hr
          by_cases hq1 : q < pos + ones
          · exfalso
            have ht := hO q hq hq1
            rw [hzero q (le_refl q) (by omega)] at ht
            exact absurd ht (by decide)
          · by_cases hq2 : q = pos + ones
            · have hk2 : k = zeros := by
                rcases Nat.lt_trichotomy k zeros with h | h | h
                · exfalso
                  rcases hright with h' | h'
                  · omega
                  · rw [hZ (q + k) (by omega) (by omega)] at h'
                    exact absurd h' (by decide)
                · exact h
                · exfalso
                  rcases hend with h' | h'
                  · omega
                  · rw [hzero (pos + ones + zeros) (by omega) (by omega)] at h'
                    exact absurd h' (by decide)
              subst hq2 hk2
              exact List.mem_cons_self _ _
            · by_cases hq3 : q < pos + ones + zeros
              · exfalso
                rcases hleft with h' | h'
                · omega
                · rw [hZ (q - 1) (by omega) (by omega)] at h'
                  exact absurd h' (by decide)
              · exact List.mem_cons_of_mem _
                  (ihB q k (by omega) ⟨hk, hqk, hzero, hleft, hright⟩)
        · refine List.pairwise_cons.2 ⟨?_, ihC⟩
          intro s hs
          have := (ihA s hs).1
          show s.1 < 64 - (pos + ones)
          omega

theorem scan_word_succ (nb idx fuel bits left : Nat) (f : Bool) (blk : Nat)
    (fl : Nat → List Nat) (hl : left ≠ 0) :
    scan_word nb idx (fuel + 1) bits left f blk fl =
      if min (countr_zero (bits >>> countr_one bits)) (sub32 left (countr_one bits)) = 0 then
        some (f, blk, fl)
      else
        match place_run nb idx (sub32 left (countr_one bits))
            (min (countr_zero (bits >>> countr_one bits)) (sub32 left (countr_one bits)))
            f blk fl with
        | some (found1, blk1, fl1) =>
          scan_word nb idx fuel
            ((bits >>> countr_one bits) >>>
              min (countr_zero (bits >>> countr_one bits)) (sub32 left (countr_one bits)))
            (sub32 (sub32 left (countr_one bits))
              (min (countr_zero (bits >>> countr_one bits)) (sub32 left (countr_one bits))))
            found1 blk1 fl1
        | none => none := by
  rw [scan_word]
  simp only [hl, if_false]

theorem scan_word_eq_place_runs (nb idx : Nat) :
    ∀ (fuel bits left : Nat) (f : Bool) (blk : Nat)
      (fl : Nat → List Nat),
      scan_word nb idx fuel bits left f blk fl =
        place_runs nb idx (raw_runs fuel bits left) f blk fl := by
  intro fuel
  induction fuel with
  | zero =>
    intro bits left f blk fl
    rw [scan_word, raw_runs, place_runs]
  | succ fuel ih =>
    intro bits left f blk fl
    by_cases hl : left = 0
    · rw [scan_word, raw_runs]
      simp only [hl, if_true, place_runs]
    · rw [raw_runs_succ _ _ _ hl, scan_word_succ _ _ _ _ _ _ _ _ hl]
      by_cases hz : min (countr_zero (bits >>> countr_one bits)) (sub32 left (countr_one bits)) = 0
      · simp only [hz, if_true, place_runs]
      · simp only [hz, if_false, place_runs, ih]

theorem base_plus_bit (b q : Nat) (hq : q ≤ 64) :
    sub32 (add32 b BITMAP_CAPACITY) (64 - q) = add32 b q := by
  unfold sub32 add32 BITMAP_CAPACITY
  split <;> omega

/-- A run that is put on the free lists whole. -/
theorem place_run_whole (nb b l k : Nat) (f : Bool) (blk : Nat)
    (fl : Nat → List Nat) (hl : l ≤ 64) (hk1 : 1 ≤ k) (hk : k ≤ 64)
    (h : f = true ∨ k < nb) :
    place_run nb b l k f blk fl =
      some (f, blk, fun i => fl i ++ (whole_run_entry b i (64 - l, k)).toList) := by
  have hc : ¬ (f = false ∧ k ≥ nb) := by
    rcases h with h | h
    · simp [h]
    · omega
  have hs : sub32 k 1 = k - 1 := sub32_of_le hk1 (by omega)
  have hb := base_plus_bit b (64 - l) (by omega)
  rw [show 64 - (64 - l) = l by omega] at hb
  unfold place_run
  rw [if_neg hc, hs, push_back_of_lt _ (by omega), hb]
  simp only []
  congr 3
  funext i
  unfold whole_run_entry
  by_cases hi : k - 1 = i
  · subst hi; simp
  · simp [hi, Function.update_noteq (Ne.symm hi)]

/-- The first run that is long enough is taken, its remainder is appended to the
free list of the remaining length. -/
theorem place_run_taken (nb b l k : Nat) (blk : Nat)
    (fl : Nat → List Nat) (hl : l ≤ 64) (hnb : 1 ≤ nb) (hk1 : nb ≤ k)
    (hk : k ≤ 64) :
    place_run nb b l k false blk fl =
      some (true, add32 b (64 - l), fun i =>
        fl i ++ (if nb < k ∧ k - nb - 1 = i then [add32 (add32 b (64 - l)) nb] else [])) := by
  have hc : (false = false ∧ k ≥ nb) := ⟨rfl, hk1⟩
  have hs1 : sub32 k nb = k - nb := sub32_of_le hk1 (by omega)
  have hb := base_plus_bit b (64 - l) (by omega)
  rw [show 64 - (64 - l) = l by omega] at hb
  unfold place_run
  rw [if_pos hc, hb]
  by_cases hgt : k > nb
  · have hs2 : sub32 (k - nb) 1 = k - nb - 1 := sub32_of_le (by omega) (by omega)
    rw [if_pos hgt, hs1, hs2, push_back_of_lt _ (by omega)]
    simp only []
    congr 3
    funext i
    by_cases hi : k - nb - 1 = i
    · subst hi; simp [hgt]
    · simp [hi, Function.update_noteq (Ne.symm hi)]
  · rw [if_neg hgt]
    congr 3
    funext i
    have : ¬ (nb < k ∧ k - nb - 1 = i) := fun h => hgt h.1
    simp [this]

theorem place_runs_nil (nb b : Nat) (f : Bool) (blk : Nat)
    (fl : Nat → List Nat) : place_runs nb b [] f blk fl = some (f, blk, fl) := by
  rw [place_runs]

theorem place_runs_cons (nb b : Nat) (r : Nat × Nat) (rs : List (Nat × Nat)) (f : Bool)
    (blk : Nat) (fl : Nat → List Nat) :
    place_runs nb b (r :: rs) f blk fl =
      match place_run nb b r.1 r.2 f blk fl with
      | some (found1, blk1, fl1) => place_runs nb b rs found1 blk1 fl1
      | none => none := by
  rw [place_runs]

/-- Runs that are all put on the free lists whole (because a run was already
taken, or because they are too short) append one entry each. -/
theorem place_runs_whole (nb b : Nat) (f : Bool) (blk : Nat)
    (rest : List (Nat × Nat)) :
    ∀ (rs : List (Nat × Nat)) (fl : Nat → List Nat),
      (∀ r ∈ rs, r.1 ≤ 64 ∧ 1 ≤ r.2 ∧ r.2 ≤ 64 ∧ (f = true ∨ r.2 < nb)) →
      place_runs nb b (rs ++ rest) f blk fl =
        place_runs nb b rest f blk
          (fun i => fl i ++ (rs.map run_of_raw).filterMap (whole_run_entry b i)) := by
  intro rs
  induction rs with
  | nil =>
    intro fl _
    simp
  | cons r rs ih =>
    intro fl h
    obtain ⟨h1, h2, h3, h4⟩ := h r (List.mem_cons_self _ _)
    rw [List.cons_append, place_runs_cons, place_run_whole nb b r.1 r.2 f blk fl h1 h2 h3 h4]
    simp only []
    rw [ih _ (fun s hs => h s (List.mem_cons_of_mem _ hs))]
    congr 1
    funext i
    rw [List.map_cons, List.filterMap_cons]
    have : run_of_raw r = (64 - r.1, r.2) := rfl
    rw [this]
    cases whole_run_entry b i (64 - r.1, r.2) <;> simp

theorem exists_first_long (nb : Nat) :
    ∀ (rs : List (Nat × Nat)), (∃ r ∈ rs, nb ≤ r.2) →
      ∃ pre r0 post, rs = pre ++ r0 :: post ∧ (∀ r ∈ pre, r.2 < nb) ∧ nb ≤ r0.2 := by
  intro rs
  induction rs with
  | nil => rintro ⟨r, hr, _⟩; simp at hr
  | cons x xs ih =>
    rintro ⟨r, hr, hge⟩
    by_cases hx : nb ≤ x.2
    · exact ⟨[], x, xs, rfl, by simp, hx⟩
    · have hr2 : r ∈ xs := by
        rcases List.mem_cons.1 hr with h | h
        · subst h; exact absurd hge hx
        · exact h
      obtain ⟨pre, r0, post, e, hp, h0⟩ := ih ⟨r, hr2, hge⟩
      refine ⟨x :: pre, r0, post, by rw [e]; rfl, ?_, h0⟩
      intro s hs
      rcases List.mem_cons.1 hs with h | h
      · subst h; omega
      · exact hp s h

/-- With empty free lists for all lengths from `nb` up, the loop over the
longer free lists ends without a result. -/
theorem alloc_longer_none (nb : Nat) (a : Allocator) :
    ∀ (todo n : Nat), 1 ≤ n → (∀ i, n - 1 ≤ i → i < 64 → a.free_lists i = []) →
      alloc_longer nb a todo n = none := by
  intro todo
  induction todo with
  | zero => intro n _ _; rw [alloc_longer]
  | succ t ih =>
    intro n hn h
    rw [alloc_longer]
    by_cases h64 : n ≤ 64
    · have hs : sub32 n 1 = n - 1 := sub32_of_le hn (by omega)
      have he : a.free_lists (n - 1) = [] := h (n - 1) (le_refl _) (by omega)
      have hrec := ih (n + 1) (by omega) (fun i hi1 hi2 => h i (by omega) hi2)
      simp [BITMAP_CAPACITY, h64, hs, he, hrec]
      omega
    · simp [BITMAP_CAPACITY, h64]

theorem raw_runs_word (w : Nat) (hw : w < 18446744073709551616) :
    (∀ r ∈ raw_runs 64 w 64, r.1 ≤ 64 ∧ IsZeroRun w (64 - r.1) r.2) ∧
    (∀ q k, IsZeroRun w q k → (64 - q, k) ∈ raw_runs 64 w 64) ∧
    (raw_runs 64 w 64).Pairwise (fun r s => s.1 < r.1) := by
  obtain ⟨hA, hB, hC⟩ := raw_runs_spec w hw 64 0 (by omega) (by omega) (Or.inl rfl)
  rw [Nat.shiftRight_zero, Nat.sub_zero] at hA hB hC
  exact ⟨hA, fun q k h => hB q k (Nat.zero_le _) h, hC⟩

/-- The scan of a word that has a zero-run of at least `n` bits: the runs before
the first such run go to the free lists whole, that run is taken, the runs
after it go to the free lists whole. -/
theorem scan_word_found (n b w : Nat) (h1 : 1 ≤ n) (hw : w < 18446744073709551616)
    (hrun : ∃ q k, IsZeroRun w q k ∧ n ≤ k) (fl : Nat → List Nat) :
    ∃ pre r0 post, raw_runs 64 w 64 = pre ++ r0 :: post ∧ (∀ r ∈ pre, r.2 < n) ∧ n ≤ r0.2 ∧
      scan_word n b 64 w 64 false 0 fl =
        some (true, add32 b (64 - r0.1), fun i =>
          fl i ++ (pre.map run_of_raw).filterMap (whole_run_entry b i) ++
            (if n < r0.2 ∧ r0.2 - n - 1 = i then [add32 (add32 b (64 - r0.1)) n] else []) ++
            (post.map run_of_raw).filterMap (whole_run_entry b i)) := by
  obtain ⟨hA, hB, _⟩ := raw_runs_word w hw
  obtain ⟨q, k, hqk, hnk⟩ := hrun
  obtain ⟨pre, r0, post, e, hpre, h0⟩ :=
    exists_first_long n (raw_runs 64 w 64) ⟨(64 - q, k), hB q k hqk, hnk⟩
  have hbound : ∀ r ∈ raw_runs 64 w 64, r.1 ≤ 64 ∧ 1 ≤ r.2 ∧ r.2 ≤ 64 := by
    intro r hr
    obtain ⟨hr1, hk, hle, _⟩ := hA r hr
    exact ⟨hr1, hk, by omega⟩
  have hin_pre : ∀ r ∈ pre, r ∈ raw_runs 64 w 64 := by
    intro r hr; rw [e]; exact List.mem_append_left _ hr
  have hin_0 : r0 ∈ raw_runs 64 w 64 := by
    rw [e]; exact List.mem_append_right _ (List.mem_cons_self _ _)
  have hin_post : ∀ r ∈ post, r ∈ raw_runs 64 w 64 := by
    intro r hr; rw [e]; exact List.mem_append_right _ (List.mem_cons_of_mem _ hr)
  refine ⟨pre, r0, post, e, hpre, h0, ?_⟩
  obtain ⟨hb1, hb2, hb3⟩ := hbound r0 hin_0
  rw [scan_word_eq_place_runs, e,
    place_runs_whole n b false 0 (r0 :: post) pre fl
      (fun r hr => by
        obtain ⟨x1, x2, x3⟩ := hbound r (hin_pre r hr)
        exact ⟨x1, x2, x3, Or.inr (hpre r hr)⟩),
    place_runs_cons, place_run_taken n b r0.1 r0.2 0 _ hb1 h1 h0 hb3]
  simp only []
  have hp := place_runs_whole n b true (add32 b (64 - r0.1)) [] post
    (fun i => (fl i ++ (pre.map run_of_raw).filterMap (whole_run_entry b i)) ++
      (if n < r0.2 ∧ r0.2 - n - 1 = i then [add32 (add32 b (64 - r0.1)) n] else []))
    (fun r hr => by
      obtain ⟨x1, x2, x3⟩ := hbound r (hin_post r hr)
      exact ⟨x1, x2, x3, Or.inl rfl⟩)
  rw [List.append_nil] at hp
  rw [hp, place_runs_nil]

/-- With empty free lists for all lengths from `n` up, `alloc(n)` goes to the
bitmap. -/
theorem alloc_eq_retry (n : Nat) (a : Allocator) (h1 : 1 ≤ n) (h64 : n ≤ 64)
    (hfree : ∀ i, n - 1 ≤ i → i < 64 → a.free_lists i = []) :
    alloc n a = alloc_retry n a.bitmap a := by
  have hs : sub32 n 1 = n - 1 := sub32_of_le h1 (by omega)
  have he : a.free_lists (n - 1) = [] := hfree (n - 1) (le_refl _) (by omega)
  have hlong := alloc_longer_none n a BITMAP_CAPACITY (n + 1) (by omega)
    (fun i hi1 hi2 => hfree i (by omega) hi2)
  unfold alloc
  rw [if_pos (show n ≤ BITMAP_CAPACITY from h64), hs,
    if_pos (show n - 1 < BITMAP_CAPACITY by unfold BITMAP_CAPACITY; omega), he, hlong]
  rfl

/-- C1: for 1 ≤ n ≤ 64, when no free list of run length ≥ n has an entry and the
bitmap hands `alloc` a captured 64-bit word `w` with base index `b` that has a
zero-run of length ≥ n, `alloc(n)` returns `b + p` (a 32-bit sum) for the
lowest-positioned maximal zero-run `(p, L)` with `L ≥ n`; if `L > n` the
remainder `b + p + n` is appended to `free_lists[L-n-1]`; every other maximal
zero-run `(q, k)` is appended as `b + q` to `free_lists[k-1]`, and nothing else
is appended. Here `pre ++ (p, L) :: post` is the list of all maximal zero-runs
of `w` from low to high. -/
theorem alloc_from_bitmap_word (n : Nat) (a : Allocator) (b w : Nat) (rest : List TryAlloc)
    (h1 : 1 ≤ n) (h64 : n ≤ 64)
    (hfree : ∀ i, n - 1 ≤ i → i < 64 → a.free_lists i = [])
    (hbm : a.bitmap = some (b, w) :: rest) (hw : w < 18446744073709551616)
    (hrun : ∃ q k, IsZeroRun w q k ∧ n ≤ k) :
    ∃ (pre post : List (Nat × Nat)) (p L : Nat) (a1 : Allocator),
      (∀ q k, (q, k) ∈ pre ++ (p, L) :: post ↔ IsZeroRun w q k) ∧
      (pre ++ (p, L) :: post).Pairwise (fun r s => r.1 < s.1) ∧
      (∀ r ∈ pre, r.2 < n) ∧ n ≤ L ∧
      (∀ q k, IsZeroRun w q k → n ≤ k → p ≤ q) ∧
      alloc n a = Outcome.ok (add32 b p, a1) ∧
      (b + 64 ≤ 4294967296 → add32 b p = b + p) ∧
      (∀ i, a1.free_lists i =
        a.free_lists i ++ pre.filterMap (whole_run_entry b i) ++
          (if n < L ∧ L - n - 1 = i then [add32 (add32 b p) n] else []) ++
          post.filterMap (whole_run_entry b i)) ∧
      a1.bitmap = rest ∧ a1.recent_bitmap_idx = add32 b BITMAP_CAPACITY ∧
      a1.curr_log_block_idx = a.curr_log_block_idx ∧
      a1.curr_log_offset = a.curr_log_offset := by
  obtain ⟨hA, hB, hC⟩ := raw_runs_word w hw
  obtain ⟨pre, r0, post, e, hpre, h0, hscan⟩ := scan_word_found n b w h1 hw hrun a.free_lists
  have hr0 : r0 ∈ raw_runs 64 w 64 := by
    rw [e]; exact List.mem_append_right _ (List.mem_cons_self _ _)
  have hlist : (raw_runs 64 w 64).map run_of_raw =
      pre.map run_of_raw ++ (64 - r0.1, r0.2) :: post.map run_of_raw := by
    rw [e, List.map_append, List.map_cons]; rfl
  have hmem : ∀ q k, (q, k) ∈ pre.map run_of_raw ++ (64 - r0.1, r0.2) :: post.map run_of_raw ↔
      IsZeroRun w q k := by
    intro q k
    rw [← hlist, List.mem_map]
    constructor
    · rintro ⟨r, hr, hqk⟩
      have := (hA r hr).2
      have e2 : (64 - r.1, r.2) = (q, k) := hqk
      rw [Prod.mk.injEq] at e2
      rw [← e2.1, ← e2.2]
      exact this
    · intro h
      refine ⟨(64 - q, k), hB q k h, ?_⟩
      have hq : q ≤ 64 := by have := h.2.1; omega
      show (64 - (64 - q), k) = (q, k)
      rw [show 64 - (64 - q) = q by omega]
  have hsorted : (pre.map run_of_raw ++ (64 - r0.1, r0.2) :: post.map run_of_raw).Pairwise
      (fun r s => r.1 < s.1) := by
    rw [← hlist, List.pairwise_map]
    refine List.Pairwise.imp_of_mem ?_ hC
    intro r s hr hs hlt
    have := (hA r hr).1
    have := (hA s hs).1
    show 64 - r.1 < 64 - s.1
    omega
  have hlow : ∀ q k, IsZeroRun w q k → n ≤ k → 64 - r0.1 ≤ q := by
    intro q k h hk
    have hin := (hmem q k).2 h
    rcases List.mem_append.1 hin with h' | h'
    · obtain ⟨r, hr, hqk⟩ := List.mem_map.1 h'
      have e2 : (64 - r.1, r.2) = (q, k) := hqk
      rw [Prod.mk.injEq] at e2
      have := hpre r hr
      omega
    · rcases List.mem_cons.1 h' with h'' | h''
      · rw [Prod.mk.injEq] at h''
        omega
      · have hp := (List.pairwise_append.1 hsorted).2.1
        have := (List.pairwise_cons.1 hp).1 (q, k) h''
        exact Nat.le_of_lt this
  refine ⟨pre.map run_of_raw, post.map run_of_raw, 64 - r0.1, r0.2,
    { a with
      free_lists := fun i =>
        a.free_lists i ++ (pre.map run_of_raw).filterMap (whole_run_entry b i) ++
          (if n < r0.2 ∧ r0.2 - n - 1 = i then [add32 (add32 b (64 - r0.1)) n] else []) ++
          (post.map run_of_raw).filterMap (whole_run_entry b i),
      bitmap := rest,
      recent_bitmap_idx := add32 b BITMAP_CAPACITY },
    hmem, hsorted, ?_, h0, hlow, ?_, ?_, fun i => rfl, rfl, rfl, rfl, rfl⟩
  · intro r hr
    obtain ⟨s, hs, hrs⟩ := List.mem_map.1 hr
    rw [← hrs]
    exact hpre s hs
  · rw [alloc_eq_retry n a h1 h64 hfree, hbm, alloc_retry, Nat.mod_eq_of_lt hw]
    show (match scan_word n b 64 w 64 false 0 a.free_lists with
      | none => Outcome.fault
      | some (is_found, allocated_block_idx, fl) => _) = _
    rw [hscan]
    rfl
  · intro hb
    obtain ⟨hk, hle, _⟩ := (hA r0 hr0).2
    exact add32_of_lt (by omega)


theorem alloc_from_bitmap_word_witness :
    (1 ≤ 3 ∧ 3 ≤ 64) ∧
    (∀ i, 3 - 1 ≤ i → i < 64 → word_with_three_runs.free_lists i = []) ∧
    word_with_three_runs.bitmap = some (128, 909) :: [] ∧
    909 < 18446744073709551616 ∧
    (∃ q k, IsZeroRun 909 q k ∧ 3 ≤ k) ∧
    ∃ (pre post : List (Nat × Nat)) (p L : Nat) (a1 : Allocator),
      (∀ q k, (q, k) ∈ pre ++ (p, L) :: post ↔ IsZeroRun 909 q k) ∧
      (pre ++ (p, L) :: post).Pairwise (fun r s => r.1 < s.1) ∧
      (∀ r ∈ pre, r.2 < 3) ∧ 3 ≤ L ∧
      (∀ q k, IsZeroRun 909 q k → 3 ≤ k → p ≤ q) ∧
      alloc 3 word_with_three_runs = Outcome.ok (add32 128 p, a1) ∧
      (128 + 64 ≤ 4294967296 → add32 128 p = 128 + p) ∧
      (∀ i, a1.free_lists i =
        word_with_three_runs.free_lists i ++ pre.filterMap (whole_run_entry 128 i) ++
          (if 3 < L ∧ L - 3 - 1 = i then [add32 (add32 128 p) 3] else []) ++
          post.filterMap (whole_run_entry 128 i)) ∧
      a1.bitmap = [] ∧ a1.recent_bitmap_idx = add32 128 BITMAP_CAPACITY ∧
      a1.curr_log_block_idx = word_with_three_runs.curr_log_block_idx ∧
      a1.curr_log_offset = word_with_three_runs.curr_log_offset :=
  ⟨by decide, fun _ _ _ => rfl, rfl, by decide, ⟨4, 3, by decide, by decide⟩,
    alloc_from_bitmap_word 3 word_with_three_runs 128 909 [] (by decide) (by decide)
      (fun _ _ _ => rfl) rfl (by decide) ⟨4, 3, by decide, by decide⟩⟩

/-- The call of the example for C1, evaluated: the run at bits 4..6 is returned as
block 132, the runs at bit 1 and at bits 10..63 go to `free_lists[0]` and
`free_lists[53]`. -/
theorem alloc_three_runs_value :
    ∃ a1, alloc 3 word_with_three_runs = Outcome.ok (132, a1) ∧
      a1.free_lists 0 = [129] ∧ a1.free_lists 53 = [138] ∧ a1.free_lists 2 = [] := by
  refine ⟨_, rfl, ?_, ?_, ?_⟩ <;> rfl

theorem zero_runs_of_word_spec (w : Nat) (hw : w < 18446744073709551616) :
    (∀ q k, (q, k) ∈ zero_runs_of_word w ↔ IsZeroRun w q k) ∧
    (zero_runs_of_word w).Pairwise (fun r s => r.1 < s.1) := by
  obtain ⟨hA, hB, hC⟩ := raw_runs_word w hw
  unfold zero_runs_of_word
  constructor
  · intro q k
    rw [List.mem_map]
    constructor
    · rintro ⟨r, hr, hqk⟩
      have := (hA r hr).2
      have e2 : (64 - r.1, r.2) = (q, k) := hqk
      rw [Prod.mk.injEq] at e2
      rw [← e2.1, ← e2.2]
      exact this
    · intro h
      refine ⟨(64 - q, k), hB q k h, ?_⟩
      have hq : q ≤ 64 := by have := h.2.1; omega
      show (64 - (64 - q), k) = (q, k)
      rw [show 64 - (64 - q) = q by omega]
  · rw [List.pairwise_map]
    refine List.Pairwise.imp_of_mem ?_ hC
    intro r s hr hs hlt
    have := (hA r hr).1
    have := (hA s hs).1
    show 64 - r.1 < 64 - s.1
    omega

/-- The scan of a word without a zero-run of `n` bits: every run goes to the
free lists whole and nothing is found. -/
theorem scan_word_not_found (n b w : Nat) (hw : w < 18446744073709551616)
    (hshort : ∀ r ∈ zero_runs_of_word w, r.2 < n) (fl : Nat → List Nat) :
    scan_word n b 64 w 64 false 0 fl =
      some (false, 0, fun i => fl i ++ (zero_runs_of_word w).filterMap (whole_run_entry b i)) := by
  obtain ⟨hA, _, _⟩ := raw_runs_word w hw
  have hp := place_runs_whole n b false 0 [] (raw_runs 64 w 64) fl
    (fun r hr => by
      obtain ⟨x1, x2, x3, _⟩ := hA r hr
      have : r.2 < n := hshort (run_of_raw r) (List.mem_map_of_mem _ hr)
      exact ⟨x1, x2, by omega, Or.inr this⟩)
  rw [List.append_nil] at hp
  rw [scan_word_eq_place_runs, hp, place_runs_nil]
  rfl

theorem alloc_retry_panic (n : Nat) (rest : List TryAlloc) :
    ∀ (words : List (Nat × Nat)) (a : Allocator),
      (∀ bw ∈ words, bw.2 < 18446744073709551616 ∧ ∀ r ∈ zero_runs_of_word bw.2, r.2 < n) →
      ∃ s, alloc_retry n (words.map some ++ none :: rest) a = Outcome.panic s ∧
        (∀ i, s.free_lists i = a.free_lists i ++ pulled_entries i words) ∧
        s.bitmap = rest ∧ s.curr_log_block_idx = a.curr_log_block_idx ∧
        s.curr_log_offset = a.curr_log_offset := by
  intro words
  induction words with
  | nil =>
    intro a _
    refine ⟨{ a with bitmap := rest }, ?_, ?_, rfl, rfl, rfl⟩
    · rw [List.map_nil, List.nil_append, alloc_retry]
    · intro i; simp [pulled_entries]
  | cons bw ws ih =>
    intro a h
    obtain ⟨hw, hshort⟩ := h bw (List.mem_cons_self _ _)
    obtain ⟨s, hs, hfl, hrest⟩ := ih
      { a with
        free_lists := fun i =>
          a.free_lists i ++ (zero_runs_of_word bw.2).filterMap (whole_run_entry bw.1 i),
        bitmap := ws.map some ++ none :: rest,
        recent_bitmap_idx := add32 bw.1 BITMAP_CAPACITY }
      (fun x hx => h x (List.mem_cons_of_mem _ hx))
    refine ⟨s, ?_, ?_, hrest⟩
    · rw [List.map_cons, List.cons_append, alloc_retry, Nat.mod_eq_of_lt hw]
      show (match scan_word n bw.1 64 bw.2 64 false 0 a.free_lists with
        | none => Outcome.fault
        | some (is_found, allocated_block_idx, fl) => _) = _
      rw [scan_word_not_found n bw.1 bw.2 hw hshort]
      exact hs
    · intro i
      rw [hfl i, pulled_entries, List.append_assoc]

/-- C7, as stated, fails: with an exhausted bitmap `alloc(1)` ends in the panic of
`PANIC_IF` and returns nothing to its caller. -/
theorem alloc_panics_when_out_of_space :
    (∃ s, alloc 1 out_of_space = Outcome.panic s) ∧
    ¬ ∃ v, alloc 1 out_of_space = Outcome.ok v := by
  have h : alloc 1 out_of_space = Outcome.panic { out_of_space with bitmap := [] } := rfl
  refine ⟨⟨_, h⟩, ?_⟩
  rintro ⟨v, hv⟩
  rw [h] at hv
  cases hv

/-- C7 (amended): for 1 ≤ n ≤ 64 and no free run of length ≥ n on the free
lists, when `Bitmap::try_alloc` fails after it handed out the words `words`
(none of which had a zero-run of n bits), `alloc(n)` ends in the panic of
`PANIC_IF` and returns no value; at that moment every zero-run of the words
pulled during the call is on the local free lists (appended to the list of its
length) and the log-entry cursor is unchanged. -/
theorem alloc_out_of_space (n : Nat) (a : Allocator) (words : List (Nat × Nat))
    (rest : List TryAlloc) (h1 : 1 ≤ n) (h64 : n ≤ 64)
    (hfree : ∀ i, n - 1 ≤ i → i < 64 → a.free_lists i = [])
    (hbm : a.bitmap = words.map some ++ none :: rest)
    (hwords : ∀ bw ∈ words,
      bw.2 < 18446744073709551616 ∧ ∀ r ∈ zero_runs_of_word bw.2, r.2 < n) :
    (∃ s, alloc n a = Outcome.panic s ∧
      (∀ i, s.free_lists i = a.free_lists i ++ pulled_entries i words) ∧
      s.bitmap = rest ∧ s.curr_log_block_idx = a.curr_log_block_idx ∧
      s.curr_log_offset = a.curr_log_offset) ∧
    ¬ ∃ v, alloc n a = Outcome.ok v := by
  obtain ⟨s, hs, hrest⟩ := alloc_retry_panic n rest words a hwords
  have h : alloc n a = Outcome.panic s := by
    rw [alloc_eq_retry n a h1 h64 hfree, hbm, hs]
  refine ⟨⟨s, h, hrest⟩, ?_⟩
  rintro ⟨v, hv⟩
  rw [h] at hv
  cases hv

theorem alloc_out_of_space_witness :
    (1 ≤ 3 ∧ 3 ≤ 64) ∧
    (∀ i, 3 - 1 ≤ i → i < 64 → nearly_out_of_space.free_lists i = []) ∧
    nearly_out_of_space.bitmap = [(192, 18446744073709551609)].map some ++ none :: [] ∧
    (∀ bw ∈ [(192, 18446744073709551609)],
      bw.2 < 18446744073709551616 ∧ ∀ r ∈ zero_runs_of_word bw.2, r.2 < 3) ∧
    (∃ s, alloc 3 nearly_out_of_space = Outcome.panic s ∧
      (∀ i, s.free_lists i = nearly_out_of_space.free_lists i ++
        pulled_entries i [(192, 18446744073709551609)]) ∧
      s.bitmap = [] ∧ s.curr_log_block_idx = nearly_out_of_space.curr_log_block_idx ∧
      s.curr_log_offset = nearly_out_of_space.curr_log_offset) ∧
    ¬ ∃ v, alloc 3 nearly_out_of_space = Outcome.ok v :=
  ⟨by decide, fun _ _ _ => rfl, rfl, by decide,
    alloc_out_of_space 3 nearly_out_of_space [(192, 18446744073709551609)] []
      (by decide) (by decide) (fun _ _ _ => rfl) rfl (by decide)⟩

/-- The run pulled in the example for C7 is the run of bits 1..2, which lands on
`free_lists[1]` as block 193. -/
theorem nearly_out_of_space_pulled :
    zero_runs_of_word 18446744073709551609 = [(1, 2)] ∧
    pulled_entries 1 [(192, 18446744073709551609)] = [193] := by
  constructor <;> rfl

theorem free_image_loop_groups (image : List Nat) :
    ∀ (todo curr gb : Nat) (gbl : Nat) (fl : Nat → List Nat),
      free_image_finish (curr + todo) (free_image_loop image todo curr gb gbl fl) =
        push_groups (image_groups image todo curr gb gbl) fl := by
  intro todo
  induction todo with
  | zero =>
    intro curr gb gbl fl
    rw [free_image_loop, image_groups, free_image_finish]
    by_cases h : gbl ≠ 0
    · rw [if_pos h, if_pos h, push_groups, Nat.add_zero]
      show _ = match push_back fl (sub32 (sub32 curr gb) 1) gbl with
        | some fl1 => push_groups [] fl1
        | none => none
      cases push_back fl (sub32 (sub32 curr gb) 1) gbl with
      | none => rfl
      | some fl1 => rfl
    · rw [if_neg h, if_neg h, push_groups]
  | succ todo ih =>
    intro curr gb gbl fl
    have e : curr + (todo + 1) = (curr + 1) + todo := by omega
    rw [free_image_loop, image_groups, e]
    by_cases h0 : gbl = 0
    · rw [if_pos h0, if_pos h0]
      by_cases hx : image.getD curr 0 = 0
      · rw [if_pos hx, if_pos hx]; exact ih _ _ _ _
      · rw [if_neg hx, if_neg hx]; exact ih _ _ _ _
    · rw [if_neg h0, if_neg h0]
      by_cases hc : image.getD curr 0 = add32 gbl (sub32 curr gb)
      · rw [if_pos hc, if_pos hc]; exact ih _ _ _ _
      · rw [if_neg hc, if_neg hc, push_groups]
        show free_image_finish _ (match push_back fl (sub32 (sub32 curr gb) 1) gbl with
          | some fl1 => _
          | none => none) = match push_back fl (sub32 (sub32 curr gb) 1) gbl with
          | some fl1 => _
          | none => none
        cases push_back fl (sub32 (sub32 curr gb) 1) gbl with
        | none => rfl
        | some fl1 => exact ih _ _ _ _

theorem free_image_eq (image : List Nat) (a : Allocator) :
    free_image image a =
      match push_groups (image_groups image image.length 0 0 0) a.free_lists with
      | some fl => Outcome.ok { a with free_lists := fl }
      | none => Outcome.fault := by
  have h := free_image_loop_groups image image.length 0 0 0 a.free_lists
  rw [Nat.zero_add] at h
  rw [← h]
  unfold free_image
  by_cases hl : image.length = 0
  · rw [if_pos hl, hl, free_image_loop, free_image_finish]
    rfl
  · rw [if_neg hl]
    cases hr : free_image_loop image image.length 0 0 0 a.free_lists with
    | none => rfl
    | some r =>
      obtain ⟨gb, gbl, fl⟩ := r
      simp only [free_image_finish]
      by_cases hg : gbl ≠ 0
      · simp only [if_pos hg]
      · simp only [if_neg hg]

theorem no_run_ends_after_hole (image : List Nat) (curr s len : Nat)
    (h : curr = 0 ∨ image.getD (curr - 1) 0 = 0) (hr : IsImageRun image s len) :
    s + len ≠ curr := by
  obtain ⟨hlen0, _, hnz, _⟩ := hr
  intro e
  rcases h with h | h
  · omega
  · exact hnz (curr - 1) (by omega) (by omega) h

theorem run_ending_at_open_group (image : List Nat) (curr gb : Nat)
    (gbl : Nat) (h0 : gbl ≠ 0) (hgb : gb < curr)
    (hcount : ∀ j, gb ≤ j → j < curr → image.getD j 0 = gbl + (j - gb))
    (hleft : gb = 0 ∨ image.getD (gb - 1) 0 = 0 ∨ image.getD gb 0 ≠ image.getD (gb - 1) 0 + 1)
    (s len : Nat) (hr : IsImageRun image s len) (e : s + len = curr) :
    s = gb ∧ image.getD s 0 = gbl := by
  obtain ⟨hlen0, _, hnz, hcons, hl, _⟩ := hr
  have hs : s = gb := by
    rcases Nat.lt_trichotomy s gb with h | h | h
    · exfalso
      have h1 := hnz (gb - 1) (by omega) (by omega)
      have h2 := hcons (gb - 1) (by omega) (by omega)
      rw [show gb - 1 + 1 = gb by omega] at h2
      rcases hleft with h' | h' | h'
      · omega
      · exact h1 h'
      · exact h' h2
    · exact h
    · exfalso
      have h1 := hcount (s - 1) (by omega) (by omega)
      have h2 := hcount s (by omega) (by omega)
      rcases hl with h' | h' | h'
      · omega
      · omega
      · apply h'; omega
  subst hs
  have := hcount s (le_refl _) (by omega)
  exact ⟨rfl, by omega⟩

theorem open_group_is_run (image : List Nat) (curr gb : Nat)
    (gbl : Nat) (h0 : gbl ≠ 0) (hgb : gb < curr) (hcurr : curr ≤ image.length)
    (hcount : ∀ j, gb ≤ j → j < curr → image.getD j 0 = gbl + (j - gb))
    (hleft : gb = 0 ∨ image.getD (gb - 1) 0 = 0 ∨ image.getD gb 0 ≠ image.getD (gb - 1) 0 + 1)
    (hright : curr = image.length ∨ image.getD curr 0 = 0 ∨
      image.getD curr 0 ≠ image.getD (curr - 1) 0 + 1) :
    IsImageRun image gb (curr - gb) := by
  have e : gb + (curr - gb) = curr := by omega
  refine ⟨by omega, by omega, ?_, ?_, hleft, ?_⟩
  · intro i hi1 hi2
    rw [hcount i hi1 (by omega)]
    omega
  · intro i hi1 hi2
    rw [hcount i hi1 (by omega), hcount (i + 1) (by omega) (by omega)]
    omega
  · rw [e]; exact hright

/-- The groups that the loop pushes are exactly the maximal runs that end at or
after `curr`, from left to right. -/
theorem image_groups_spec (image : List Nat) (hlen : image.length < 4294967296)
    (hmax : ∀ i, image.getD i 0 < 4294967295) :
    ∀ (todo curr gb : Nat) (gbl : Nat), curr + todo = image.length →
      GroupInv image curr gb gbl →
      (∀ g ∈ image_groups image todo curr gb gbl,
        IsImageRun image g.1 (g.2.1 - g.1) ∧ g.1 < g.2.1 ∧ g.2.2 = image.getD g.1 0 ∧
        (if gbl = 0 then curr else gb) ≤ g.1) ∧
      (∀ s len, IsImageRun image s len → curr ≤ s + len →
        (s, s + len, image.getD s 0) ∈ image_groups image todo curr gb gbl) ∧
      (image_groups image todo curr gb gbl).Pairwise (fun g h => g.1 < h.1) := by
  intro todo
  induction todo with
  | zero =>
    intro curr gb gbl hc hinv
    rw [image_groups]
    have hcl : curr = image.length := by omega
    by_cases h0 : gbl = 0
    · rw [if_neg (by simpa using h0)]
      refine ⟨by simp, ?_, by simp⟩
      intro s len hr hle
      exact absurd (by have := hr.2.1; omega) (no_run_ends_after_hole image curr s len (hinv.1 h0) hr)
    · obtain ⟨hgb, hcount, hleft⟩ := hinv.2 h0
      rw [if_pos h0]
      have hrun := open_group_is_run image curr gb gbl h0 hgb (by omega) hcount hleft (Or.inl hcl)
      refine ⟨?_, ?_, by simp⟩
      · intro g hg
        rw [List.mem_singleton] at hg
        subst hg
        have := hcount gb (le_refl _) hgb
        exact ⟨hrun, hgb, by simp only []; omega, by rw [if_neg h0]⟩
      · intro s len hr hle
        have e : s + len = curr := by have := hr.2.1; omega
        obtain ⟨h1, h2⟩ := run_ending_at_open_group image curr gb gbl h0 hgb hcount hleft s len hr e
        rw [List.mem_singleton, e, h1, ← h1, h2]
  | succ todo ih =>
    intro curr gb gbl hc hinv
    have hc1 : curr + 1 + todo = image.length := by omega
    rw [image_groups]
    by_cases h0 : gbl = 0
    · rw [if_pos h0]
      have hhole := hinv.1 h0
      by_cases hx : image.getD curr 0 = 0
      · rw [if_pos hx]
        have hinv1 : GroupInv image (curr + 1) gb gbl :=
          ⟨fun _ => Or.inr (by simpa using hx), fun h => absurd h0 h⟩
        obtain ⟨iA, iB, iC⟩ := ih (curr + 1) gb gbl hc1 hinv1
        refine ⟨?_, ?_, iC⟩
        · intro g hg
          obtain ⟨x1, x2, x3, x4⟩ := iA g hg
          rw [if_pos h0] at x4 ⊢
          exact ⟨x1, x2, x3, by omega⟩
        · intro s len hr hle
          have := no_run_ends_after_hole image curr s len hhole hr
          exact iB s len hr (by omega)
      · rw [if_neg hx]
        have hinv1 : GroupInv image (curr + 1) curr (image.getD curr 0) := by
          refine ⟨fun h => absurd h hx, fun _ => ⟨by omega, ?_, ?_⟩⟩
          · intro j hj1 hj2
            have : j = curr := by omega
            subst this; simp
          · rcases hhole with h | h
            · exact Or.inl h
            · exact Or.inr (Or.inl h)
        obtain ⟨iA, iB, iC⟩ := ih (curr + 1) curr (image.getD curr 0) hc1 hinv1
        refine ⟨?_, ?_, iC⟩
        · intro g hg
          obtain ⟨x1, x2, x3, x4⟩ := iA g hg
          rw [if_neg hx] at x4
          rw [if_pos h0]
          exact ⟨x1, x2, x3, x4⟩
        · intro s len hr hle
          have := no_run_ends_after_hole image curr s len hhole hr
          exact iB s len hr (by omega)
    · rw [if_neg h0]
      obtain ⟨hgb, hcount, hleft⟩ := hinv.2 h0
      have hprev := hcount (curr - 1) (by omega) (by omega)
      have hpm := hmax (curr - 1)
      have hsub : sub32 curr gb = curr - gb := sub32_of_le (by omega) (by omega)
      have hadd : add32 gbl (sub32 curr gb) = image.getD (curr - 1) 0 + 1 := by
        rw [hsub, add32_of_lt (by omega)]; omega
      rw [hadd]
      by_cases hx : image.getD curr 0 = image.getD (curr - 1) 0 + 1
      · rw [if_pos hx]
        have hinv1 : GroupInv image (curr + 1) gb gbl := by
          refine ⟨fun h => absurd h h0, fun _ => ⟨by omega, ?_, hleft⟩⟩
          intro j hj1 hj2
          by_cases hj : j = curr
          · subst hj; omega
          · exact hcount j hj1 (by omega)
        obtain ⟨iA, iB, iC⟩ := ih (curr + 1) gb gbl hc1 hinv1
        refine ⟨?_, ?_, iC⟩
        · intro g hg
          obtain ⟨x1, x2, x3, x4⟩ := iA g hg
          rw [if_neg h0] at x4 ⊢
          exact ⟨x1, x2, x3, x4⟩
        · intro s len hr hle
          have hne : s + len ≠ curr := by
            intro e
            obtain ⟨_, _, _, _, _, hright⟩ := hr
            rw [e] at hright
            rcases hright with h | h | h
            · omega
            · omega
            · exact h hx
          exact iB s len hr (by omega)
      · rw [if_neg hx]
        have hrun := open_group_is_run image curr gb gbl h0 hgb (by omega) hcount hleft
          (Or.inr (by
            by_cases hz : image.getD curr 0 = 0
            · exact Or.inl hz
            · exact Or.inr hx))
        have hinv1 : GroupInv image (curr + 1)
            (if image.getD curr 0 ≠ 0 then curr else gb) (image.getD curr 0) := by
          constructor
          · intro h; exact Or.inr (by simpa using h)
          · intro h
            rw [if_pos h]
            refine ⟨by omega, ?_, Or.inr (Or.inr hx)⟩
            intro j hj1 hj2
            have : j = curr := by omega
            subst this; simp
        obtain ⟨iA, iB, iC⟩ := ih (curr + 1) _ (image.getD curr 0) hc1 hinv1
        have hstart : ∀ g ∈ image_groups image todo (curr + 1)
            (if image.getD curr 0 ≠ 0 then curr else gb) (image.getD curr 0), curr ≤ g.1 := by
          intro g hg
          obtain ⟨_, _, _, x4⟩ := iA g hg
          by_cases hz : image.getD curr 0 = 0
          · rw [if_pos hz] at x4; omega
          · rw [if_neg hz, if_pos hz] at x4; exact x4
        refine ⟨?_, ?_, ?_⟩
        · intro g hg
          rcases List.mem_cons.1 hg with h | h
          · subst h
            have := hcount gb (le_refl _) hgb
            exact ⟨hrun, hgb, by simp only []; omega, by rw [if_neg h0]⟩
          · obtain ⟨x1, x2, x3, _⟩ := iA g h
            have := hstart g h
            rw [if_neg h0]
            exact ⟨x1, x2, x3, by omega⟩
        · intro s len hr hle
          by_cases e : s + len = curr
          · obtain ⟨h1, h2⟩ :=
              run_ending_at_open_group image curr gb gbl h0 hgb hcount hleft s len hr e
            rw [e, h1, ← h1, h2]
            exact List.mem_cons_self _ _
          · exact List.mem_cons_of_mem _ (iB s len hr (by omega))
        · refine List.pairwise_cons.2 ⟨?_, iC⟩
          intro g hg
          have := hstart g hg
          show gb < g.1
          omega

theorem getD_lt_of_forall (B : Nat) (hB : 0 < B) :
    ∀ (l : List Nat), (∀ x ∈ l, x < B) → ∀ i, l.getD i 0 < B := by
  intro l
  induction l with
  | nil => intro _ i; simpa using hB
  | cons x xs ih =>
    intro h i
    cases i with
    | zero => simpa using h x (List.mem_cons_self _ _)
    | succ j =>
      simpa using ih (fun y hy => h y (List.mem_cons_of_mem _ hy)) j

theorem push_groups_ok :
    ∀ (gs : List (Nat × Nat × Nat)) (fl : Nat → List Nat),
      (∀ g ∈ gs, g.1 < g.2.1 ∧ g.2.1 - g.1 ≤ 64 ∧ g.2.1 < 4294967296) →
      push_groups gs fl = some (fun i =>
        fl i ++ gs.filterMap (fun g => if g.2.1 - g.1 - 1 = i then some g.2.2 else none)) := by
  intro gs
  induction gs with
  | nil => intro fl _; rw [push_groups]; simp
  | cons g gs ih =>
    intro fl h
    obtain ⟨h1, h2, h3⟩ := h g (List.mem_cons_self _ _)
    have hs1 : sub32 g.2.1 g.1 = g.2.1 - g.1 := sub32_of_le (by omega) h3
    have hs2 : sub32 (g.2.1 - g.1) 1 = g.2.1 - g.1 - 1 := sub32_of_le (by omega) (by omega)
    rw [push_groups, hs1, hs2, push_back_of_lt _ (by omega)]
    simp only []
    rw [ih _ (fun x hx => h x (List.mem_cons_of_mem _ hx))]
    congr 1
    funext i
    rw [List.filterMap_cons]
    by_cases hi : g.2.1 - g.1 - 1 = i
    · subst hi; simp
    · simp [hi, Function.update_noteq (Ne.symm hi)]

/-- C5, as stated, fails on two images. An image of 65 consecutive block indices
is one maximal run of length 65, whose entry would belong on `free_lists[64]`:
the array has no such element and the call does not complete. In the image
`[2^32-1, 0]` the 32-bit sum `(2^32-1) + 1` wraps to 0, so the hole at position 1
continues the run: the index `2^32-1` lands on `free_lists[1]` although the
maximal run at position 0 has length 1. -/
theorem free_image_fails_on_long_run_and_wrap :
    (IsImageRun image_of_65 0 65 ∧
      ¬ ∃ a1, free_image image_of_65 Allocator.empty = Outcome.ok a1) ∧
    (IsImageRun [4294967295, 0] 0 1 ∧
      ∃ a1, free_image [4294967295, 0] Allocator.empty = Outcome.ok a1 ∧
        a1.free_lists 0 = [] ∧ a1.free_lists 1 = [4294967295]) := by
  refine ⟨⟨by decide, ?_⟩, ⟨by decide, _, rfl, rfl, rfl⟩⟩
  have h : free_image image_of_65 Allocator.empty = Outcome.fault := rfl
  rintro ⟨a1, ha⟩
  rw [h] at ha
  cases ha

/-- C5 (amended): for every image (0 = hole) of fewer than 2^32 entries, none of
them 2^32-1, in which every maximal run of adjacent non-zero, numerically
consecutive block indices has length at most 64, `free(image, k)` appends to the
free lists exactly one entry per maximal run, from left to right: the first block
index of the run, on `free_lists[len-1]`. Holes belong to no run and break
runs; nothing else is added or removed, and no other field changes. -/
theorem free_image_runs (image : List Nat) (a : Allocator)
    (hlen : image.length < 4294967296) (hmax : ∀ x ∈ image, x < 4294967295)
    (hshort : ∀ s len, IsImageRun image s len → len ≤ 64) :
    ∃ (runs : List (Nat × Nat)) (a1 : Allocator),
      (∀ s len, (s, len) ∈ runs ↔ IsImageRun image s len) ∧
      runs.Pairwise (fun r t => r.1 < t.1) ∧
      free_image image a = Outcome.ok a1 ∧
      (∀ i, a1.free_lists i = a.free_lists i ++ runs.filterMap (image_run_entry image i)) ∧
      a1.bitmap = a.bitmap ∧ a1.recent_bitmap_idx = a.recent_bitmap_idx ∧
      a1.curr_log_block_idx = a.curr_log_block_idx ∧
      a1.curr_log_offset = a.curr_log_offset := by
  have hmaxD := getD_lt_of_forall 4294967295 (by decide) image hmax
  have hinv : GroupInv image 0 0 0 := ⟨fun _ => Or.inl rfl, fun h => absurd rfl h⟩
  obtain ⟨hA, hB, hC⟩ := image_groups_spec image hlen hmaxD image.length 0 0 0 (by omega) hinv
  have hgs : ∀ g ∈ image_groups image image.length 0 0 0,
      g.1 < g.2.1 ∧ g.2.1 - g.1 ≤ 64 ∧ g.2.1 < 4294967296 := by
    intro g hg
    obtain ⟨x1, x2, _, _⟩ := hA g hg
    have := hshort _ _ x1
    have := x1.2.1
    exact ⟨x2, by omega, by omega⟩
  refine ⟨(image_groups image image.length 0 0 0).map run_of_group,
    { a with
      free_lists := fun i =>
        a.free_lists i ++ ((image_groups image image.length 0 0 0).map run_of_group).filterMap
          (image_run_entry image i) },
    ?_, ?_, ?_, fun i => rfl, rfl, rfl, rfl, rfl⟩
  · intro s len
    rw [List.mem_map]
    constructor
    · rintro ⟨g, hg, e⟩
      have e2 : (g.1, g.2.1 - g.1) = (s, len) := e
      rw [Prod.mk.injEq] at e2
      rw [← e2.1, ← e2.2]
      exact (hA g hg).1
    · intro h
      refine ⟨(s, s + len, image.getD s 0), hB s len h (Nat.zero_le _), ?_⟩
      show (s, s + len - s) = (s, len)
      rw [Nat.add_sub_cancel_left]
  · rw [List.pairwise_map]
    exact hC
  · rw [free_image_eq, push_groups_ok _ _ hgs]
    simp only []
    congr 3
    funext i
    congr 1
    rw [List.filterMap_map]
    apply List.filterMap_congr
    intro g hg
    obtain ⟨_, _, x3, _⟩ := hA g hg
    show _ = image_run_entry image i (g.1, g.2.1 - g.1)
    unfold image_run_entry
    simp only [x3]

theorem free_image_runs_witness :
    ([5, 7, 8, 9, 0, 0, 3, 4, 4].length < 4294967296 ∧
      (∀ x ∈ [5, 7, 8, 9, 0, 0, 3, 4, 4], x < 4294967295)) ∧
    ∃ (runs : List (Nat × Nat)) (a1 : Allocator),
      (∀ s len, (s, len) ∈ runs ↔ IsImageRun [5, 7, 8, 9, 0, 0, 3, 4, 4] s len) ∧
      runs.Pairwise (fun r t => r.1 < t.1) ∧
      free_image [5, 7, 8, 9, 0, 0, 3, 4, 4] two_runs_of_two = Outcome.ok a1 ∧
      (∀ i, a1.free_lists i = two_runs_of_two.free_lists i ++
        runs.filterMap (image_run_entry [5, 7, 8, 9, 0, 0, 3, 4, 4] i)) ∧
      a1.bitmap = two_runs_of_two.bitmap ∧
      a1.recent_bitmap_idx = two_runs_of_two.recent_bitmap_idx ∧
      a1.curr_log_block_idx = two_runs_of_two.curr_log_block_idx ∧
      a1.curr_log_offset = two_runs_of_two.curr_log_offset :=
  ⟨by decide,
    free_image_runs [5, 7, 8, 9, 0, 0, 3, 4, 4] two_runs_of_two (by decide) (by decide)
      (fun s len h => by have := h.2.1; simp at this; omega)⟩

/-- The call of the example for C5, evaluated: the runs are 5 (length 1), 7..9
(length 3), 3..4 (length 2) and 4 (length 1). -/
theorem free_image_value :
    ∃ a1, free_image [5, 7, 8, 9, 0, 0, 3, 4, 4] two_runs_of_two = Outcome.ok a1 ∧
      a1.free_lists 0 = [5, 4] ∧ a1.free_lists 1 = [100, 200, 3] ∧ a1.free_lists 2 = [7] := by
  refine ⟨_, rfl, ?_, ?_, ?_⟩ <;> rfl

theorem sat_bind {α β : Type} (o : Outcome α) (f : α → Outcome β) (P : α → Prop)
    (Q : β → Prop) (h : o.sat P) (hf : ∀ v, P v → (f v).sat Q) : (o.bind f).sat Q := by
  cases o with
  | ok v => exact hf v h
  | panic s => trivial
  | starved s => trivial
  | fault => exact h
  | unfinished => exact h

theorem sat_mono {α : Type} (o : Outcome α) (P Q : α → Prop) (h : o.sat P)
    (hPQ : ∀ v, P v → Q v) : o.sat Q := by
  cases o with
  | ok v => exact hPQ v h
  | panic s => trivial
  | starved s => trivial
  | fault => exact h
  | unfinished => exact h

/-- With a valid run, `place_run` uses free-list subscripts in range only. -/
theorem place_run_some (nb b l k : Nat) (f : Bool) (blk : Nat) (fl : Nat → List Nat)
    (hnb : 1 ≤ nb) (hk1 : 1 ≤ k) (hk : k ≤ 64) :
    ∃ r, place_run nb b l k f blk fl = some r := by
  unfold place_run
  by_cases hc : f = false ∧ k ≥ nb
  · rw [if_pos hc]
    by_cases hgt : k > nb
    · have hs1 : sub32 k nb = k - nb := sub32_of_le (by omega) (by omega)
      have hs2 : sub32 (k - nb) 1 = k - nb - 1 := sub32_of_le (by omega) (by omega)
      rw [if_pos hgt, hs1, hs2, push_back_of_lt _ (by omega)]
      exact ⟨_, rfl⟩
    · rw [if_neg hgt]
      exact ⟨_, rfl⟩
  · have hs : sub32 k 1 = k - 1 := sub32_of_le hk1 (by omega)
    rw [if_neg hc, hs, push_back_of_lt _ (by omega)]
    exact ⟨_, rfl⟩

theorem place_runs_some (nb b : Nat) (hnb : 1 ≤ nb) :
    ∀ (rs : List (Nat × Nat)) (f : Bool) (blk : Nat) (fl : Nat → List Nat),
      (∀ r ∈ rs, 1 ≤ r.2 ∧ r.2 ≤ 64) → ∃ r, place_runs nb b rs f blk fl = some r := by
  intro rs
  induction rs with
  | nil => intro f blk fl _; exact ⟨_, place_runs_nil nb b f blk fl⟩
  | cons x xs ih =>
    intro f blk fl h
    obtain ⟨h1, h2⟩ := h x (List.mem_cons_self _ _)
    obtain ⟨r, hr⟩ := place_run_some nb b x.1 x.2 f blk fl hnb h1 h2
    rw [place_runs_cons, hr]
    exact ih _ _ _ (fun y hy => h y (List.mem_cons_of_mem _ hy))

theorem scan_word_some (nb b w : Nat) (hnb : 1 ≤ nb) (hw : w < 18446744073709551616)
    (fl : Nat → List Nat) : ∃ r, scan_word nb b 64 w 64 false 0 fl = some r := by
  obtain ⟨hA, _, _⟩ := raw_runs_word w hw
  rw [scan_word_eq_place_runs]
  apply place_runs_some nb b hnb
  intro r hr
  obtain ⟨_, hk, hle, _⟩ := hA r hr
  exact ⟨hk, by omega⟩

theorem alloc_retry_sat (n : Nat) (hn : 1 ≤ n) :
    ∀ (bm : List TryAlloc) (a : Allocator), (alloc_retry n bm a).sat (fun _ => True) := by
  intro bm
  induction bm with
  | nil => intro a; rw [alloc_retry]; trivial
  | cons x xs ih =>
    intro a
    cases x with
    | none => rw [alloc_retry]; trivial
    | some bw =>
      obtain ⟨b, w⟩ := bw
      rw [alloc_retry]
      obtain ⟨r, hr⟩ := scan_word_some n b (w % 18446744073709551616) hn
        (Nat.mod_lt _ (by decide)) a.free_lists
      show (match scan_word n b 64 (w % 18446744073709551616) 64 false 0 a.free_lists with
        | none => Outcome.fault
        | some (is_found, allocated_block_idx, fl) => _).sat _
      rw [hr]
      obtain ⟨f, blk, fl⟩ := r
      cases f with
      | true => trivial
      | false => exact ih _

theorem alloc_longer_sat (nb : Nat) (a : Allocator) (hnb : 1 ≤ nb) :
    ∀ (todo n : Nat), nb < n →
      alloc_longer nb a todo n = none ∨
      ∃ v, alloc_longer nb a todo n = some (Outcome.ok v) := by
  intro todo
  induction todo with
  | zero => intro n _; left; rw [alloc_longer]
  | succ t ih =>
    intro n hn
    rw [alloc_longer]
    by_cases h64 : n ≤ BITMAP_CAPACITY
    · have h64' : n ≤ 64 := h64
      have hs : sub32 n 1 = n - 1 := sub32_of_le (by omega) (by omega)
      have hs1 : sub32 n nb = n - nb := sub32_of_le (by omega) (by omega)
      have hs2 : sub32 (n - nb) 1 = n - nb - 1 := sub32_of_le (by omega) (by omega)
      have hlt2 : n - nb - 1 < 64 := by omega
      rw [if_pos h64, hs, if_pos (show n - 1 < BITMAP_CAPACITY by unfold BITMAP_CAPACITY; omega),
        hs1, hs2]
      cases (a.free_lists (n - 1)).getLast? with
      | none => exact ih (n + 1) (by omega)
      | some lidx =>
        right
        show ∃ v, (match push_back (pop_back a.free_lists (n - 1)) (n - nb - 1)
            (add32 lidx nb) with
          | some fl => some (Outcome.ok (lidx, { a with free_lists := fl }))
          | none => some Outcome.fault) = some (Outcome.ok v)
        rw [push_back_of_lt _ hlt2]
        exact ⟨_, rfl⟩
    · rw [if_neg h64]; left; trivial

/-- For 1 ≤ n ≤ 64, `alloc(n)` returns a block, or fails because the bitmap has
no block left; it never uses a free-list subscript out of range. -/
theorem alloc_sat (n : Nat) (a : Allocator) (h1 : 1 ≤ n) (h64 : n ≤ 64) :
    (alloc n a).sat (fun _ => True) := by
  have hs : sub32 n 1 = n - 1 := sub32_of_le h1 (by omega)
  unfold alloc
  rw [if_pos (show n ≤ BITMAP_CAPACITY from h64), hs,
    if_pos (show n - 1 < BITMAP_CAPACITY by unfold BITMAP_CAPACITY; omega)]
  cases (a.free_lists (n - 1)).getLast? with
  | some lidx => trivial
  | none =>
    show (match alloc_longer n a BITMAP_CAPACITY (n + 1) with
      | some r => r
      | none => alloc_retry n a.bitmap a).sat _
    rcases alloc_longer_sat n a h1 BITMAP_CAPACITY (n + 1) (by omega) with h | ⟨v, h⟩
    · rw [h]; exact alloc_retry_sat n h1 _ _
    · rw [h]; trivial

theorem log_entry_loop_sat (fixed_size : Nat) (hfix : fixed_size + 4 ≤ 4096) :
    ∀ (fuel nb needed : Nat) (a : Allocator), needed < fuel → nb < 4294967296 →
      needed = (nb + 63) / 64 → a.curr_log_offset + fixed_size + 4 ≤ 4096 →
      (log_entry_loop fixed_size fuel nb needed a).sat (LoopPost fixed_size nb needed a) := by
  intro fuel
  induction fuel with
  | zero => intro nb needed a h; omega
  | succ fuel ih =>
    intro nb needed a hfuel hnb hceil hoff
    rw [log_entry_loop]
    simp only []
    have hsub : sub32 BLOCK_SIZE (a.curr_log_offset + fixed_size) =
        BLOCK_SIZE - (a.curr_log_offset + fixed_size) :=
      sub32_of_le (by unfold BLOCK_SIZE; omega) (by unfold BLOCK_SIZE; omega)
    rw [hsub]
    generalize hav : (BLOCK_SIZE - (a.curr_log_offset + fixed_size)) / LIDX_SIZE = av
    simp only [BLOCK_SIZE, LIDX_SIZE] at hav
    have hav1 : 1 ≤ av := by omega
    have hav2 : a.curr_log_offset + fixed_size + av * 4 ≤ 4096 := by omega
    have hav3 : 4096 - (a.curr_log_offset + fixed_size + av * 4) < 4 := by omega
    rw [if_pos (show av > 0 by omega)]
    by_cases hle : needed ≤ av
    · rw [if_pos hle]
      show LoopPost fixed_size nb needed a _
      have hfield : num_blocks_field nb = nb := by unfold num_blocks_field; omega
      refine ⟨by simp [hfield], by simp, ⟨[], _, rfl, rfl, rfl, by simp⟩, ?_,
        ⟨_, _, rfl, rfl, rfl⟩, ?_⟩
      · intro f hf
        rw [List.mem_singleton] at hf
        subst hf
        show a.curr_log_offset + fixed_size + needed * LIDX_SIZE ≤ BLOCK_SIZE
        unfold LIDX_SIZE BLOCK_SIZE
        omega
      · show a.curr_log_offset + fixed_size + needed * LIDX_SIZE ≤ BLOCK_SIZE
        unfold LIDX_SIZE BLOCK_SIZE
        omega
    · rw [if_neg hle]
      have hst : num_blocks_field ((av <<< BITMAP_CAPACITY_SHIFT) % 4294967296) = av * 64 := by
        unfold num_blocks_field BITMAP_CAPACITY_SHIFT
        rw [Nat.shiftLeft_eq]
        omega
      have hoff2 : a.curr_log_offset + fixed_size + av * LIDX_SIZE ≤ BLOCK_SIZE := by
        unfold LIDX_SIZE BLOCK_SIZE; omega
      have hsub2 : sub32 BLOCK_SIZE (a.curr_log_offset + fixed_size + av * LIDX_SIZE) <
          fixed_size + LIDX_SIZE := by
        rw [sub32_of_le hoff2 (by unfold BLOCK_SIZE; omega)]
        unfold LIDX_SIZE BLOCK_SIZE; omega
      have hnb2 : sub32 nb (av * 64) = nb - av * 64 := sub32_of_le (by omega) hnb
      have hnd2 : sub32 needed av = needed - av := sub32_of_le (by omega) (by omega)
      rw [hst, if_pos hoff2, if_pos hsub2, hnb2, hnd2]
      apply sat_bind _ _ (fun _ => True) _ (alloc_sat 1 _ (by omega) (by omega))
      intro v _
      apply sat_bind _ _
        (LoopPost fixed_size (nb - av * 64) (needed - av)
          { v.2 with curr_log_block_idx := v.1, curr_log_offset := 0 }) _
        (ih (nb - av * 64) (needed - av) _ (by omega) (by omega) (by omega)
          (by show 0 + fixed_size + 4 ≤ 4096; omega))
      intro rest hrest
      obtain ⟨p1, p2, ⟨init, last, e, pl, pn, pinit⟩, p4, _, p6⟩ := hrest
      show LoopPost fixed_size nb needed a (_ :: rest.1, rest.2)
      refine ⟨?_, ?_, ⟨_ :: init, last, by rw [e]; rfl, pl, pn, ?_⟩, ?_,
        ⟨_, _, rfl, rfl, rfl⟩, p6⟩
      · simp only [List.map_cons, List.sum_cons, p1]; omega
      · simp only [List.map_cons, List.sum_cons, p2]; omega
      · intro f hf
        rcases List.mem_cons.1 hf with h | h
        · subst h
          exact ⟨rfl, by show av * 64 = 64 * av; omega, hav1, ⟨_, rfl⟩⟩
        · exact pinit f h
      · intro f hf
        rcases List.mem_cons.1 hf with h | h
        · subst h; exact hoff2
        · exact p4 f h

theorem needed_lidxs_eq (nb : Nat) :
    ALIGN_UP nb BITMAP_CAPACITY >>> BITMAP_CAPACITY_SHIFT = (nb + 63) / 64 := by
  unfold ALIGN_UP BITMAP_CAPACITY BITMAP_CAPACITY_SHIFT
  rw [Nat.shiftRight_eq_div_pow]
  omega

theorem ensure_log_block_sat (fixed_size : Nat) (a : Allocator) (hfix : fixed_size + 4 ≤ 4096)
    (hoff : a.curr_log_offset ≤ 4096) :
    (ensure_log_block fixed_size a).sat (fun a0 => a0.curr_log_offset + fixed_size + 4 ≤ 4096) := by
  unfold ensure_log_block
  by_cases hc : a.curr_log_block_idx = 0 ∨
      sub32 BLOCK_SIZE a.curr_log_offset < fixed_size + LIDX_SIZE
  · rw [if_pos hc]
    apply sat_bind _ _ (fun _ => True) _ (alloc_sat 1 a (by omega) (by omega))
    intro v _
    show 0 + fixed_size + 4 ≤ 4096
    omega
  · rw [if_neg hc]
    have h2 : ¬ sub32 BLOCK_SIZE a.curr_log_offset < fixed_size + LIDX_SIZE :=
      fun h => hc (Or.inr h)
    rw [sub32_of_le (show a.curr_log_offset ≤ BLOCK_SIZE from hoff)
      (by unfold BLOCK_SIZE; omega)] at h2
    unfold BLOCK_SIZE LIDX_SIZE at h2
    show a.curr_log_offset + fixed_size + 4 ≤ 4096
    omega

/-- Under the invariant `curr_log_offset ≤ BLOCK_SIZE`, `alloc_log_entry` returns
(unless a block allocation fails) and its result has the properties of
`LoopPost` for the cursor at which the first fragment is placed. -/
theorem alloc_log_entry_sat (fixed_size nb : Nat) (a : Allocator)
    (hfix : fixed_size + 4 ≤ 4096) (hnb : nb < 4294967296) (hoff : a.curr_log_offset ≤ 4096) :
    (alloc_log_entry fixed_size nb a).sat (fun r =>
      ∃ a0, LoopPost fixed_size nb ((nb + 63) / 64) a0 (r.1.fragments, r.2) ∧
        r.1.first_idx = (a0.curr_log_block_idx, a0.curr_log_offset) ∧
        r.1.first_block = a0.curr_log_block_idx) := by
  unfold alloc_log_entry
  apply sat_bind _ _ _ _ (ensure_log_block_sat fixed_size a hfix hoff)
  intro a0 h0
  unfold place_log_entry
  rw [needed_lidxs_eq]
  apply sat_bind _ _ _ _
    (log_entry_loop_sat fixed_size hfix ((nb + 63) / 64 + 1) nb ((nb + 63) / 64) a0
      (by omega) hnb rfl h0)
  intro r hr
  exact ⟨a0, hr, rfl, rfl⟩

theorem length_pos_concat {l : List Nat} (h : 0 < l.length) :
    ∃ rest x, l = rest ++ [x] ∧ rest.length + 1 = l.length := by
  obtain ⟨rest, x, e⟩ := exists_eq_concat_of_ne_nil (List.ne_nil_of_length_pos h)
  exact ⟨rest, x, e, by rw [e]; simp⟩

/-- With at least `needed` single blocks on `free_lists[0]` the loop of
`alloc_log_entry` returns: every fresh log-entry block comes from that list. -/
theorem log_entry_loop_returns (fixed_size : Nat) (hfix : fixed_size + 4 ≤ 4096) :
    ∀ (fuel nb needed : Nat) (a : Allocator), needed < fuel → nb < 4294967296 →
      needed = (nb + 63) / 64 → a.curr_log_offset + fixed_size + 4 ≤ 4096 →
      needed ≤ (a.free_lists 0).length →
      ∃ r, log_entry_loop fixed_size fuel nb needed a = Outcome.ok r := by
  intro fuel
  induction fuel with
  | zero => intro nb needed a h; omega
  | succ fuel ih =>
    intro nb needed a hfuel hnb hceil hoff hlen
    rw [log_entry_loop]
    simp only []
    have hsub : sub32 BLOCK_SIZE (a.curr_log_offset + fixed_size) =
        BLOCK_SIZE - (a.curr_log_offset + fixed_size) :=
      sub32_of_le (by unfold BLOCK_SIZE; omega) (by unfold BLOCK_SIZE; omega)
    rw [hsub]
    generalize hav : (BLOCK_SIZE - (a.curr_log_offset + fixed_size)) / LIDX_SIZE = av
    simp only [BLOCK_SIZE, LIDX_SIZE] at hav
    have hav1 : 1 ≤ av := by omega
    rw [if_pos (show av > 0 by omega)]
    by_cases hle : needed ≤ av
    · rw [if_pos hle]
      exact ⟨_, rfl⟩
    · rw [if_neg hle]
      have hst : num_blocks_field ((av <<< BITMAP_CAPACITY_SHIFT) % 4294967296) = av * 64 := by
        unfold num_blocks_field BITMAP_CAPACITY_SHIFT
        rw [Nat.shiftLeft_eq]
        omega
      have hoff2 : a.curr_log_offset + fixed_size + av * LIDX_SIZE ≤ BLOCK_SIZE := by
        unfold LIDX_SIZE BLOCK_SIZE; omega
      have hsub2 : sub32 BLOCK_SIZE (a.curr_log_offset + fixed_size + av * LIDX_SIZE) <
          fixed_size + LIDX_SIZE := by
        rw [sub32_of_le hoff2 (by unfold BLOCK_SIZE; omega)]
        unfold LIDX_SIZE BLOCK_SIZE; omega
      have hnb2 : sub32 nb (av * 64) = nb - av * 64 := sub32_of_le (by omega) hnb
      have hnd2 : sub32 needed av = needed - av := sub32_of_le (by omega) (by omega)
      obtain ⟨rest, x, e, hl⟩ := length_pos_concat (show 0 < (a.free_lists 0).length by omega)
      rw [hst, if_pos hoff2, if_pos hsub2, hnb2, hnd2,
        alloc_pop 1 { a with curr_log_offset := a.curr_log_offset + fixed_size + av * LIDX_SIZE }
          (le_refl 1) (by omega) rest x e]
      obtain ⟨r, hr⟩ := ih (nb - av * 64) (needed - av)
        { a with
          free_lists := Function.update a.free_lists 0 rest,
          curr_log_block_idx := x,
          curr_log_offset := 0 }
        (by omega) (by omega) (by omega) (by show 0 + fixed_size + 4 ≤ 4096; omega)
        (by
          show needed - av ≤ (Function.update a.free_lists 0 rest 0).length
          rw [Function.update_same]; omega)
      show ∃ r, (Outcome.bind (log_entry_loop fixed_size fuel (nb - av * 64) (needed - av)
        { a with
          free_lists := Function.update a.free_lists 0 rest,
          curr_log_block_idx := x,
          curr_log_offset := 0 }) _) = Outcome.ok r
      rw [hr]
      exact ⟨_, rfl⟩

/-- With more than `ceil(num_blocks/64)` single blocks on `free_lists[0]`,
`alloc_log_entry` returns. -/
theorem alloc_log_entry_returns (fixed_size nb : Nat) (a : Allocator)
    (hfix : fixed_size + 4 ≤ 4096) (hnb : nb < 4294967296) (hoff : a.curr_log_offset ≤ 4096)
    (hlen : (nb + 63) / 64 < (a.free_lists 0).length) :
    ∃ r, alloc_log_entry fixed_size nb a = Outcome.ok r := by
  unfold alloc_log_entry ensure_log_block
  by_cases hc : a.curr_log_block_idx = 0 ∨
      sub32 BLOCK_SIZE a.curr_log_offset < fixed_size + LIDX_SIZE
  · obtain ⟨rest, x, e, hl⟩ := length_pos_concat (show 0 < (a.free_lists 0).length by omega)
    rw [if_pos hc, alloc_pop 1 a (le_refl 1) (by omega) rest x e]
    obtain ⟨r, hr⟩ := log_entry_loop_returns fixed_size hfix ((nb + 63) / 64 + 1) nb
      ((nb + 63) / 64)
      { a with
        free_lists := Function.update a.free_lists 0 rest,
        curr_log_block_idx := x,
        curr_log_offset := 0 }
      (by omega) hnb rfl (by show 0 + fixed_size + 4 ≤ 4096; omega)
      (by
        show (nb + 63) / 64 ≤ (Function.update a.free_lists 0 rest 0).length
        rw [Function.update_same]; omega)
    show ∃ r, place_log_entry fixed_size nb
      { a with
        free_lists := Function.update a.free_lists 0 rest,
        curr_log_block_idx := x,
        curr_log_offset := 0 } = Outcome.ok r
    unfold place_log_entry
    rw [needed_lidxs_eq, hr]
    exact ⟨_, rfl⟩
  · rw [if_neg hc]
    have h2 : ¬ sub32 BLOCK_SIZE a.curr_log_offset < fixed_size + LIDX_SIZE :=
      fun h => hc (Or.inr h)
    rw [sub32_of_le (show a.curr_log_offset ≤ BLOCK_SIZE from hoff)
      (by unfold BLOCK_SIZE; omega)] at h2
    unfold BLOCK_SIZE LIDX_SIZE at h2
    obtain ⟨r, hr⟩ := log_entry_loop_returns fixed_size hfix ((nb + 63) / 64 + 1) nb
      ((nb + 63) / 64) a (by omega) hnb rfl (by omega) (by omega)
    show ∃ r, place_log_entry fixed_size nb a = Outcome.ok r
    unfold place_log_entry
    rw [needed_lidxs_eq, hr]
    exact ⟨_, rfl⟩

theorem bind_eq_ok {α β : Type} {o : Outcome α} {f : α → Outcome β} {r : β}
    (h : o.bind f = Outcome.ok r) : ∃ v, o = Outcome.ok v ∧ f v = Outcome.ok r := by
  cases o with
  | ok v => exact ⟨v, rfl, h⟩
  | panic s => cases h
  | starved s => cases h
  | fault => cases h
  | unfinished => cases h

theorem bind_bind {α β γ : Type} (o : Outcome α) (f : α → Outcome β) (g : β → Outcome γ) :
    (o.bind f).bind g = o.bind (fun v => (f v).bind g) := by
  cases o <;> rfl

/-- The first fragment that the loop of `alloc_log_entry` sets up is at the
cursor with which the loop starts. -/
theorem log_entry_loop_head (fixed_size fuel nb needed : Nat) (a : Allocator)
    (r : List Fragment × Allocator)
    (h : log_entry_loop fixed_size fuel nb needed a = Outcome.ok r) :
    ∃ f rest, r.1 = f :: rest ∧ f.block_idx = a.curr_log_block_idx ∧
      f.local_offset = a.curr_log_offset := by
  cases fuel with
  | zero => rw [log_entry_loop] at h; cases h
  | succ fuel =>
    rw [log_entry_loop] at h
    simp only [] at h
    split at h
    · split at h
      · have := ok_inj h
        subst this
        exact ⟨_, _, rfl, rfl, rfl⟩
      · split at h
        · split at h
          · obtain ⟨v, _, h2⟩ := bind_eq_ok h
            obtain ⟨rest, _, h3⟩ := bind_eq_ok h2
            have := ok_inj h3
            subst this
            exact ⟨_, _, rfl, rfl, rfl⟩
          · obtain ⟨rest, _, h3⟩ := bind_eq_ok h
            have := ok_inj h3
            subst this
            exact ⟨_, _, rfl, rfl, rfl⟩
        · cases h
    · cases h

theorem sat_bind_ok {α β : Type} (o : Outcome α) (f : α → Outcome β) (Q : β → Prop)
    (h : o.sat (fun _ => True)) (hf : ∀ v, o = Outcome.ok v → (f v).sat Q) :
    (o.bind f).sat Q := by
  cases o with
  | ok v => exact hf v rfl
  | panic s => trivial
  | starved s => trivial
  | fault => exact h
  | unfinished => exact h

theorem sat_and {α : Type} (o : Outcome α) (P Q : α → Prop) (hP : o.sat P) (hQ : o.sat Q) :
    o.sat (fun v => P v ∧ Q v) := by
  cases o with
  | ok v => exact ⟨hP, hQ⟩
  | panic s => trivial
  | starved s => trivial
  | fault => exact hP
  | unfinished => exact hP

/-- The loop of `alloc_log_entry` lays its fragments out from the cursor with
which it starts, as `ReservesChain` describes. -/
theorem log_entry_loop_reserves (fixed_size : Nat) (hfix : fixed_size + 4 ≤ 4096) :
    ∀ (fuel nb needed : Nat) (a : Allocator), needed < fuel → nb < 4294967296 →
      needed = (nb + 63) / 64 → a.curr_log_offset + fixed_size + 4 ≤ 4096 →
      (log_entry_loop fixed_size fuel nb needed a).sat
        (fun r => ReservesChain fixed_size r.1 a r.2) := by
  intro fuel
  induction fuel with
  | zero => intro nb needed a h; omega
  | succ fuel ih =>
    intro nb needed a hfuel hnb hceil hoff
    rw [log_entry_loop]
    simp only []
    have hsub : sub32 BLOCK_SIZE (a.curr_log_offset + fixed_size) =
        BLOCK_SIZE - (a.curr_log_offset + fixed_size) :=
      sub32_of_le (by unfold BLOCK_SIZE; omega) (by unfold BLOCK_SIZE; omega)
    rw [hsub]
    generalize hav : (BLOCK_SIZE - (a.curr_log_offset + fixed_size)) / LIDX_SIZE = av
    have hav0 := hav
    simp only [BLOCK_SIZE, LIDX_SIZE] at hav
    have hav1 : 1 ≤ av := by omega
    have hav2 : a.curr_log_offset + fixed_size + av * 4 ≤ 4096 := by omega
    have hav3 : 4096 - (a.curr_log_offset + fixed_size + av * 4) < 4 := by omega
    rw [if_pos (show av > 0 by omega)]
    by_cases hle : needed ≤ av
    · rw [if_pos hle]
      show ReservesChain fixed_size [_] a _
      rw [ReservesChain]
      exact ⟨rfl, rfl, fun _ => ⟨rfl, rfl⟩, fun h => absurd rfl h⟩
    · rw [if_neg hle]
      have hst : num_blocks_field ((av <<< BITMAP_CAPACITY_SHIFT) % 4294967296) = av * 64 := by
        unfold num_blocks_field BITMAP_CAPACITY_SHIFT
        rw [Nat.shiftLeft_eq]
        omega
      have hoff2 : a.curr_log_offset + fixed_size + av * LIDX_SIZE ≤ BLOCK_SIZE := by
        unfold LIDX_SIZE BLOCK_SIZE; omega
      have hsub2 : sub32 BLOCK_SIZE (a.curr_log_offset + fixed_size + av * LIDX_SIZE) <
          fixed_size + LIDX_SIZE := by
        rw [sub32_of_le hoff2 (by unfold BLOCK_SIZE; omega)]
        unfold LIDX_SIZE BLOCK_SIZE; omega
      have hnb2 : sub32 nb (av * 64) = nb - av * 64 := sub32_of_le (by omega) hnb
      have hnd2 : sub32 needed av = needed - av := sub32_of_le (by omega) (by omega)
      rw [hst, if_pos hoff2, if_pos hsub2, hnb2, hnd2]
      apply sat_bind_ok _ _ _ (alloc_sat 1 _ (by omega) (by omega))
      intro v hv
      apply sat_bind _ _
        (fun r => ReservesChain fixed_size r.1
          { v.2 with curr_log_block_idx := v.1, curr_log_offset := 0 } r.2) _
        (ih (nb - av * 64) (needed - av) _ (by omega) (by omega) (by omega)
          (by show 0 + fixed_size + 4 ≤ 4096; omega))
      intro rest hrest
      show ReservesChain fixed_size (_ :: rest.1) a rest.2
      rw [ReservesChain]
      refine ⟨rfl, rfl, ?_, fun _ => ⟨rfl, hav0.symm, v.1, v.2, hv, rfl, hrest⟩⟩
      intro h
      rw [h, ReservesChain] at hrest
      exact hrest.elim

/-- Under the invariant `curr_log_offset ≤ BLOCK_SIZE`, `alloc_log_entry` returns
(unless a block allocation fails); the chain is laid out from the current cursor
when there is a log-entry block with room for a header and one block index, and
else from offset 0 of the block that `alloc(1)` returns; `first_idx` and
`first_block` name the cursor from which the chain is laid out. -/
theorem alloc_log_entry_reserves (fixed_size nb : Nat) (a : Allocator)
    (hfix : fixed_size + 4 ≤ 4096) (hnb : nb < 4294967296) (hoff : a.curr_log_offset ≤ 4096) :
    (alloc_log_entry fixed_size nb a).sat (fun r =>
      ∃ a0,
        ((¬ (a.curr_log_block_idx = 0 ∨
              BLOCK_SIZE - a.curr_log_offset < fixed_size + LIDX_SIZE) ∧ a0 = a) ∨
          ((a.curr_log_block_idx = 0 ∨
              BLOCK_SIZE - a.curr_log_offset < fixed_size + LIDX_SIZE) ∧
            ∃ b a1, alloc 1 a = Outcome.ok (b, a1) ∧
              a0 = { a1 with curr_log_block_idx := b, curr_log_offset := 0 })) ∧
        r.1.first_idx = (a0.curr_log_block_idx, a0.curr_log_offset) ∧
        r.1.first_block = a0.curr_log_block_idx ∧
        ReservesChain fixed_size r.1.fragments a0 r.2) := by
  have hs : sub32 BLOCK_SIZE a.curr_log_offset = BLOCK_SIZE - a.curr_log_offset :=
    sub32_of_le (show a.curr_log_offset ≤ BLOCK_SIZE from hoff) (by unfold BLOCK_SIZE; omega)
  have hplace : ∀ a0 : Allocator, a0.curr_log_offset + fixed_size + 4 ≤ 4096 →
      (place_log_entry fixed_size nb a0).sat (fun r =>
        r.1.first_idx = (a0.curr_log_block_idx, a0.curr_log_offset) ∧
        r.1.first_block = a0.curr_log_block_idx ∧
        ReservesChain fixed_size r.1.fragments a0 r.2) := by
    intro a0 h0
    unfold place_log_entry
    rw [needed_lidxs_eq]
    apply sat_bind _ _ _ _
      (log_entry_loop_reserves fixed_size hfix ((nb + 63) / 64 + 1) nb ((nb + 63) / 64) a0
        (by omega) hnb rfl h0)
    intro r hr
    exact ⟨rfl, rfl, hr⟩
  unfold alloc_log_entry ensure_log_block
  rw [hs]
  by_cases hc : a.curr_log_block_idx = 0 ∨
      BLOCK_SIZE - a.curr_log_offset < fixed_size + LIDX_SIZE
  · rw [if_pos hc, bind_bind]
    apply sat_bind_ok _ _ _ (alloc_sat 1 a (by omega) (by omega))
    intro v hv
    show (place_log_entry fixed_size nb
      { v.2 with curr_log_block_idx := v.1, curr_log_offset := 0 }).sat _
    apply sat_mono _ _ _ (hplace _ (by show 0 + fixed_size + 4 ≤ 4096; omega))
    intro r hr
    exact ⟨_, Or.inr ⟨hc, v.1, v.2, hv, rfl⟩, hr⟩
  · rw [if_neg hc]
    show (place_log_entry fixed_size nb a).sat _
    have h2 : ¬ BLOCK_SIZE - a.curr_log_offset < fixed_size + LIDX_SIZE :=
      fun h => hc (Or.inr h)
    unfold BLOCK_SIZE LIDX_SIZE at h2
    apply sat_mono _ _ _ (hplace a (by omega))
    intro r hr
    exact ⟨a, Or.inl ⟨hc, rfl⟩, hr⟩

/-- C8: for every `num_blocks` (a 32-bit value) and an allocator whose cursor is
within its block, `alloc_log_entry(num_blocks)` returns (unless a block
allocation fails) a chain of fragments whose `num_blocks` fields add up to
`num_blocks` and whose reserved slots add up to `ceil(num_blocks/64)`; exactly
the last fragment has `has_next = false`, and every other fragment has
`num_blocks = 64 * (slots it reserves)`. The slots of a fragment are reserved in
the log-entry block: the chain starts at the current cursor when there is a
log-entry block with room for a header and one block index, and else at offset 0
of a block that `alloc(1)` returns; every fragment but the last takes all the
slots that fit behind its header and is continued at offset 0 of a block that
`alloc(1)` returns, and the cursor is left behind the header and the slots of the
last fragment (`ReservesChain`). No block allocation fails when `free_lists[0]`
holds more than `ceil(num_blocks/64)` single blocks. -/
theorem alloc_log_entry_chain (fixed_size nb : Nat) (a : Allocator)
    (hfix : fixed_size + LIDX_SIZE ≤ BLOCK_SIZE) (hnb : nb < 4294967296)
    (hoff : a.curr_log_offset ≤ BLOCK_SIZE) :
    (alloc_log_entry fixed_size nb a).sat (fun r =>
      (r.1.fragments.map Fragment.num_blocks).sum = nb ∧
      (r.1.fragments.map Fragment.num_lidxs).sum = (nb + 63) / 64 ∧
      (∃ init last, r.1.fragments = init ++ [last] ∧ last.has_next = false ∧
        ∀ f ∈ init, f.has_next = true ∧ f.num_blocks = 64 * f.num_lidxs) ∧
      ∃ a0,
        ((¬ (a.curr_log_block_idx = 0 ∨
              BLOCK_SIZE - a.curr_log_offset < fixed_size + LIDX_SIZE) ∧ a0 = a) ∨
          ((a.curr_log_block_idx = 0 ∨
              BLOCK_SIZE - a.curr_log_offset < fixed_size + LIDX_SIZE) ∧
            ∃ b a1, alloc 1 a = Outcome.ok (b, a1) ∧
              a0 = { a1 with curr_log_block_idx := b, curr_log_offset := 0 })) ∧
        ReservesChain fixed_size r.1.fragments a0 r.2) ∧
    ((nb + 63) / 64 < (a.free_lists 0).length →
      ∃ r, alloc_log_entry fixed_size nb a = Outcome.ok r) := by
  refine ⟨sat_mono _ _ _ (sat_and _ _ _ (alloc_log_entry_sat fixed_size nb a hfix hnb hoff)
      (alloc_log_entry_reserves fixed_size nb a hfix hnb hoff)) ?_,
    alloc_log_entry_returns fixed_size nb a hfix hnb hoff⟩
  rintro r ⟨⟨_, ⟨p1, p2, ⟨init, last, e, pl, _, pinit⟩, _⟩, _⟩, a0, hstart, _, _, hres⟩
  exact ⟨p1, p2, ⟨init, last, e, pl, fun f hf => ⟨(pinit f hf).1, (pinit f hf).2.1⟩⟩,
    a0, hstart, hres⟩

theorem alloc_log_entry_chain_witness :
    (12 + LIDX_SIZE ≤ BLOCK_SIZE ∧ 200 < 4294967296 ∧
      nearly_full_five_free.curr_log_offset ≤ BLOCK_SIZE ∧
      (200 + 63) / 64 < (nearly_full_five_free.free_lists 0).length) ∧
    (alloc_log_entry 12 200 nearly_full_five_free).sat (fun r =>
      (r.1.fragments.map Fragment.num_blocks).sum = 200 ∧
      (r.1.fragments.map Fragment.num_lidxs).sum = (200 + 63) / 64 ∧
      (∃ init last, r.1.fragments = init ++ [last] ∧ last.has_next = false ∧
        ∀ f ∈ init, f.has_next = true ∧ f.num_blocks = 64 * f.num_lidxs) ∧
      ∃ a0,
        ((¬ (nearly_full_five_free.curr_log_block_idx = 0 ∨
              BLOCK_SIZE - nearly_full_five_free.curr_log_offset < 12 + LIDX_SIZE) ∧
            a0 = nearly_full_five_free) ∨
          ((nearly_full_five_free.curr_log_block_idx = 0 ∨
              BLOCK_SIZE - nearly_full_five_free.curr_log_offset < 12 + LIDX_SIZE) ∧
            ∃ b a1, alloc 1 nearly_full_five_free = Outcome.ok (b, a1) ∧
              a0 = { a1 with curr_log_block_idx := b, curr_log_offset := 0 })) ∧
        ReservesChain 12 r.1.fragments a0 r.2) ∧
    ∃ r, alloc_log_entry 12 200 nearly_full_five_free = Outcome.ok r :=
  ⟨by decide,
    (alloc_log_entry_chain 12 200 nearly_full_five_free (by decide) (by decide)
      (by decide)).1,
    (alloc_log_entry_chain 12 200 nearly_full_five_free (by decide) (by decide)
      (by decide)).2 (by decide)⟩

/-- The call of the example for C10, evaluated: three slots fit behind the
header at offset 4072 of block 5, the fourth goes to the fresh block 7. -/
theorem alloc_log_entry_value :
    ∃ a2, alloc_log_entry 12 200 log_block_nearly_full =
      Outcome.ok (⟨(5, 4072), 5,
        [⟨5, 4072, true, 192, 3, some (false, 7)⟩, ⟨7, 0, false, 8, 1, none⟩]⟩, a2) ∧
      a2.curr_log_block_idx = 7 ∧ a2.curr_log_offset = 16 ∧ a2.free_lists 0 = [9, 8] :=
  ⟨_, rfl, rfl, rfl, rfl⟩

/-- C9: with the cursor within its block, `alloc_log_entry` returns (unless a
block allocation fails), and it takes a fresh log-entry block (one block from
`alloc(1)`, cursor offset 0) before it places the first fragment exactly when
there is no current log-entry block or `BLOCK_SIZE - curr_log_offset` is below
`fixed_size + sizeof(LogicalBlockIdx)`: in that case the chain is laid out from
offset 0 of the block `b` that `alloc(1)` returns on the allocator of the call,
otherwise from the current cursor of that allocator, no block being taken for
the first fragment. In both cases `first_idx` is (block, offset) of the header
of the first fragment and `first_block` is that block. No block allocation
fails when `free_lists[0]` holds more than `ceil(num_blocks/64)` single
blocks. -/
theorem alloc_log_entry_first (fixed_size nb : Nat) (a : Allocator)
    (hfix : fixed_size + LIDX_SIZE ≤ BLOCK_SIZE) (hnb : nb < 4294967296)
    (hoff : a.curr_log_offset ≤ BLOCK_SIZE) :
    ((a.curr_log_block_idx = 0 ∨
        BLOCK_SIZE - a.curr_log_offset < fixed_size + LIDX_SIZE) →
      (alloc_log_entry fixed_size nb a).sat (fun r =>
        ∃ b a1, alloc 1 a = Outcome.ok (b, a1) ∧
          r.1.first_idx = (b, 0) ∧ r.1.first_block = b ∧
          (∃ f rest, r.1.fragments = f :: rest ∧ f.block_idx = b ∧ f.local_offset = 0) ∧
          ReservesChain fixed_size r.1.fragments
            { a1 with curr_log_block_idx := b, curr_log_offset := 0 } r.2)) ∧
    (¬ (a.curr_log_block_idx = 0 ∨
        BLOCK_SIZE - a.curr_log_offset < fixed_size + LIDX_SIZE) →
      (alloc_log_entry fixed_size nb a).sat (fun r =>
        r.1.first_idx = (a.curr_log_block_idx, a.curr_log_offset) ∧
        r.1.first_block = a.curr_log_block_idx ∧
        (∃ f rest, r.1.fragments = f :: rest ∧ f.block_idx = a.curr_log_block_idx ∧
          f.local_offset = a.curr_log_offset) ∧
        ReservesChain fixed_size r.1.fragments a r.2)) ∧
    ((nb + 63) / 64 < (a.free_lists 0).length →
      ∃ r, alloc_log_entry fixed_size nb a = Outcome.ok r) := by
  have hhead : ∀ (frags : List Fragment) (a0 a2 : Allocator),
      ReservesChain fixed_size frags a0 a2 →
      ∃ f rest, frags = f :: rest ∧ f.block_idx = a0.curr_log_block_idx ∧
        f.local_offset = a0.curr_log_offset := by
    intro frags a0 a2 h
    cases frags with
    | nil => rw [ReservesChain] at h; exact h.elim
    | cons f rest => rw [ReservesChain] at h; exact ⟨f, rest, rfl, h.1, h.2.1⟩
  refine ⟨fun hc => ?_, fun hc => ?_, alloc_log_entry_returns fixed_size nb a hfix hnb hoff⟩
  · apply sat_mono _ _ _ (alloc_log_entry_reserves fixed_size nb a hfix hnb hoff)
    rintro r ⟨a0, hstart, h1, h2, hres⟩
    rcases hstart with ⟨hn, _⟩ | ⟨_, b, a1, hb, e⟩
    · exact absurd hc hn
    · subst e
      exact ⟨b, a1, hb, h1, h2, hhead _ _ _ hres, hres⟩
  · apply sat_mono _ _ _ (alloc_log_entry_reserves fixed_size nb a hfix hnb hoff)
    rintro r ⟨a0, hstart, h1, h2, hres⟩
    rcases hstart with ⟨_, e⟩ | ⟨hp, _⟩
    · subst e
      exact ⟨h1, h2, hhead _ _ _ hres, hres⟩
    · exact absurd hp hc

theorem alloc_log_entry_first_witness :
    ((12 + LIDX_SIZE ≤ BLOCK_SIZE ∧ 100 < 4294967296 ∧
        no_log_block.curr_log_offset ≤ BLOCK_SIZE ∧
        (no_log_block.curr_log_block_idx = 0 ∨
          BLOCK_SIZE - no_log_block.curr_log_offset < 12 + LIDX_SIZE) ∧
        (100 + 63) / 64 < (no_log_block.free_lists 0).length) ∧
      (alloc_log_entry 12 100 no_log_block).sat (fun r =>
        ∃ b a1, alloc 1 no_log_block = Outcome.ok (b, a1) ∧
          r.1.first_idx = (b, 0) ∧ r.1.first_block = b ∧
          (∃ f rest, r.1.fragments = f :: rest ∧ f.block_idx = b ∧ f.local_offset = 0) ∧
          ReservesChain 12 r.1.fragments
            { a1 with curr_log_block_idx := b, curr_log_offset := 0 } r.2) ∧
      ∃ r, alloc_log_entry 12 100 no_log_block = Outcome.ok r) ∧
    ((12 + LIDX_SIZE ≤ BLOCK_SIZE ∧ 200 < 4294967296 ∧
        nearly_full_five_free.curr_log_offset ≤ BLOCK_SIZE ∧
        ¬ (nearly_full_five_free.curr_log_block_idx = 0 ∨
          BLOCK_SIZE - nearly_full_five_free.curr_log_offset < 12 + LIDX_SIZE) ∧
        (200 + 63) / 64 < (nearly_full_five_free.free_lists 0).length) ∧
      (alloc_log_entry 12 200 nearly_full_five_free).sat (fun r =>
        r.1.first_idx = (nearly_full_five_free.curr_log_block_idx,
          nearly_full_five_free.curr_log_offset) ∧
        r.1.first_block = nearly_full_five_free.curr_log_block_idx ∧
        (∃ f rest, r.1.fragments = f :: rest ∧
          f.block_idx = nearly_full_five_free.curr_log_block_idx ∧
          f.local_offset = nearly_full_five_free.curr_log_offset) ∧
        ReservesChain 12 r.1.fragments nearly_full_five_free r.2) ∧
      ∃ r, alloc_log_entry 12 200 nearly_full_five_free = Outcome.ok r) :=
  ⟨⟨by decide,
      (alloc_log_entry_first 12 100 no_log_block (by decide) (by decide) (by decide)).1
        (by decide),
      (alloc_log_entry_first 12 100 no_log_block (by decide) (by decide) (by decide)).2.2
        (by decide)⟩,
    ⟨by decide,
      (alloc_log_entry_first 12 200 nearly_full_five_free (by decide) (by decide)
        (by decide)).2.1 (by decide),
      (alloc_log_entry_first 12 200 nearly_full_five_free (by decide) (by decide)
        (by decide)).2.2 (by decide)⟩⟩

/-- The calls of the examples for C8 and C9 on the allocator with five free
blocks, evaluated: three slots fit behind the header at offset 4072 of block 5,
the fourth goes to the fresh block 7, and the cursor is left at offset 16 of
block 7. -/
theorem alloc_log_entry_five_free_value :
    ∃ a2, alloc_log_entry 12 200 nearly_full_five_free =
      Outcome.ok (⟨(5, 4072), 5,
        [⟨5, 4072, true, 192, 3, some (false, 7)⟩, ⟨7, 0, false, 8, 1, none⟩]⟩, a2) ∧
      a2.curr_log_block_idx = 7 ∧ a2.curr_log_offset = 16 ∧
      a2.free_lists 0 = [11, 10, 9, 8] :=
  ⟨_, rfl, rfl, rfl, rfl⟩

/-- Two calls on the allocator without a log-entry block, evaluated: block 7
comes from `alloc(1)`, the entry starts at its offset 0; the second call is that
of the example for C9. -/
theorem alloc_log_entry_fresh_value :
    (∃ a2, alloc_log_entry 12 200 no_log_block =
      Outcome.ok (⟨(7, 0), 7, [⟨7, 0, false, 200, 4, none⟩]⟩, a2) ∧
      a2.curr_log_block_idx = 7 ∧ a2.curr_log_offset = 28 ∧ a2.free_lists 0 = [9, 8]) ∧
    (∃ a2, alloc_log_entry 12 100 no_log_block =
      Outcome.ok (⟨(7, 0), 7, [⟨7, 0, false, 100, 2, none⟩]⟩, a2) ∧
      a2.curr_log_block_idx = 7 ∧ a2.curr_log_offset = 20 ∧ a2.free_lists 0 = [9, 8]) :=
  ⟨⟨_, rfl, rfl, rfl, rfl⟩, ⟨_, rfl, rfl, rfl, rfl⟩⟩

/-- C10: if `curr_log_offset ≤ BLOCK_SIZE` holds before `alloc_log_entry`, then
(unless a block allocation fails) the call returns, every fragment it reserves
(header and block-index array) ends at or before byte 4096 of its block, and
`curr_log_offset ≤ BLOCK_SIZE` holds again. No block allocation fails when
`free_lists[0]` holds more than `ceil(num_blocks/64)` single blocks. -/
theorem alloc_log_entry_within_block (fixed_size nb : Nat) (a : Allocator)
    (hfix : fixed_size + LIDX_SIZE ≤ BLOCK_SIZE) (hnb : nb < 4294967296)
    (hoff : a.curr_log_offset ≤ BLOCK_SIZE) :
    (alloc_log_entry fixed_size nb a).sat (fun r =>
      (∀ f ∈ r.1.fragments,
        f.local_offset + (fixed_size + f.num_lidxs * LIDX_SIZE) ≤ BLOCK_SIZE) ∧
      r.2.curr_log_offset ≤ BLOCK_SIZE) ∧
    ((nb + 63) / 64 < (a.free_lists 0).length →
      ∃ r, alloc_log_entry fixed_size nb a = Outcome.ok r) := by
  refine ⟨sat_mono _ _ _ (alloc_log_entry_sat fixed_size nb a hfix hnb hoff) ?_,
    alloc_log_entry_returns fixed_size nb a hfix hnb hoff⟩
  rintro r ⟨a0, ⟨_, _, _, p4, _, p6⟩, _⟩
  exact ⟨fun f hf => by have := p4 f hf; omega, p6⟩

theorem alloc_log_entry_within_block_witness :
    (12 + LIDX_SIZE ≤ BLOCK_SIZE ∧ 200 < 4294967296 ∧
      log_block_nearly_full.curr_log_offset ≤ BLOCK_SIZE) ∧
    (alloc_log_entry 12 200 log_block_nearly_full).sat (fun r =>
      (∀ f ∈ r.1.fragments, f.local_offset + (12 + f.num_lidxs * LIDX_SIZE) ≤ BLOCK_SIZE) ∧
      r.2.curr_log_offset ≤ BLOCK_SIZE) ∧
    ((200 + 63) / 64 < (log_block_nearly_full.free_lists 0).length →
      ∃ r, alloc_log_entry 12 200 log_block_nearly_full = Outcome.ok r) :=
  ⟨by decide, alloc_log_entry_within_block 12 200 log_block_nearly_full (by decide) (by decide)
    (by decide)⟩

theorem get_block_idx_pos (k j : Nat) (hk : k ≠ 0) :
    get_block_idx k j = (16384 + k * 32768 + j) % 4294967296 := by
  unfold get_block_idx
  rw [if_neg hk]
  unfold add32 shl32 INLINE_BITMAP_CAPACITY BITMAP_BLOCK_CAPACITY_SHIFT
  norm_num
  omega

/-- C17: for a bitmap block id `k ≥ 1` the code computes the block index of the
bitmap block as `16384 + k * 32768` and the block index of its bit `j` as
`16384 + k * 32768 + j`, in the 32-bit arithmetic of `LogicalBlockIdx` (so exactly
these numbers whenever they are block indices, that is below `2^32`); for the
id 0 of the inline bitmap the block index of bit `j` is `j`. -/
theorem bitmap_block_idx_formula (k j : Nat) (hk : 1 ≤ k) :
    get_bitmap_block_idx k = (16384 + k * 32768) % 4294967296 ∧
    get_block_idx k j = (16384 + k * 32768 + j) % 4294967296 ∧
    (16384 + k * 32768 + j < 4294967296 →
      get_bitmap_block_idx k = 16384 + k * 32768 ∧
      get_block_idx k j = 16384 + k * 32768 + j) ∧
    get_block_idx 0 j = j := by
  have hk0 : k ≠ 0 := by omega
  have h1 := get_block_idx_pos k j hk0
  have h2 := get_block_idx_pos k 0 hk0
  refine ⟨h2, h1, ?_, ?_⟩
  · intro h
    unfold get_bitmap_block_idx
    rw [h1, h2]
    omega
  · simp [get_block_idx]

theorem bitmap_block_idx_formula_witness :
    get_bitmap_block_idx 3 = (16384 + 3 * 32768) % 4294967296 ∧
    get_block_idx 3 5 = (16384 + 3 * 32768 + 5) % 4294967296 ∧
    (16384 + 3 * 32768 + 5 < 4294967296 →
      get_bitmap_block_idx 3 = 16384 + 3 * 32768 ∧
      get_block_idx 3 5 = 16384 + 3 * 32768 + 5) ∧
    get_block_idx 0 5 = 5 :=
  bitmap_block_idx_formula 3 5 (by decide)

/-- C18: the code maps the bitmap block id 1 to the block index 49152 and the id 2
to 81920, not to the 16384 and 32768 of the comment above `BitmapBlock`; the id 0
is mapped to the block index 0 of the meta block. -/
theorem bitmap_block_idx_of_one_and_two :
    get_bitmap_block_idx 0 = 0 ∧
    get_bitmap_block_idx 1 = 49152 ∧ get_bitmap_block_idx 1 ≠ 16384 ∧
    get_bitmap_block_idx 2 = 81920 ∧ get_bitmap_block_idx 2 ≠ 32768 := by
  decide

/-- C19: `get_bitmap_block_id` does not undo `get_bitmap_block_idx` at the id 0 of
the inline bitmap: the block index 0 is mapped to the id 131071, because
`0 - INLINE_BITMAP_CAPACITY` wraps around. For the ids `1 ≤ k < 131072`, whose
block index is below `2^32`, it does undo it. -/
theorem bitmap_block_id_roundtrip :
    get_bitmap_block_id (get_bitmap_block_idx 0) = 131071 ∧
    ∀ k, 1 ≤ k → k < 131072 → get_bitmap_block_id (get_bitmap_block_idx k) = k := by
  refine ⟨by decide, ?_⟩
  intro k h1 h2
  unfold get_bitmap_block_idx
  rw [get_block_idx_pos k 0 (by omega)]
  unfold get_bitmap_block_id shr32 sub32 INLINE_BITMAP_CAPACITY BITMAP_BLOCK_CAPACITY_SHIFT
  norm_num
  split <;> omega

theorem bitmap_block_id_roundtrip_witness :
    get_bitmap_block_id (get_bitmap_block_idx 0) = 131071 ∧
    get_bitmap_block_id (get_bitmap_block_idx 7) = 7 :=
  ⟨bitmap_block_id_roundtrip.1, bitmap_block_id_roundtrip.2 7 (by decide) (by decide)⟩

theorem read_next_of {m : TxMem} {block_idx : Nat} {tx_block : Option Nat} {nxt : Nat}
    (hmeta : block_idx = 0 → m.meta_next = nxt)
    (hblk : block_idx ≠ 0 → ∃ p, tx_block = some p ∧ m.next_tx_block p = nxt) :
    read_next_tx_block m block_idx tx_block = some nxt := by
  unfold read_next_tx_block
  by_cases hb : block_idx = 0
  · rw [if_pos hb, hmeta hb]
  · obtain ⟨p, hp, hpn⟩ := hblk hb
    rw [if_neg hb, hp, Option.map_some', hpn]

/-- C11: from an index `(block_idx, local_idx)` with `0 ≤ local_idx` (and
`local_idx < capacity`, which both cases below imply), `advance_tx_idx` returns true with `(block_idx, local_idx + 1)` and the same
`tx_block` when `local_idx + 1 < capacity`; at the last slot of a block whose next
pointer `nxt` is not zero (the pointer of the meta block for `block_idx = 0`, that
of the block `tx_block` points to otherwise) it returns true with `(nxt, 0)` and
`tx_block` pointing to the block `nxt`. -/
theorem advance_tx_idx_next (m : TxMem) (block_idx : Nat) (local_idx : Int)
    (tx_block : Option Nat) (do_alloc : Bool)
    (h0 : 0 ≤ local_idx) :
    (local_idx + 1 < capacity block_idx →
      advance_tx_idx m { block_idx := block_idx, local_idx := local_idx } tx_block do_alloc
        = some { ret := true, tx_idx := { block_idx := block_idx, local_idx := local_idx + 1 },
                 tx_block := tx_block }) ∧
    (∀ nxt, local_idx + 1 = capacity block_idx → nxt ≠ 0 →
      (block_idx = 0 → m.meta_next = nxt) →
      (block_idx ≠ 0 → ∃ p, tx_block = some p ∧ m.next_tx_block p = nxt) →
      advance_tx_idx m { block_idx := block_idx, local_idx := local_idx } tx_block do_alloc
        = some { ret := true, tx_idx := { block_idx := nxt, local_idx := 0 },
                 tx_block := some nxt }) := by
  constructor
  · intro h
    unfold advance_tx_idx handle_idx_overflow
    simp only [ge_iff_le, h0, if_true]
    rw [if_neg (by omega)]
  · intro nxt h hn hmeta hblk
    have hread : read_next_tx_block m block_idx tx_block = some nxt := read_next_of hmeta hblk
    unfold advance_tx_idx handle_idx_overflow
    simp only [ge_iff_le, h0, if_true]
    rw [if_pos (by omega), hread]
    simp only [hn, if_false, move_to_block, h, sub_self]

theorem advance_tx_idx_next_witness :
    (((5 : Int) + 1 < capacity 7 →
      advance_tx_idx chain_0_7_9 { block_idx := 7, local_idx := 5 } (some 7) false
        = some { ret := true, tx_idx := { block_idx := 7, local_idx := 5 + 1 },
                 tx_block := some 7 }) ∧
    (∀ nxt, (5 : Int) + 1 = capacity 7 → nxt ≠ 0 →
      (7 = 0 → chain_0_7_9.meta_next = nxt) →
      (7 ≠ 0 → ∃ p, some 7 = some p ∧ chain_0_7_9.next_tx_block p = nxt) →
      advance_tx_idx chain_0_7_9 { block_idx := 7, local_idx := 5 } (some 7) false
        = some { ret := true, tx_idx := { block_idx := nxt, local_idx := 0 },
                 tx_block := some nxt })) ∧
    advance_tx_idx chain_0_7_9 { block_idx := 7, local_idx := 510 } (some 7) false
        = some { ret := true, tx_idx := { block_idx := 9, local_idx := 0 },
                 tx_block := some 9 } :=
  ⟨advance_tx_idx_next chain_0_7_9 7 5 (some 7) false (by decide),
   (advance_tx_idx_next chain_0_7_9 7 510 (some 7) false (by decide)).2 9
     (by decide) (by decide) (by decide) (fun _ => ⟨7, rfl, by decide⟩)⟩

/-- C12, counterexample: at the last slot of the meta block, without a next block
and with `do_alloc = false`, `advance_tx_idx` returns false and leaves the local
index 240, not the 239 it was called with. -/
theorem advance_tx_idx_overflow_moves_local_idx :
    advance_tx_idx no_next_tx_block { block_idx := 0, local_idx := 239 } none false
      = some { ret := false, tx_idx := { block_idx := 0, local_idx := 240 }, tx_block := none } ∧
    ({ block_idx := 0, local_idx := 240 } : TxEntryIdx) ≠ { block_idx := 0, local_idx := 239 } := by
  decide

/-- C12, as the code has it: with `do_alloc = false`, at the last slot of a block
without a next block, `advance_tx_idx` returns false and leaves `block_idx` and
`tx_block` as they were, and the local index advanced by one, which is the
capacity of the block (the overflow state). -/
theorem advance_tx_idx_overflow (m : TxMem) (block_idx : Nat) (local_idx : Int)
    (tx_block : Option Nat)
    (h0 : 0 ≤ local_idx) (hlast : local_idx + 1 = capacity block_idx)
    (hmeta : block_idx = 0 → m.meta_next = 0)
    (hblk : block_idx ≠ 0 → ∃ p, tx_block = some p ∧ m.next_tx_block p = 0) :
    advance_tx_idx m { block_idx := block_idx, local_idx := local_idx } tx_block false
      = some { ret := false, tx_idx := { block_idx := block_idx, local_idx := local_idx + 1 },
               tx_block := tx_block } := by
  unfold advance_tx_idx handle_idx_overflow
  simp only [ge_iff_le, h0, if_true]
  rw [if_pos (by omega), read_next_of hmeta hblk]
  simp

theorem advance_tx_idx_overflow_witness :
    advance_tx_idx chain_0_7_9 { block_idx := 9, local_idx := 510 } (some 9) false
      = some { ret := false, tx_idx := { block_idx := 9, local_idx := 510 + 1 },
               tx_block := some 9 } :=
  advance_tx_idx_overflow chain_0_7_9 9 510 (some 9) (by decide) (by decide) (by decide)
    (fun _ => ⟨9, rfl, by decide⟩)

theorem try_append_loop_found (entry : Nat) (entries : List Nat) (idx : Nat)
    (hz : entries.getD idx 0 = 0) :
    ∀ (todo idx0 : Nat), idx0 ≤ idx → idx < idx0 + todo →
      (∀ j, idx0 ≤ j → j < idx → entries.getD j 0 ≠ 0) →
      try_append_loop entry todo idx0 entries = ((idx : Int), entries.set idx entry) := by
  intro todo
  induction todo with
  | zero => intro idx0 h1 h2; omega
  | succ n ih =>
    intro idx0 h1 h2 hnz
    rw [try_append_loop]
    by_cases he : idx0 = idx
    · subst he; rw [if_pos hz]
    · rw [if_neg (hnz idx0 (le_refl _) (by omega))]
      exact ih (idx0 + 1) (by omega) (by omega) (fun j hj hj2 => hnz j (by omega) hj2)

theorem try_append_loop_none (entry : Nat) (entries : List Nat) :
    ∀ (todo idx0 : Nat), (∀ j, idx0 ≤ j → j < idx0 + todo → entries.getD j 0 ≠ 0) →
      try_append_loop entry todo idx0 entries = (-1, entries) := by
  intro todo
  induction todo with
  | zero => intro idx0 _; rfl
  | succ n ih =>
    intro idx0 hnz
    rw [try_append_loop, if_neg (hnz idx0 (le_refl _) (by omega))]
    exact ih (idx0 + 1) (fun j hj hj2 => hnz j (by omega) (by omega))

theorem try_append_loop_keeps (entry : Nat) (entries : List Nat) (j : Nat)
    (hj : entries.getD j 0 ≠ 0) :
    ∀ (todo idx0 : Nat),
      (try_append_loop entry todo idx0 entries).2.getD j 0 = entries.getD j 0 ∧
      (try_append_loop entry todo idx0 entries).2.length = entries.length := by
  intro todo
  induction todo with
  | zero => intro idx0; exact ⟨rfl, rfl⟩
  | succ n ih =>
    intro idx0
    rw [try_append_loop]
    by_cases hz : entries.getD idx0 0 = 0
    · rw [if_pos hz]
      have hne : idx0 ≠ j := by
        intro h; rw [h] at hz; exact hj hz
      simp only [List.length_set, and_true]
      simp only [List.getD_eq_getElem?_getD]
      rw [List.getElem?_set_ne hne]
    · rw [if_neg hz]; exact ih (idx0 + 1)

/-- C13: run by one thread, `try_append` stores the entry in the first slot at or
after `hint` that holds 0 and returns the index of that slot, the other slots
staying as they were; when no slot at or after `hint` holds 0 it returns -1 and
the array stays as it was. A slot that does not hold 0 keeps its value in every
case. -/
theorem try_append_first_zero (entries : List Nat) (entry hint : Nat) :
    (∀ idx, hint ≤ idx → idx < entries.length → entries.getD idx 0 = 0 →
      (∀ j, hint ≤ j → j < idx → entries.getD j 0 ≠ 0) →
      try_append entries entry hint = ((idx : Int), entries.set idx entry)) ∧
    ((∀ j, hint ≤ j → j < entries.length → entries.getD j 0 ≠ 0) →
      try_append entries entry hint = (-1, entries)) ∧
    (∀ j, entries.getD j 0 ≠ 0 →
      (try_append entries entry hint).2.getD j 0 = entries.getD j 0) ∧
    (try_append entries entry hint).2.length = entries.length := by
  refine ⟨?_, ?_, ?_, ?_⟩
  · intro idx h1 h2 hz hnz
    exact try_append_loop_found entry entries idx hz _ hint h1 (by omega) hnz
  · intro hnz
    exact try_append_loop_none entry entries _ hint (fun j h1 h2 => hnz j h1 (by omega))
  · intro j hj
    exact (try_append_loop_keeps entry entries j hj _ hint).1
  · unfold try_append
    generalize entries.length - hint = todo
    induction todo generalizing hint with
    | zero => rfl
    | succ n ih =>
      rw [try_append_loop]
      split
      · simp
      · exact ih (hint + 1)

theorem try_append_first_zero_witness :
    try_append [5, 0, 6, 0, 0] 9 2 = ((3 : Int), [5, 0, 6, 9, 0]) ∧
    try_append [5, 0, 6] 9 2 = (-1, [5, 0, 6]) :=
  ⟨(try_append_first_zero [5, 0, 6, 0, 0] 9 2).1 3 (by decide) (by decide) (by decide)
      (by intro j h1 h2; have : j = 2 := by omega
          subst this; decide),
   (try_append_first_zero [5, 0, 6] 9 2).2.1
      (by intro j h1 h2; have : j = 2 := by simp at h2; omega
          subst this; decide)⟩

theorem next_after_calls_of_ne_zero (next : Nat) (h : next ≠ 0) (calls : List Nat) :
    next_after_calls next calls = next := by
  unfold next_after_calls
  induction calls with
  | nil => rfl
  | cons b bs ih =>
    rw [List.foldl_cons]
    have : (set_next_tx_block next b).2 = next := by
      unfold set_next_tx_block; rw [if_neg h]
    rw [this]; exact ih

/-- C14: `set_next_tx_block` and `set_next_block_idx` return true exactly when the
field `next` was 0, and then store their argument; otherwise they return false and
leave the field as it was. So a field that is not 0 keeps its value through every
sequence of calls. -/
theorem next_written_once (next b : Nat) :
    ((set_next_tx_block next b).1 = true ↔ next = 0) ∧
    (next = 0 → set_next_tx_block next b = (true, b)) ∧
    (next ≠ 0 → set_next_tx_block next b = (false, next)) ∧
    set_next_block_idx next b = set_next_tx_block next b ∧
    (next ≠ 0 → ∀ calls, next_after_calls next calls = next) := by
  refine ⟨?_, ?_, ?_, rfl, fun h calls => next_after_calls_of_ne_zero next h calls⟩
  · unfold set_next_tx_block; split <;> simp [*]
  · intro h; unfold set_next_tx_block; rw [if_pos h]
  · intro h; unfold set_next_tx_block; rw [if_neg h]

theorem next_written_once_witness :
    set_next_tx_block 0 7 = (true, 7) ∧ set_next_tx_block 7 9 = (false, 7) ∧
    next_after_calls 7 [9, 0, 11] = 7 :=
  ⟨(next_written_once 0 7).2.1 rfl, (next_written_once 7 9).2.2.1 (by decide),
   (next_written_once 7 9).2.2.2.2 (by decide) [9, 0, 11]⟩

theorem tx_seq_inj_of_file {tx_seq : Nat → Nat} {blocks : List Nat}
    (hfile : OneFile tx_seq blocks) {x y : Nat} (hx : x ∈ blocks) (hy : y ∈ blocks)
    (h : tx_seq x = tx_seq y) : x = y := by
  unfold OneFile at hfile
  induction blocks with
  | nil => cases hx
  | cons z zs ih =>
    rw [List.pairwise_cons] at hfile
    rcases List.mem_cons.mp hx with hx | hx <;> rcases List.mem_cons.mp hy with hy | hy
    · rw [hx, hy]
    · have := hfile.1 y hy; rw [← hx] at this; omega
    · have := hfile.1 x hx; rw [← hy] at this; omega
    · exact ih hfile.2 hx hy

/-- C15: on the locators of the tx entries of one file, whose blocks have strictly
increasing sequence numbers along the chain, the order `a < b` iff
`tx_seq(ba) < tx_seq(bb)` or (`ba = bb` and `la < lb`) is a strict total order:
exactly one of `a < b`, `a = b`, `b < a` holds, and the order is transitive. -/
theorem tx_idx_lt_strict_total (tx_seq : Nat → Nat) (blocks : List Nat)
    (hfile : OneFile tx_seq blocks) (a b : TxEntryIdx)
    (ha : a.block_idx ∈ blocks) (hb : b.block_idx ∈ blocks) :
    ((tx_idx_lt tx_seq a b ∧ a ≠ b ∧ ¬ tx_idx_lt tx_seq b a) ∨
     (¬ tx_idx_lt tx_seq a b ∧ a = b ∧ ¬ tx_idx_lt tx_seq b a) ∨
     (¬ tx_idx_lt tx_seq a b ∧ a ≠ b ∧ tx_idx_lt tx_seq b a)) ∧
    (∀ c : TxEntryIdx, tx_idx_lt tx_seq a b → tx_idx_lt tx_seq b c → tx_idx_lt tx_seq a c) := by
  have hinj := @tx_seq_inj_of_file tx_seq blocks hfile a.block_idx b.block_idx ha hb
  obtain ⟨ba, la⟩ := a
  obtain ⟨bb, lb⟩ := b
  unfold tx_idx_lt
  dsimp only at hinj ⊢
  constructor
  · rcases Nat.lt_trichotomy (tx_seq ba) (tx_seq bb) with h | h | h
    · left
      refine ⟨Or.inl h, ?_, ?_⟩
      · intro e; injection e with e1 e2; rw [e1] at h; omega
      · rintro (h2 | ⟨e, _⟩)
        · omega
        · rw [e] at h; omega
    · have e := hinj h
      subst e
      rcases lt_trichotomy la lb with h2 | h2 | h2
      · left
        refine ⟨Or.inr ⟨rfl, h2⟩, ?_, ?_⟩
        · intro e; injection e with e1 e2; omega
        · rintro (h3 | ⟨_, h3⟩) <;> omega
      · right; left
        refine ⟨?_, by rw [h2], ?_⟩
        · rintro (h3 | ⟨_, h3⟩) <;> omega
        · rintro (h3 | ⟨_, h3⟩) <;> omega
      · right; right
        refine ⟨?_, ?_, Or.inr ⟨rfl, h2⟩⟩
        · rintro (h3 | ⟨_, h3⟩) <;> omega
        · intro e; injection e with e1 e2; omega
    · right; right
      refine ⟨?_, ?_, Or.inl h⟩
      · rintro (h2 | ⟨e, _⟩)
        · omega
        · rw [e] at h; omega
      · intro e; injection e with e1 e2; rw [e1] at h; omega
  · rintro ⟨bc, lc⟩ (h1 | ⟨e1, h1⟩) (h2 | ⟨e2, h2⟩)
    · left; exact lt_trans h1 h2
    · left; dsimp only at e2 ⊢; rw [← e2]; exact h1
    · left; rw [e1]; exact h2
    · right; dsimp only at e2 h2 ⊢; exact ⟨e1.trans e2, lt_trans h1 h2⟩

theorem tx_idx_lt_strict_total_witness :
    tx_idx_lt (fun b => if b = 0 then 0 else if b = 7 then 1 else 2)
      { block_idx := 9, local_idx := 3 } { block_idx := 7, local_idx := 5 } ∨
    ({ block_idx := 9, local_idx := 3 } : TxEntryIdx) = { block_idx := 7, local_idx := 5 } ∨
    tx_idx_lt (fun b => if b = 0 then 0 else if b = 7 then 1 else 2)
      { block_idx := 7, local_idx := 5 } { block_idx := 9, local_idx := 3 } :=
  (tx_idx_lt_strict_total (fun b => if b = 0 then 0 else if b = 7 then 1 else 2) [0, 7, 9]
    (by decide) { block_idx := 9, local_idx := 3 } { block_idx := 7, local_idx := 5 }
    (by decide) (by decide)).1.elim (fun h => Or.inl h.1)
    (fun h => h.elim (fun h => Or.inr (Or.inl h.2.1)) (fun h => Or.inr (Or.inr h.2.2)))

theorem le_set_tx_log_tail {le : TxEntryIdx → TxEntryIdx → Bool}
    (htotal : ∀ a b, le a b = true ∨ le b a = true) (old t : TxEntryIdx) :
    le old (set_tx_log_tail le old t) = true := by
  unfold set_tx_log_tail
  by_cases h : le t old = true
  · rw [if_pos h]; exact (htotal old old).elim id id
  · rw [if_neg h]; exact (htotal old t).resolve_right h

theorem le_tail_after_calls {le : TxEntryIdx → TxEntryIdx → Bool}
    (htotal : ∀ a b, le a b = true ∨ le b a = true)
    (htrans : ∀ a b c, le a b = true → le b c = true → le a c = true)
    (calls : List TxEntryIdx) :
    ∀ old, le old (tail_after_calls le old calls) = true := by
  unfold tail_after_calls
  induction calls with
  | nil => intro old; exact (htotal old old).elim id id
  | cons t ts ih =>
    intro old
    rw [List.foldl_cons]
    exact htrans _ _ _ (le_set_tx_log_tail htotal old t) (ih _)

/-- C16: for an operator `<=` of locators that is total and transitive,
`set_tx_log_tail(t)` leaves `t` in the field when `t > old` (that is, when
`t <= old` does not hold) and leaves `old` otherwise, and `set_tx_log_head` does
the same; so `old <= ` the field after the call, and after every sequence of
calls. -/
theorem set_tx_log_tail_advances (le : TxEntryIdx → TxEntryIdx → Bool)
    (htotal : ∀ a b, le a b = true ∨ le b a = true)
    (htrans : ∀ a b c, le a b = true → le b c = true → le a c = true)
    (old t : TxEntryIdx) :
    (le t old = false → set_tx_log_tail le old t = t ∧ le old t = true) ∧
    (le t old = true → set_tx_log_tail le old t = old) ∧
    set_tx_log_head le old t = set_tx_log_tail le old t ∧
    le old (set_tx_log_tail le old t) = true ∧
    (∀ calls, le old (tail_after_calls le old calls) = true) := by
  refine ⟨?_, ?_, rfl, le_set_tx_log_tail htotal old t,
    fun calls => le_tail_after_calls htotal htrans calls old⟩
  · intro h
    refine ⟨?_, (htotal old t).resolve_right (by rw [h]; decide)⟩
    unfold set_tx_log_tail; rw [h]; rfl
  · intro h
    unfold set_tx_log_tail; rw [if_pos h]

theorem le_by_index_total (a b : TxEntryIdx) :
    le_by_index a b = true ∨ le_by_index b a = true := by
  unfold le_by_index
  simp only [decide_eq_true_eq]
  omega

theorem le_by_index_trans (a b c : TxEntryIdx) :
    le_by_index a b = true → le_by_index b c = true → le_by_index a c = true := by
  unfold le_by_index
  simp only [decide_eq_true_eq]
  omega

theorem set_tx_log_tail_advances_witness :
    set_tx_log_tail le_by_index { block_idx := 7, local_idx := 5 }
      { block_idx := 9, local_idx := 0 } = { block_idx := 9, local_idx := 0 } ∧
    set_tx_log_tail le_by_index { block_idx := 7, local_idx := 5 }
      { block_idx := 7, local_idx := 2 } = { block_idx := 7, local_idx := 5 } :=
  ⟨((set_tx_log_tail_advances le_by_index le_by_index_total le_by_index_trans
      { block_idx := 7, local_idx := 5 } { block_idx := 9, local_idx := 0 }).1 (by decide)).1,
   (set_tx_log_tail_advances le_by_index le_by_index_total le_by_index_trans
      { block_idx := 7, local_idx := 5 } { block_idx := 7, local_idx := 2 }).2.1 (by decide)⟩

theorem digitChar_hex (d : Nat) (h : d < 16) :
    hex_digit_value (Nat.digitChar d) = d ∧ is_lower_hex (Nat.digitChar d) = true := by
  interval_cases d <;> decide

theorem lx_digits_acc (fuel : Nat) : ∀ (v : Nat) (acc : List Char),
    lx_digits fuel v acc = lx_digits fuel v [] ++ acc := by
  induction fuel with
  | zero => intro v acc; rfl
  | succ n ih =>
    intro v acc
    rw [lx_digits, lx_digits]
    split
    · rfl
    · rw [ih _ (_ :: acc), ih _ [_], List.append_assoc]; rfl

theorem lx_digits_length_le (fuel : Nat) : ∀ (v k : Nat), 1 ≤ k → k ≤ fuel → v < 16 ^ k →
    (lx_digits fuel v []).length ≤ k := by
  induction fuel with
  | zero => intro v k h1 h2; omega
  | succ n ih =>
    intro v k h1 h2 hv
    rw [lx_digits]
    split
    · simpa using h1
    · rename_i h16
      have hk : 2 ≤ k := by
        by_contra hk
        have : k = 1 := by omega
        subst this; simp at hv; omega
      obtain ⟨k, rfl⟩ : ∃ j, k = j + 1 := ⟨k - 1, by omega⟩
      rw [lx_digits_acc, List.length_append]
      have := ih (v / 16) k (by omega) (by omega)
        (by rw [Nat.div_lt_iff_lt_mul (by decide)]; rw [pow_succ] at hv; exact hv)
      simp only [List.length_singleton]; omega

theorem lx_digits_length_ge (fuel : Nat) : ∀ (v k : Nat), k < fuel → 16 ^ k ≤ v →
    k + 1 ≤ (lx_digits fuel v []).length := by
  induction fuel with
  | zero => intro v k h; omega
  | succ n ih =>
    intro v k h1 hv
    rw [lx_digits]
    split
    · rename_i h16
      have : k = 0 := by
        by_contra hk
        have : 16 ^ 1 ≤ 16 ^ k := Nat.pow_le_pow_right (by decide) (by omega)
        simp at this; omega
      subst this; simp
    · rw [lx_digits_acc, List.length_append, List.length_singleton]
      cases k with
      | zero => omega
      | succ k =>
        have := ih (v / 16) k (by omega)
          (by rw [Nat.le_div_iff_mul_le (by decide)]; rw [pow_succ] at hv; exact hv)
        omega

theorem hex_value_concat (cs : List Char) (c : Char) :
    hex_value (cs ++ [c]) = 16 * hex_value cs + hex_digit_value c := by
  unfold hex_value
  rw [List.foldl_append]; rfl

theorem lx_digits_value (fuel : Nat) : ∀ (v : Nat), v < 16 ^ fuel →
    hex_value (lx_digits fuel v []) = v := by
  induction fuel with
  | zero => intro v hv; simp at hv; subst hv; rfl
  | succ n ih =>
    intro v hv
    rw [lx_digits]
    split
    · rename_i h16
      show 16 * 0 + hex_digit_value (Nat.digitChar v) = v
      rw [(digitChar_hex v h16).1]; omega
    · rw [lx_digits_acc, hex_value_concat, (digitChar_hex _ (Nat.mod_lt _ (by decide))).1,
        ih (v / 16) (by rw [Nat.div_lt_iff_lt_mul (by decide)]; rw [pow_succ] at hv; exact hv)]
      omega

theorem lx_digits_lower_hex (fuel : Nat) : ∀ (v : Nat) (acc : List Char),
    (∀ c ∈ acc, is_lower_hex c = true) → ∀ c ∈ lx_digits fuel v acc, is_lower_hex c = true := by
  induction fuel with
  | zero => intro v acc h; exact h
  | succ n ih =>
    intro v acc h
    rw [lx_digits]
    split
    · rename_i h16
      intro c hc
      rcases List.mem_cons.mp hc with hc | hc
      · rw [hc]; exact (digitChar_hex v h16).2
      · exact h c hc
    · apply ih
      intro c hc
      rcases List.mem_cons.mp hc with hc | hc
      · rw [hc]; exact (digitChar_hex _ (Nat.mod_lt _ (by decide))).2
      · exact h c hc

theorem hex_value_zeros (n : Nat) (cs : List Char) :
    hex_value (List.replicate n '0' ++ cs) = hex_value cs := by
  unfold hex_value
  rw [List.foldl_append]
  congr 1
  induction n with
  | zero => rfl
  | succ n ih => rw [List.replicate_succ, List.foldl_cons]; exact ih

theorem fmt_0lx_value (width v : Nat) :
    hex_value (fmt_0lx width v) = v % 18446744073709551616 := by
  unfold fmt_0lx
  rw [hex_value_zeros]
  exact lx_digits_value 16 _ (Nat.mod_lt _ (by decide))

theorem fmt_0lx_lower_hex (width v : Nat) : ∀ c ∈ fmt_0lx width v, is_lower_hex c = true := by
  intro c hc
  unfold fmt_0lx at hc
  rcases List.mem_append.mp hc with hc | hc
  · rw [(List.mem_replicate.mp hc).2]; decide
  · exact lx_digits_lower_hex 16 _ [] (fun _ h => by cases h) c hc

theorem fmt_0lx_length (width v : Nat) :
    (fmt_0lx width v).length = max width (lx_digits 16 (v % 18446744073709551616) []).length := by
  unfold fmt_0lx
  rw [List.length_append, List.length_replicate]
  omega

theorem fmt_0lx_length_of_lt (width v : Nat) (h1 : 1 ≤ width) (h2 : width ≤ 16)
    (hv : v % 18446744073709551616 < 16 ^ width) : (fmt_0lx width v).length = width := by
  rw [fmt_0lx_length]
  have := lx_digits_length_le 16 _ width h1 h2 hv
  omega

theorem fmt_0lx_length_of_ge (width v : Nat) (h2 : width < 16)
    (hv : 16 ^ width ≤ v % 18446744073709551616) :
    width < (fmt_0lx width v).length ∧ (fmt_0lx width v).length ≤ 16 := by
  rw [fmt_0lx_length]
  have := lx_digits_length_ge 16 _ width h2 hv
  have := lx_digits_length_le 16 (v % 18446744073709551616) 16 (by decide) (by decide)
    (Nat.mod_lt _ (by decide))
  omega

/-- C20, counterexample: for the inode 1 and the change time 1700000000 s (November
2023) the second number of the path has 15 hexadecimal digits, not 13, and the
path has 48 characters, not the 46 of a path with a 13-digit number. -/
theorem init_shm_path_more_than_13_digits :
    init_shm_path GetXattr.no_data 0 1 1700000000 0
      = ShmPath.path "/dev/shm/ulayfs_0000000000000001_2f2f39fc6c54000".toList ∧
    "2f2f39fc6c54000".length = 15 ∧
    "/dev/shm/ulayfs_0000000000000001_2f2f39fc6c54000".length = 48 := by
  decide

/-- C20, as the code has it: when the file has no path attribute (and `fsetxattr`
succeeds), `init_shm_path` writes `/dev/shm/ulayfs_`, the inode as exactly 16
lower-case hexadecimal digits, an underscore, and the number
`(tv_sec * 10^9 + tv_nsec) >> 3` in lower-case hexadecimal digits with at least 13
of them: exactly 13 (and a path of 46 characters) when the number is below
`16^13`, and 14 to 16 digits otherwise. -/
theorem init_shm_path_format (st_ino tv_sec tv_nsec : Nat) (set_rc : Int)
    (hset : set_rc ≠ -1) (hino : st_ino < 18446744073709551616)
    (ht : tv_sec * 1000000000 + tv_nsec < 9223372036854775808) :
    ∃ ino_hex time_hex : List Char,
      init_shm_path GetXattr.no_data set_rc st_ino tv_sec tv_nsec
        = ShmPath.path ("/dev/shm/ulayfs_".toList ++ ino_hex ++ [ '_' ] ++ time_hex) ∧
      ino_hex.length = 16 ∧ hex_value ino_hex = st_ino ∧
      hex_value time_hex = (tv_sec * 1000000000 + tv_nsec) >>> 3 ∧
      (∀ c ∈ ino_hex ++ time_hex, is_lower_hex c = true) ∧
      ((tv_sec * 1000000000 + tv_nsec) >>> 3 < 16 ^ 13 →
        time_hex.length = 13 ∧
        ("/dev/shm/ulayfs_".toList ++ ino_hex ++ [ '_' ] ++ time_hex).length = 46) ∧
      (16 ^ 13 ≤ (tv_sec * 1000000000 + tv_nsec) >>> 3 →
        13 < time_hex.length ∧ time_hex.length ≤ 16) := by
  have hsh : (tv_sec * 1000000000 + tv_nsec) >>> 3 < 18446744073709551616 := by
    rw [Nat.shiftRight_eq_div_pow]
    exact lt_of_le_of_lt (Nat.div_le_self _ _) (by omega)
  have hl16 : (fmt_0lx 16 st_ino).length = 16 :=
    fmt_0lx_length_of_lt 16 st_ino (by decide) (by decide)
      (by rw [Nat.mod_eq_of_lt hino]; exact hino)
  refine ⟨fmt_0lx 16 st_ino, fmt_0lx 13 ((tv_sec * 1000000000 + tv_nsec) >>> 3), ?_, hl16,
    ?_, ?_, ?_, ?_, ?_⟩
  · unfold init_shm_path
    simp only [ht, if_true, hset, if_false]
  · rw [fmt_0lx_value, Nat.mod_eq_of_lt hino]
  · rw [fmt_0lx_value, Nat.mod_eq_of_lt hsh]
  · intro c hc
    rcases List.mem_append.mp hc with hc | hc
    · exact fmt_0lx_lower_hex _ _ c hc
    · exact fmt_0lx_lower_hex _ _ c hc
  · intro h
    have hl13 := fmt_0lx_length_of_lt 13 ((tv_sec * 1000000000 + tv_nsec) >>> 3) (by decide)
      (by decide) (by rw [Nat.mod_eq_of_lt hsh]; exact h)
    refine ⟨hl13, ?_⟩
    rw [List.length_append, List.length_append, List.length_append, hl13, hl16]
    rfl
  · intro h
    exact fmt_0lx_length_of_ge 13 _ (by decide) (by rw [Nat.mod_eq_of_lt hsh]; exact h)

theorem init_shm_path_format_witness :
    ∃ ino_hex time_hex : List Char,
      init_shm_path GetXattr.no_data 0 4660 30000000 123456789
        = ShmPath.path ("/dev/shm/ulayfs_".toList ++ ino_hex ++ [ '_' ] ++ time_hex) ∧
      ino_hex.length = 16 ∧ hex_value ino_hex = 4660 ∧
      hex_value time_hex = (30000000 * 1000000000 + 123456789) >>> 3 ∧
      (∀ c ∈ ino_hex ++ time_hex, is_lower_hex c = true) ∧
      ((30000000 * 1000000000 + 123456789) >>> 3 < 16 ^ 13 →
        time_hex.length = 13 ∧
        ("/dev/shm/ulayfs_".toList ++ ino_hex ++ [ '_' ] ++ time_hex).length = 46) ∧
      (16 ^ 13 ≤ (30000000 * 1000000000 + 123456789) >>> 3 →
        13 < time_hex.length ∧ time_hex.length ≤ 16) :=
  init_shm_path_format 4660 30000000 123456789 0 (by decide) (by decide) (by decide)

/-- The path of the example above, written out. -/
theorem init_shm_path_value :
    init_shm_path GetXattr.no_data 0 4660 30000000 123456789
      = ShmPath.path "/dev/shm/ulayfs_0000000000001234_d529aead3d9a2".toList := by
  decide

/-- C25, counterexample: from the index (7, 1022), two blocks past the start of
block 7, `handle_idx_overflow` moves to the next block 9 and returns true with the
local index 511, which is not below the capacity 511 of block 9. -/
theorem handle_idx_overflow_far_index :
    handle_idx_overflow chain_0_7_9 { block_idx := 7, local_idx := 1022 } (some 7) false
      = some { ret := true, tx_idx := { block_idx := 9, local_idx := 511 },
               tx_block := some 9 } ∧
    ¬ ((511 : Int) < capacity 9) := by
  decide

/-- C25, as the code has it: when `handle_idx_overflow` returns true for an index
whose local index is less than the capacity of its block plus the capacity of the
resulting block (at most one block past the end), the resulting local index is
less than the capacity of the resulting block. -/
theorem handle_idx_overflow_in_range (m : TxMem) (tx_idx : TxEntryIdx)
    (tx_block : Option Nat) (do_alloc : Bool) (r : TxCursor)
    (hr : handle_idx_overflow m tx_idx tx_block do_alloc = some r) (ht : r.ret = true)
    (hone : tx_idx.local_idx < capacity tx_idx.block_idx + capacity r.tx_idx.block_idx) :
    r.tx_idx.local_idx < capacity r.tx_idx.block_idx := by
  unfold handle_idx_overflow at hr
  by_cases hov : tx_idx.local_idx ≥ capacity tx_idx.block_idx
  · rw [if_pos hov] at hr
    cases hn : read_next_tx_block m tx_idx.block_idx tx_block with
    | none => rw [hn] at hr; cases hr
    | some nxt =>
      rw [hn] at hr
      simp only [] at hr
      by_cases h0 : nxt = 0
      · rw [if_pos h0] at hr
        cases do_alloc with
        | false =>
          simp only [Bool.not_false, if_true, Option.some.injEq] at hr
          rw [← hr] at ht; cases ht
        | true =>
          simp only [Bool.not_true, Bool.false_eq_true, if_false, Option.some.injEq] at hr
          rw [← hr] at hone ⊢
          simp only [move_to_block] at hone ⊢
          omega
      · rw [if_neg h0] at hr
        simp only [Option.some.injEq] at hr
        rw [← hr] at hone ⊢
        simp only [move_to_block] at hone ⊢
        omega
  · rw [if_neg hov] at hr
    simp only [Option.some.injEq] at hr
    rw [← hr]
    simp only []
    omega

theorem handle_idx_overflow_in_range_witness :
    handle_idx_overflow chain_0_7_9 { block_idx := 0, local_idx := 240 } none false
      = some { ret := true, tx_idx := { block_idx := 7, local_idx := 0 }, tx_block := some 7 } ∧
    (0 : Int) < capacity 7 :=
  ⟨by decide,
   handle_idx_overflow_in_range chain_0_7_9 { block_idx := 0, local_idx := 240 } none false
    { ret := true, tx_idx := { block_idx := 7, local_idx := 0 }, tx_block := some 7 }
    (by decide) rfl (by decide)⟩

/-- C26: with the code's mapping no bitmap manages the blocks 16384..49151 that
follow the blocks of the inline bitmap: for every bitmap block id whose blocks lie
below `2^32` (ids below 131072) and every local index within the capacity of that
bitmap (16384 for the id 0, 32768 otherwise), `get_block_idx` is not such a block
index. -/
theorem no_bitmap_for_blocks_after_inline (L : Nat) (hL : 16384 ≤ L) (hL2 : L < 49152)
    (id loc : Nat) (hid : id < 131072) (h0 : id = 0 → loc < 16384)
    (h1 : 1 ≤ id → loc < 32768) :
    get_block_idx id loc ≠ L := by
  by_cases hz : id = 0
  · subst hz
    have := h0 rfl
    simp only [get_block_idx, if_true]
    omega
  · rw [get_block_idx_pos id loc hz]
    have := h1 (by omega)
    omega

theorem no_bitmap_for_blocks_after_inline_witness :
    get_block_idx 1 0 ≠ 16384 ∧ get_block_idx 0 16383 ≠ 16384 :=
  ⟨no_bitmap_for_blocks_after_inline 16384 (by decide) (by decide) 1 0 (by decide)
      (by decide) (by decide),
   no_bitmap_for_blocks_after_inline 16384 (by decide) (by decide) 0 16383 (by decide)
      (by decide) (by decide)⟩

/-- C27: for a byte range `[offset, offset + count)` whose covered block range
spans at least two blocks, the inner aligned range lies within the covered range,
begins at most one block after it and ends at most one block before it, and the
bytes of the first partial block, of the inner blocks and of the last partial
block add up to `count`. -/
theorem multi_block_range (count offset : Nat)
    (hspan : (MultiBlockTx.init count offset).begin_vidx + 2
      ≤ (MultiBlockTx.init count offset).end_vidx) :
    (MultiBlockTx.init count offset).begin_vidx ≤ (MultiBlockTx.init count offset).begin_full_vidx ∧
    (MultiBlockTx.init count offset).begin_full_vidx
      ≤ (MultiBlockTx.init count offset).end_full_vidx ∧
    (MultiBlockTx.init count offset).end_full_vidx ≤ (MultiBlockTx.init count offset).end_vidx ∧
    (MultiBlockTx.init count offset).begin_full_vidx
      - (MultiBlockTx.init count offset).begin_vidx ≤ 1 ∧
    (MultiBlockTx.init count offset).end_vidx
      - (MultiBlockTx.init count offset).end_full_vidx ≤ 1 ∧
    (MultiBlockTx.init count offset).first_block_local_offset
      + 4096 * ((MultiBlockTx.init count offset).end_full_vidx
          - (MultiBlockTx.init count offset).begin_full_vidx)
      + (MultiBlockTx.init count offset).last_block_local_offset = count := by
  simp only [MultiBlockTx.init, ALIGN_UP, BLOCK_SIZE] at hspan ⊢
  omega

theorem multi_block_range_witness :
    (MultiBlockTx.init 4096 4097).begin_vidx ≤ (MultiBlockTx.init 4096 4097).begin_full_vidx ∧
    (MultiBlockTx.init 4096 4097).begin_full_vidx
      ≤ (MultiBlockTx.init 4096 4097).end_full_vidx ∧
    (MultiBlockTx.init 4096 4097).end_full_vidx ≤ (MultiBlockTx.init 4096 4097).end_vidx ∧
    (MultiBlockTx.init 4096 4097).begin_full_vidx
      - (MultiBlockTx.init 4096 4097).begin_vidx ≤ 1 ∧
    (MultiBlockTx.init 4096 4097).end_vidx
      - (MultiBlockTx.init 4096 4097).end_full_vidx ≤ 1 ∧
    (MultiBlockTx.init 4096 4097).first_block_local_offset
      + 4096 * ((MultiBlockTx.init 4096 4097).end_full_vidx
          - (MultiBlockTx.init 4096 4097).begin_full_vidx)
      + (MultiBlockTx.init 4096 4097).last_block_local_offset = 4096 :=
  multi_block_range 4096 4097 (by decide)

/-- The examples of the comments in `tx.h`: the offset 4097 leaves 4095 bytes for
the first block, the end offset 4097 leaves 1 byte for the last block. -/
theorem multi_block_range_values :
    (MultiBlockTx.init 4096 4097).first_block_local_offset = 4095 ∧
    (MultiBlockTx.init 4097 0).last_block_local_offset = 1 ∧
    (MultiBlockTx.init 4097 0).end_offset = 4097 := by
  decide

/-- C28: for `0 ≤ begin_idx ≤ NUM_TX_ENTRY_PER_BLOCK` the byte range that
`flush_tx_block(begin_idx)` passes to `persist_unfenced` starts at the offset
`8 * begin_idx` of the block and ends at the offset 4096, the end of the block. -/
theorem flush_tx_block_range (begin_idx : Int) (h0 : 0 ≤ begin_idx)
    (hN : begin_idx ≤ NUM_TX_ENTRY_PER_BLOCK) :
    (flush_tx_block begin_idx).1 = 8 * begin_idx ∧
    (flush_tx_block begin_idx).1 + (flush_tx_block begin_idx).2 = 4096 ∧
    0 < (flush_tx_block begin_idx).2 ∧
    (flush_tx_block begin_idx).1 + (flush_tx_block begin_idx).2 ≤ BLOCK_SIZE := by
  simp only [flush_tx_block, NUM_TX_ENTRY_PER_BLOCK, BLOCK_SIZE] at hN ⊢
  push_cast at hN ⊢
  refine ⟨trivial, ?_, ?_, ?_⟩ <;> omega

theorem flush_tx_block_range_witness :
    (flush_tx_block 511).1 = 8 * 511 ∧
    (flush_tx_block 511).1 + (flush_tx_block 511).2 = 4096 ∧
    0 < (flush_tx_block 511).2 ∧
    (flush_tx_block 511).1 + (flush_tx_block 511).2 ≤ BLOCK_SIZE :=
  flush_tx_block_range 511 (by decide) (by decide)

theorem zero_bits_left_end (w : Nat) : ∀ i, w.testBit i = false →
    ∃ q, q ≤ i ∧ (∀ t, q ≤ t → t ≤ i → w.testBit t = false) ∧
      (q = 0 ∨ w.testBit (q - 1) = true) := by
  intro i
  induction i with
  | zero =>
    intro h
    exact ⟨0, le_refl _, fun t _ ht => by rw [Nat.le_zero.mp ht]; exact h, Or.inl rfl⟩
  | succ i ih =>
    intro h
    cases hb : w.testBit i with
    | true => exact ⟨i + 1, le_refl _, fun t h1 h2 => by
        rw [show t = i + 1 by omega]; exact h, Or.inr hb⟩
    | false =>
      obtain ⟨q, hq, hall, hend⟩ := ih hb
      refine ⟨q, by omega, fun t h1 h2 => ?_, hend⟩
      by_cases ht : t = i + 1
      · rw [ht]; exact h
      · exact hall t h1 (by omega)

theorem zero_bits_right_end (w : Nat) : ∀ d i, i + d = 63 → w.testBit i = false →
    ∃ e, i < e ∧ e ≤ 64 ∧ (∀ t, i ≤ t → t < e → w.testBit t = false) ∧
      (e = 64 ∨ w.testBit e = true) := by
  intro d
  induction d with
  | zero =>
    intro i hi h
    exact ⟨64, by omega, le_refl _, fun t h1 h2 => by
      rw [show t = i by omega]; exact h, Or.inl rfl⟩
  | succ d ih =>
    intro i hi h
    cases hb : w.testBit (i + 1) with
    | true => exact ⟨i + 1, by omega, by omega, fun t h1 h2 => by
        rw [show t = i by omega]; exact h, Or.inr hb⟩
    | false =>
      obtain ⟨e, he, he64, hall, hend⟩ := ih (i + 1) (by omega) hb
      refine ⟨e, by omega, he64, fun t h1 h2 => ?_, hend⟩
      by_cases ht : t = i
      · rw [ht]; exact h
      · exact hall t (by omega) h2

/-- Every zero bit of a word lies in a maximal run of zero bits. -/
theorem exists_zero_run_of_zero_bit (w i : Nat) (hi : i < 64) (hz : w.testBit i = false) :
    ∃ q k, IsZeroRun w q k ∧ q ≤ i ∧ i < q + k := by
  obtain ⟨q, hq, hl, hlend⟩ := zero_bits_left_end w i hz
  obtain ⟨e, he, he64, hr, hrend⟩ := zero_bits_right_end w (63 - i) i (by omega) hz
  refine ⟨q, e - q, ⟨by omega, by omega, fun t h1 h2 => ?_, hlend, ?_⟩, hq, by omega⟩
  · by_cases ht : t ≤ i
    · exact hl t h1 ht
    · exact hr t (by omega) (by omega)
  · rw [show q + (e - q) = e by omega]; exact hrend

/-- Two maximal zero-runs of a word that begin at different bits are apart. -/
theorem zero_runs_apart (w q1 k1 q2 k2 : Nat) (h1 : IsZeroRun w q1 k1)
    (h2 : IsZeroRun w q2 k2) (hlt : q1 < q2) : q1 + k1 ≤ q2 := by
  by_contra hc
  have hz := h1.2.2.1 (q2 - 1) (by omega) (by omega)
  rcases h2.2.2.2.1 with h | h
  · omega
  · rw [hz] at h; cases h

/-- The maximal zero-runs of a word, in the order of the bits, do not overlap. -/
theorem zero_runs_of_word_apart (w : Nat) (hw : w < 18446744073709551616) :
    (zero_runs_of_word w).Pairwise (fun r s => r.1 + r.2 ≤ s.1) := by
  obtain ⟨hmem, hord⟩ := zero_runs_of_word_spec w hw
  refine List.Pairwise.imp_of_mem ?_ hord
  intro r s hr hs hlt
  exact zero_runs_apart w r.1 r.2 s.1 s.2 ((hmem r.1 r.2).mp hr) ((hmem s.1 s.2).mp hs) hlt

theorem add32_add32 (b p n : Nat) : add32 (add32 b p) n = add32 b (p + n) := by
  unfold add32; omega

theorem split_run_apart (pre post : List (Nat × Nat)) (p L n : Nat) (hn : n ≤ L)
    (hP : (pre ++ (p, L) :: post).Pairwise (fun r s => r.1 + r.2 ≤ s.1)) :
    (pre ++ [(p, n)] ++ (run_remainder p L n ++ post)).Pairwise
      (fun r s => r.1 + r.2 ≤ s.1) := by
  rw [List.pairwise_append, List.pairwise_cons] at hP
  obtain ⟨hpre, ⟨hLpost, hpost⟩, hcross⟩ := hP
  have hrem : ∀ r ∈ run_remainder p L n, r = (p + n, L - n) ∧ n < L := by
    intro r hr
    unfold run_remainder at hr
    split at hr
    · exact ⟨List.mem_singleton.mp hr, by assumption⟩
    · cases hr
  rw [List.pairwise_append, List.pairwise_append, List.pairwise_append]
  refine ⟨⟨hpre, List.pairwise_singleton _ _, ?_⟩, ⟨?_, hpost, ?_⟩, ?_⟩
  · intro a ha c hc
    rw [List.mem_singleton.mp hc]
    exact hcross a ha (p, L) (List.mem_cons_self _ _)
  · unfold run_remainder; split
    · exact List.pairwise_singleton _ _
    · exact List.Pairwise.nil
  · intro a ha c hc
    obtain ⟨e, hlt⟩ := hrem a ha
    have := hLpost c hc
    rw [e]; show p + n + (L - n) ≤ c.1
    simp only at this; omega
  · intro a ha c hc
    rcases List.mem_append.mp ha with ha | ha
    · rcases List.mem_append.mp hc with hc | hc
      · obtain ⟨e, hlt⟩ := hrem c hc
        have := hcross a ha (p, L) (List.mem_cons_self _ _)
        rw [e]; show a.1 + a.2 ≤ p + n
        simp only at this; omega
      · exact hcross a ha c (List.mem_cons_of_mem _ hc)
    · rw [List.mem_singleton.mp ha]
      rcases List.mem_append.mp hc with hc | hc
      · obtain ⟨e, hlt⟩ := hrem c hc
        rw [e]
      · have := hLpost c hc
        show p + n ≤ c.1
        simp only at this; omega

theorem split_run_cover (pre post : List (Nat × Nat)) (p L n : Nat) (h1 : 1 ≤ n)
    (hn : n ≤ L) (i : Nat) :
    (∃ r ∈ pre ++ [(p, n)] ++ (run_remainder p L n ++ post), r.1 ≤ i ∧ i < r.1 + r.2) ↔
    (∃ r ∈ pre ++ (p, L) :: post, r.1 ≤ i ∧ i < r.1 + r.2) := by
  constructor
  · rintro ⟨r, hr, h⟩
    rcases List.mem_append.mp hr with hr | hr
    · rcases List.mem_append.mp hr with hr | hr
      · exact ⟨r, List.mem_append_left _ hr, h⟩
      · rw [List.mem_singleton.mp hr] at h
        exact ⟨(p, L), List.mem_append_right _ (List.mem_cons_self _ _),
          h.1, by simp only at h ⊢; omega⟩
    · rcases List.mem_append.mp hr with hr | hr
      · unfold run_remainder at hr
        split at hr
        · rw [List.mem_singleton.mp hr] at h
          exact ⟨(p, L), List.mem_append_right _ (List.mem_cons_self _ _),
            by simp only at h ⊢; omega, by simp only at h ⊢; omega⟩
        · cases hr
      · exact ⟨r, List.mem_append_right _ (List.mem_cons_of_mem _ hr), h⟩
  · rintro ⟨r, hr, h⟩
    rcases List.mem_append.mp hr with hr | hr
    · exact ⟨r, List.mem_append_left _ (List.mem_append_left _ hr), h⟩
    · rcases List.mem_cons.mp hr with hr | hr
      · rw [hr] at h
        simp only at h
        by_cases hin : i < p + n
        · exact ⟨(p, n), List.mem_append_left _ (List.mem_append_right _
            (List.mem_singleton.mpr rfl)), h.1, hin⟩
        · refine ⟨(p + n, L - n), List.mem_append_right _ (List.mem_append_left _ ?_),
            by simp only; omega, by simp only; omega⟩
          unfold run_remainder
          rw [if_pos (by omega)]
          exact List.mem_singleton.mpr rfl
      · exact ⟨r, List.mem_append_right _ (List.mem_append_right _ hr), h⟩

theorem split_run_bounds (pre post : List (Nat × Nat)) (p L n : Nat) (h1 : 1 ≤ n)
    (hn : n ≤ L)
    (hZ : ∀ r ∈ pre ++ (p, L) :: post, 1 ≤ r.2 ∧ r.1 + r.2 ≤ 64) :
    ∀ r ∈ pre ++ [(p, n)] ++ (run_remainder p L n ++ post), 1 ≤ r.2 ∧ r.1 + r.2 ≤ 64 := by
  have hpL := hZ (p, L) (List.mem_append_right _ (List.mem_cons_self _ _))
  simp only at hpL
  intro r hr
  rcases List.mem_append.mp hr with hr | hr
  · rcases List.mem_append.mp hr with hr | hr
    · exact hZ r (List.mem_append_left _ hr)
    · rw [List.mem_singleton.mp hr]
      exact ⟨h1, by simp only; omega⟩
  · rcases List.mem_append.mp hr with hr | hr
    · unfold run_remainder at hr
      split at hr
      · rw [List.mem_singleton.mp hr]
        exact ⟨by simp only; omega, by simp only; omega⟩
      · cases hr
    · exact hZ r (List.mem_append_right _ (List.mem_cons_of_mem _ hr))

theorem zero_runs_cover (w : Nat) (hw : w < 18446744073709551616) (i : Nat) (hi : i < 64) :
    w.testBit i = false ↔ ∃ r ∈ zero_runs_of_word w, r.1 ≤ i ∧ i < r.1 + r.2 := by
  obtain ⟨hmem, _⟩ := zero_runs_of_word_spec w hw
  constructor
  · intro hz
    obtain ⟨q, k, hrun, h1, h2⟩ := exists_zero_run_of_zero_bit w i hi hz
    exact ⟨(q, k), (hmem q k).mpr hrun, h1, h2⟩
  · rintro ⟨r, hr, h1, h2⟩
    exact ((hmem r.1 r.2).mp hr).2.2.1 i h1 h2

theorem zero_runs_bounds (w : Nat) (hw : w < 18446744073709551616) :
    ∀ r ∈ zero_runs_of_word w, 1 ≤ r.2 ∧ r.1 + r.2 ≤ 64 := by
  obtain ⟨hmem, _⟩ := zero_runs_of_word_spec w hw
  intro r hr
  have := (hmem r.1 r.2).mp hr
  exact ⟨this.1, this.2.1⟩

theorem filterMap_run_remainder (b p L n i : Nat) :
    (run_remainder p L n).filterMap (whole_run_entry b i) =
      if n < L ∧ L - n - 1 = i then [add32 (add32 b p) n] else [] := by
  unfold run_remainder
  by_cases h : n < L
  · rw [if_pos h]
    by_cases hi : L - n - 1 = i
    · rw [if_pos ⟨h, hi⟩]
      simp [whole_run_entry, hi, add32_add32]
    · rw [if_neg (fun hh => hi hh.2)]
      simp [whole_run_entry, hi]
  · rw [if_neg h, if_neg (fun hh => h hh.1)]
    rfl

/-- C29: one pass of the bitmap step of `alloc(n)` over a captured word `w` with
base index `b`. The runs of bit positions `before ++ taken ++ after` (a run
`(q, k)` stands for the blocks `b + q, ..., b + q + k - 1`) are listed in the
order of the bits: `taken` is the returned run of `n` blocks (empty when no run
was found), `before ++ after` are the runs pushed during the pass, each run
`(q, k)` as the entry `b + q` on `free_lists[k-1]`. The runs do not overlap and
together they hold exactly the bits of `w` that are 0. -/
theorem scan_word_conserves_blocks (n b w : Nat) (h1 : 1 ≤ n)
    (hw : w < 18446744073709551616) (fl : Nat → List Nat) :
    ∃ (before taken after : List (Nat × Nat)) (is_found : Bool) (blk : Nat)
      (fl1 : Nat → List Nat),
      scan_word n b 64 w 64 false 0 fl = some (is_found, blk, fl1) ∧
      (is_found = true → ∃ p, taken = [(p, n)] ∧ blk = add32 b p) ∧
      (is_found = false → taken = []) ∧
      (∀ i, fl1 i = fl i ++ (before ++ after).filterMap (whole_run_entry b i)) ∧
      (∀ r ∈ before ++ taken ++ after, 1 ≤ r.2 ∧ r.1 + r.2 ≤ 64) ∧
      (before ++ taken ++ after).Pairwise (fun r s => r.1 + r.2 ≤ s.1) ∧
      (∀ i, i < 64 →
        (w.testBit i = false ↔ ∃ r ∈ before ++ taken ++ after, r.1 ≤ i ∧ i < r.1 + r.2)) ∧
      (b + 64 ≤ 4294967296 → ∀ q, q < 64 → add32 b q = b + q) := by
  have hadd : b + 64 ≤ 4294967296 → ∀ q, q < 64 → add32 b q = b + q :=
    fun hb q hq => add32_of_lt (by omega)
  by_cases hrun : ∃ q k, IsZeroRun w q k ∧ n ≤ k
  · obtain ⟨pre, r0, post, hraw, _, hn, hscan⟩ := scan_word_found n b w h1 hw hrun fl
    have hZ : zero_runs_of_word w =
        pre.map run_of_raw ++ (64 - r0.1, r0.2) :: post.map run_of_raw := by
      unfold zero_runs_of_word
      rw [hraw, List.map_append, List.map_cons]
      rfl
    have hapart := zero_runs_of_word_apart w hw
    have hbounds := zero_runs_bounds w hw
    rw [hZ] at hapart hbounds
    refine ⟨pre.map run_of_raw, [(64 - r0.1, n)],
      run_remainder (64 - r0.1) r0.2 n ++ post.map run_of_raw, true, _, _, hscan,
      fun _ => ⟨64 - r0.1, rfl, rfl⟩, (fun h => by cases h), ?_,
      split_run_bounds _ _ _ _ _ h1 hn hbounds, split_run_apart _ _ _ _ _ hn hapart, ?_, hadd⟩
    · intro i
      rw [List.filterMap_append, List.filterMap_append, filterMap_run_remainder]
      simp only [List.append_assoc]
    · intro i hi
      rw [split_run_cover _ _ _ _ _ h1 hn i, ← hZ]
      exact zero_runs_cover w hw i hi
  · have hshort : ∀ r ∈ zero_runs_of_word w, r.2 < n := by
      intro r hr
      by_contra hc
      exact hrun ⟨r.1, r.2, ((zero_runs_of_word_spec w hw).1 r.1 r.2).mp hr, by omega⟩
    refine ⟨zero_runs_of_word w, [], [], false, 0, _, scan_word_not_found n b w hw hshort fl,
      (fun h => by cases h), fun _ => rfl, ?_, ?_, ?_, ?_, hadd⟩
    · intro i; rw [List.append_nil]
    · rw [List.append_nil, List.append_nil]; exact zero_runs_bounds w hw
    · rw [List.append_nil, List.append_nil]; exact zero_runs_of_word_apart w hw
    · intro i hi
      rw [List.append_nil, List.append_nil]
      exact zero_runs_cover w hw i hi

theorem scan_word_conserves_blocks_witness :
    ∃ (before taken after : List (Nat × Nat)) (is_found : Bool) (blk : Nat)
      (fl1 : Nat → List Nat),
      scan_word 2 128 64 909 64 false 0 (fun _ => []) = some (is_found, blk, fl1) ∧
      (is_found = true → ∃ p, taken = [(p, 2)] ∧ blk = add32 128 p) ∧
      (is_found = false → taken = []) ∧
      (∀ i, fl1 i = (fun _ => []) i ++ (before ++ after).filterMap (whole_run_entry 128 i)) ∧
      (∀ r ∈ before ++ taken ++ after, 1 ≤ r.2 ∧ r.1 + r.2 ≤ 64) ∧
      (before ++ taken ++ after).Pairwise (fun r s => r.1 + r.2 ≤ s.1) ∧
      (∀ i, i < 64 →
        ((909 : Nat).testBit i = false ↔
          ∃ r ∈ before ++ taken ++ after, r.1 ≤ i ∧ i < r.1 + r.2)) ∧
      (128 + 64 ≤ 4294967296 → ∀ q, q < 64 → add32 128 q = 128 + q) :=
  scan_word_conserves_blocks 2 128 909 (by decide) (by decide) (fun _ => [])

/-- C30: for `1 ≤ n ≤ 64`, every allocator state and every captured word, no call
of `alloc(n)`, no run of its loop over the longer free lists and no pass over a
captured word ends in a subscript of `free_lists` outside `0..63` (the outcome
`Outcome.fault`, `none` for the pass); the subscripts are `n-1`, `m-1` and
`m-n-1` for a longer run of `m` blocks, `k-1` and `k-n-1` for a zero-run of `k`
bits, in the 32-bit arithmetic of the code. -/
theorem alloc_subscripts_in_range (n : Nat) (a : Allocator) (h1 : 1 ≤ n) (h64 : n ≤ 64) :
    alloc n a ≠ Outcome.fault ∧
    (∀ todo m, n < m → alloc_longer n a todo m ≠ some Outcome.fault) ∧
    (∀ b w fl, ∃ r, scan_word n b 64 (w % 18446744073709551616) 64 false 0 fl = some r) ∧
    sub32 n 1 < 64 ∧
    (∀ m, n < m → m ≤ 64 → sub32 m 1 < 64 ∧ sub32 (sub32 m n) 1 < 64) ∧
    (∀ k, 1 ≤ k → k ≤ 64 → sub32 k 1 < 64 ∧ (n < k → sub32 (sub32 k n) 1 < 64)) := by
  refine ⟨?_, ?_, ?_, ?_, ?_, ?_⟩
  · intro h
    have := alloc_sat n a h1 h64
    rw [h] at this
    exact this
  · intro todo m hm h
    rcases alloc_longer_sat n a h1 todo m hm with h2 | ⟨v, h2⟩
    · rw [h2] at h; cases h
    · rw [h2] at h; cases h
  · intro b w fl
    exact scan_word_some n b _ h1 (Nat.mod_lt _ (by decide)) fl
  · rw [sub32_of_le h1 (by omega)]; omega
  · intro m h2 h3
    have e1 : sub32 m 1 = m - 1 := sub32_of_le (by omega) (by omega)
    have e2 : sub32 m n = m - n := sub32_of_le (by omega) (by omega)
    have e3 : sub32 (m - n) 1 = m - n - 1 := sub32_of_le (by omega) (by omega)
    rw [e1, e2, e3]
    omega
  · intro k h2 h3
    have e1 : sub32 k 1 = k - 1 := sub32_of_le (by omega) (by omega)
    refine ⟨by rw [e1]; omega, fun h4 => ?_⟩
    have e2 : sub32 k n = k - n := sub32_of_le (by omega) (by omega)
    have e3 : sub32 (k - n) 1 = k - n - 1 := sub32_of_le (by omega) (by omega)
    rw [e2, e3]
    omega

theorem alloc_subscripts_in_range_witness :
    alloc 2 two_runs_of_two ≠ Outcome.fault ∧
    (∀ todo m, 2 < m → alloc_longer 2 two_runs_of_two todo m ≠ some Outcome.fault) ∧
    (∀ b w fl, ∃ r, scan_word 2 b 64 (w % 18446744073709551616) 64 false 0 fl = some r) ∧
    sub32 2 1 < 64 ∧
    (∀ m, 2 < m → m ≤ 64 → sub32 m 1 < 64 ∧ sub32 (sub32 m 2) 1 < 64) ∧
    (∀ k, 1 ≤ k → k ≤ 64 → sub32 k 1 < 64 ∧ (2 < k → sub32 (sub32 k 2) 1 < 64)) :=
  alloc_subscripts_in_range 2 two_runs_of_two (by decide) (by decide)

/-- C21: when the OS `open` fails, the intercepted `open` returns the negative
descriptor and still enters a `File` for it in the table `files`. -/
theorem open_registers_failed_open (files : Int → Option File) (os : OpenAnswers)
    (flags : Nat) (hfail : os.open_fd < 0) :
    ∃ file files1,
      ulayfs.open files os flags = OpenResult.returned (os.open_fd, files1) ∧
      files1 os.open_fd = some file ∧ file.is_mapped = false ∧
      ∀ fd, fd ≠ os.open_fd → files1 fd = files fd := by
  refine ⟨{ File.fresh with fd := os.open_fd }, _, ?_, Function.update_same _ _ _, rfl,
    fun fd h => Function.update_noteq h _ _⟩
  unfold ulayfs.open File.open
  rw [if_pos hfail]

theorem open_registers_failed_open_witness :
    ∃ file files1,
      ulayfs.open (fun _ => none) open_fails 0 = OpenResult.returned (-1, files1) ∧
      files1 (-1) = some file ∧ file.is_mapped = false ∧
      ∀ fd, fd ≠ -1 → files1 fd = none :=
  open_registers_failed_open (fun _ => none) open_fails 0 (by decide)

/-- C22, counterexample: with `O_CREAT` among the flags, a successful OS `open`
and a failing `fstat`, the intercepted `open` is left by the exception of
`File::open`. -/
theorem open_throws_when_fstat_fails :
    ulayfs.open (fun _ => none) fstat_fails 66 = OpenResult.threw "Fail to fstat!" := by
  rfl

/-- C22, as the code has it: the intercepted `open` returns the descriptor when
the OS `open` fails, and when it succeeds and `fstat` and `ftruncate`, as far as
they are called, succeed (and the mapping of the file returns); when `fstat`
fails, or `ftruncate` fails on an empty file, the exception thrown by `File::open`
leaves `open`. -/
theorem open_returns_or_throws (files : Int → Option File) (os : OpenAnswers)
    (flags : Nat) :
    (os.open_fd < 0 → ∃ files1,
      ulayfs.open files os flags = OpenResult.returned (os.open_fd, files1)) ∧
    (0 ≤ os.open_fd → os.init_returns = true →
      (flags &&& O_CREAT = 0 ∨
        (os.fstat_ret = 0 ∧ (os.st_size ≠ 0 ∨ os.ftruncate_ret = 0))) →
      ∃ files1, ulayfs.open files os flags = OpenResult.returned (os.open_fd, files1)) ∧
    (0 ≤ os.open_fd → flags &&& O_CREAT ≠ 0 → os.fstat_ret ≠ 0 →
      ulayfs.open files os flags = OpenResult.threw "Fail to fstat!") ∧
    (0 ≤ os.open_fd → flags &&& O_CREAT ≠ 0 → os.fstat_ret = 0 → os.st_size = 0 →
      os.ftruncate_ret ≠ 0 →
      ulayfs.open files os flags = OpenResult.threw "Fail to ftruncate!") := by
  refine ⟨?_, ?_, ?_, ?_⟩
  · intro h
    exact ⟨_, by unfold ulayfs.open File.open; rw [if_pos h]⟩
  · intro h hinit hok
    have hfd : ¬ os.open_fd < 0 := by omega
    refine ⟨Function.update files os.open_fd (some
      { File.fresh with fd := os.open_fd, open_flags := flags, is_mapped := true,
                        image := os.mapped }), ?_⟩
    unfold ulayfs.open File.open
    rw [if_neg hfd]
    rcases hok with hc | ⟨hs, hrest⟩
    · rw [if_neg (not_not.mpr hc)]
      unfold File.open_mapping; rw [if_pos hinit]
    · by_cases hc : flags &&& O_CREAT ≠ 0
      · rw [if_pos hc, if_neg (not_not.mpr hs)]
        by_cases hz : os.st_size = 0
        · rw [if_pos hz, if_neg (not_not.mpr (hrest.resolve_left (not_not.mpr hz)))]
          unfold File.open_mapping; rw [if_pos hinit]
        · rw [if_neg hz]
          unfold File.open_mapping; rw [if_pos hinit]
      · rw [if_neg hc]
        unfold File.open_mapping; rw [if_pos hinit]
  · intro h hc hs
    have hfd : ¬ os.open_fd < 0 := by omega
    unfold ulayfs.open File.open
    rw [if_neg hfd, if_pos hc, if_pos hs]
  · intro h hc hs hz ht
    have hfd : ¬ os.open_fd < 0 := by omega
    unfold ulayfs.open File.open
    rw [if_neg hfd, if_pos hc, if_neg (not_not.mpr hs), if_pos hz, if_pos ht]

theorem open_returns_or_throws_witness :
    (∃ files1, ulayfs.open (fun _ => none) creates_file 66
      = OpenResult.returned (3, files1)) ∧
    ulayfs.open (fun _ => none) fstat_fails 66 = OpenResult.threw "Fail to fstat!" :=
  ⟨(open_returns_or_throws (fun _ => none) creates_file 66).2.1 (by decide) rfl
      (Or.inr ⟨rfl, Or.inr rfl⟩),
   (open_returns_or_throws (fun _ => none) fstat_fails 66).2.2.1 (by decide) (by decide)
      (by decide)⟩

/-- C31, counterexample: in the image `2^32 - 1, 0, 1, ..., 63` every maximal run of
non-zero, numerically consecutive block indices has at most 63 entries, but the
32-bit sum `group_begin_lidx + (curr - group_begin)` wraps around to the value of
the hole and of the entries after it, the loop keeps one group of 65 entries and
the call ends in the subscript `free_lists[64]`. -/
theorem free_image_wrapping_faults :
    (∀ s len, IsImageRun image_wrapping s len → len ≤ 64) ∧
    free_image image_wrapping Allocator.empty = Outcome.fault := by
  constructor
  · intro s len h
    by_contra hc
    have h1 := h.2.1
    have h2 : image_wrapping.length = 65 := by decide
    rw [h2] at h1
    have hs : s = 0 := by omega
    subst hs
    exact h.2.2.1 1 (by omega) (by omega) (by decide)
  · rfl

/-- C31, as the code has it: for an image of fewer than `2^32` entries, none of
them `2^32 - 1`, in which every maximal run of non-zero, numerically consecutive
block indices has length at most 64, `free(image, k)` returns: every group that
it pushes has between 1 and 64 entries, so every subscript of `free_lists` lies
in `0..63`. For `k = 0` nothing changes. -/
theorem free_image_subscripts_in_range (image : List Nat) (a : Allocator)
    (hlen : image.length < 4294967296) (hmax : ∀ x ∈ image, x < 4294967295)
    (hshort : ∀ s len, IsImageRun image s len → len ≤ 64) :
    (∃ a1, free_image image a = Outcome.ok a1) ∧
    (∀ g ∈ image_groups image image.length 0 0 0, sub32 (sub32 g.2.1 g.1) 1 < 64) ∧
    (image = [] → free_image image a = Outcome.ok a) := by
  have hmaxD := getD_lt_of_forall 4294967295 (by decide) image hmax
  have hinv : GroupInv image 0 0 0 := ⟨fun _ => Or.inl rfl, fun h => absurd rfl h⟩
  obtain ⟨hA, _, _⟩ := image_groups_spec image hlen hmaxD image.length 0 0 0 (by omega) hinv
  have hgs : ∀ g ∈ image_groups image image.length 0 0 0,
      g.1 < g.2.1 ∧ g.2.1 - g.1 ≤ 64 ∧ g.2.1 < 4294967296 := by
    intro g hg
    obtain ⟨x1, x2, _, _⟩ := hA g hg
    have := hshort _ _ x1
    have := x1.2.1
    exact ⟨x2, by omega, by omega⟩
  refine ⟨?_, ?_, ?_⟩
  · rw [free_image_eq, push_groups_ok _ _ hgs]
    exact ⟨_, rfl⟩
  · intro g hg
    obtain ⟨x1, x2, x3⟩ := hgs g hg
    have e1 : sub32 g.2.1 g.1 = g.2.1 - g.1 := sub32_of_le (by omega) x3
    have e2 : sub32 (g.2.1 - g.1) 1 = g.2.1 - g.1 - 1 := sub32_of_le (by omega) (by omega)
    rw [e1, e2]
    omega
  · intro h
    subst h
    rfl

theorem free_image_subscripts_in_range_witness :
    (∃ a1, free_image [5, 7, 8, 9, 0, 0, 3, 4, 4] two_runs_of_two = Outcome.ok a1) ∧
    (∀ g ∈ image_groups [5, 7, 8, 9, 0, 0, 3, 4, 4] [5, 7, 8, 9, 0, 0, 3, 4, 4].length 0 0 0,
      sub32 (sub32 g.2.1 g.1) 1 < 64) ∧
    (([5, 7, 8, 9, 0, 0, 3, 4, 4] : List Nat) = [] →
      free_image [5, 7, 8, 9, 0, 0, 3, 4, 4] two_runs_of_two = Outcome.ok two_runs_of_two) :=
  free_image_subscripts_in_range [5, 7, 8, 9, 0, 0, 3, 4, 4] two_runs_of_two (by decide)
    (by decide) (fun s len h => by have := h.2.1; simp at this; omega)

theorem push_back_no_zero {fl fl1 : Nat → List Nat} {j x : Nat}
    (hfl : ∀ i, 0 ∉ fl i) (hx : x ≠ 0) (h : push_back fl j x = some fl1) :
    ∀ i, 0 ∉ fl1 i := by
  unfold push_back at h
  split at h
  · simp only [Option.some.injEq] at h
    subst h
    intro i
    by_cases hi : i = j
    · subst hi
      rw [Function.update_same, List.mem_append, List.mem_singleton]
      rintro (h1 | h1)
      · exact hfl i h1
      · exact hx h1.symm
    · rw [Function.update_noteq hi]
      exact hfl i
  · cases h

theorem free_image_loop_no_zero (image : List Nat) :
    ∀ (todo curr gb gbl : Nat) (fl : Nat → List Nat) (r : Nat × Nat × (Nat → List Nat)),
      (∀ i, 0 ∉ fl i) → free_image_loop image todo curr gb gbl fl = some r →
      ∀ i, 0 ∉ r.2.2 i := by
  intro todo
  induction todo with
  | zero =>
    intro curr gb gbl fl r hfl h
    rw [free_image_loop] at h
    simp only [Option.some.injEq] at h
    subst h
    exact hfl
  | succ todo ih =>
    intro curr gb gbl fl r hfl h
    rw [free_image_loop] at h
    by_cases hg : gbl = 0
    · rw [if_pos hg] at h
      split at h
      · exact ih _ _ _ _ _ hfl h
      · exact ih _ _ _ _ _ hfl h
    · rw [if_neg hg] at h
      split at h
      · exact ih _ _ _ _ _ hfl h
      · cases hp : push_back fl (sub32 (sub32 curr gb) 1) gbl with
        | none => rw [hp] at h; cases h
        | some fl1 =>
          rw [hp] at h
          exact ih _ _ _ _ _ (push_back_no_zero hfl hg hp) h

/-- C32: freeing never puts the block index 0 on a free list. When no free list
holds 0, none holds 0 after a call of `free(lbi, n)` or of `free(image, k)` that
returns, whatever the arguments; `free(0, n)` returns the allocator as it was, and
`free(lbi, n)` returns for every `1 ≤ n ≤ 64`. -/
theorem free_never_adds_block_zero (a : Allocator) (h0 : ∀ i, 0 ∉ a.free_lists i) :
    (∀ lbi n a1, free lbi n a = Outcome.ok a1 → ∀ i, 0 ∉ a1.free_lists i) ∧
    (∀ image a1, free_image image a = Outcome.ok a1 → ∀ i, 0 ∉ a1.free_lists i) ∧
    (∀ n, free 0 n a = Outcome.ok a) ∧
    (∀ lbi n, 1 ≤ n → n ≤ 64 → ∃ a1, free lbi n a = Outcome.ok a1) := by
  refine ⟨?_, ?_, ?_, ?_⟩
  · intro lbi n a1 h
    unfold free at h
    by_cases hz : lbi = 0
    · rw [if_pos hz] at h
      cases h
      exact h0
    · rw [if_neg hz] at h
      cases hp : push_back a.free_lists (sub32 n 1) lbi with
      | none => rw [hp] at h; cases h
      | some fl1 =>
        rw [hp] at h
        cases h
        exact push_back_no_zero h0 hz hp
  · intro image a1 h
    unfold free_image at h
    by_cases hl : image.length = 0
    · rw [if_pos hl] at h
      cases h
      exact h0
    · rw [if_neg hl] at h
      cases hloop : free_image_loop image image.length 0 0 0 a.free_lists with
      | none => rw [hloop] at h; cases h
      | some r =>
        obtain ⟨gb, gbl, fl⟩ := r
        have hfl := free_image_loop_no_zero image _ _ _ _ _ _ h0 hloop
        rw [hloop] at h
        simp only [] at h
        by_cases hg : gbl ≠ 0
        · rw [if_pos hg] at h
          cases hp : push_back fl (sub32 (sub32 image.length gb) 1) gbl with
          | none => rw [hp] at h; cases h
          | some fl1 =>
            rw [hp] at h
            cases h
            exact push_back_no_zero hfl hg hp
        · rw [if_neg hg] at h
          cases h
          exact hfl
  · intro n
    unfold free
    rw [if_pos rfl]
  · intro lbi n h1 h64
    unfold free
    by_cases hz : lbi = 0
    · rw [if_pos hz]; exact ⟨_, rfl⟩
    · rw [if_neg hz, sub32_of_le h1 (by omega), push_back_of_lt _ (by omega)]
      exact ⟨_, rfl⟩

theorem free_never_adds_block_zero_witness :
    (∀ lbi n a1, free lbi n two_runs_of_two = Outcome.ok a1 → ∀ i, 0 ∉ a1.free_lists i) ∧
    (∀ image a1, free_image image two_runs_of_two = Outcome.ok a1 →
      ∀ i, 0 ∉ a1.free_lists i) ∧
    (∀ n, free 0 n two_runs_of_two = Outcome.ok two_runs_of_two) ∧
    (∀ lbi n, 1 ≤ n → n ≤ 64 → ∃ a1, free lbi n two_runs_of_two = Outcome.ok a1) :=
  free_never_adds_block_zero two_runs_of_two (by
    intro i
    unfold two_runs_of_two
    simp only
    split
    · decide
    · split <;> decide)

theorem log_entry_loop_progress (fixed_size : Nat) (hfix : fixed_size + 4 ≤ 4096) :
    ∀ (fuel nb needed : Nat) (a : Allocator), needed < fuel → needed < 4294967296 →
      a.curr_log_offset + fixed_size + 4 ≤ 4096 →
      (log_entry_loop fixed_size fuel nb needed a).sat
        (fun r => LoopProgress fixed_size needed r.1) := by
  intro fuel
  induction fuel with
  | zero => intro nb needed a h; omega
  | succ fuel ih =>
    intro nb needed a hfuel hneed hoff
    rw [log_entry_loop]
    simp only []
    have hsub : sub32 BLOCK_SIZE (a.curr_log_offset + fixed_size) =
        BLOCK_SIZE - (a.curr_log_offset + fixed_size) :=
      sub32_of_le (by unfold BLOCK_SIZE; omega) (by unfold BLOCK_SIZE; omega)
    rw [hsub]
    generalize hav : (BLOCK_SIZE - (a.curr_log_offset + fixed_size)) / LIDX_SIZE = av
    simp only [BLOCK_SIZE, LIDX_SIZE] at hav
    have hav1 : 1 ≤ av := by omega
    have hav2 : a.curr_log_offset + fixed_size + av * 4 ≤ 4096 := by omega
    rw [if_pos (show av > 0 by omega)]
    by_cases hle : needed ≤ av
    · rw [if_pos hle]
      show LoopProgress fixed_size needed _
      refine ⟨by simp, by simp, ?_⟩
      intro f hf
      rw [List.mem_singleton] at hf
      subst hf
      refine ⟨?_, (fun h => by cases h), fun h => h⟩
      show a.curr_log_offset + fixed_size + LIDX_SIZE ≤ BLOCK_SIZE
      unfold LIDX_SIZE BLOCK_SIZE; omega
    · rw [if_neg hle]
      have hoff2 : a.curr_log_offset + fixed_size + av * LIDX_SIZE ≤ BLOCK_SIZE := by
        unfold LIDX_SIZE BLOCK_SIZE; omega
      have hsub2 : sub32 BLOCK_SIZE (a.curr_log_offset + fixed_size + av * LIDX_SIZE) <
          fixed_size + LIDX_SIZE := by
        rw [sub32_of_le hoff2 (by unfold BLOCK_SIZE; omega)]
        unfold LIDX_SIZE BLOCK_SIZE; omega
      have hnd2 : sub32 needed av = needed - av := sub32_of_le (by omega) (by omega)
      rw [if_pos hoff2, if_pos hsub2, hnd2]
      apply sat_bind _ _ (fun _ => True) _ (alloc_sat 1 _ (by omega) (by omega))
      intro v _
      apply sat_bind _ _ (fun r => LoopProgress fixed_size (needed - av) r.1) _
        (ih _ (needed - av) _ (by omega) (by omega)
          (by show 0 + fixed_size + 4 ≤ 4096; omega))
      intro rest hrest
      obtain ⟨p1, p2, p3⟩ := hrest
      show LoopProgress fixed_size needed (_ :: rest.1)
      refine ⟨?_, ?_, ?_⟩
      · simp only [List.map_cons, List.sum_cons, p1]; omega
      · simp only [List.length_cons]; omega
      · intro f hf
        rcases List.mem_cons.1 hf with h | h
        · subst h
          refine ⟨?_, fun _ => hav1, fun _ => hav1⟩
          show a.curr_log_offset + fixed_size + LIDX_SIZE ≤ BLOCK_SIZE
          unfold LIDX_SIZE BLOCK_SIZE; omega
        · obtain ⟨q1, q2, q3⟩ := p3 f h
          exact ⟨q1, q2, fun _ => q3 (by omega)⟩

theorem log_entry_loop_fresh (fixed_size : Nat) (hfix : fixed_size + 4 ≤ 4096)
    (hfix4 : fixed_size % 4 = 0) :
    ∀ (fuel nb needed : Nat) (a : Allocator), needed < fuel → needed < 4294967296 →
      a.curr_log_offset + fixed_size + 4 ≤ 4096 → a.curr_log_offset % 4 = 0 →
      (log_entry_loop fixed_size fuel nb needed a).sat
        (fun r => ContinuesInFreshBlock fixed_size r.1 ∧
          ∃ f rest, r.1 = f :: rest ∧ f.block_idx = a.curr_log_block_idx ∧
            f.local_offset = a.curr_log_offset) := by
  intro fuel
  induction fuel with
  | zero => intro nb needed a h; omega
  | succ fuel ih =>
    intro nb needed a hfuel hneed hoff hal
    rw [log_entry_loop]
    simp only []
    have hsub : sub32 BLOCK_SIZE (a.curr_log_offset + fixed_size) =
        BLOCK_SIZE - (a.curr_log_offset + fixed_size) :=
      sub32_of_le (by unfold BLOCK_SIZE; omega) (by unfold BLOCK_SIZE; omega)
    rw [hsub]
    generalize hav : (BLOCK_SIZE - (a.curr_log_offset + fixed_size)) / LIDX_SIZE = av
    simp only [BLOCK_SIZE, LIDX_SIZE] at hav
    have hav1 : 1 ≤ av := by omega
    have hav2 : a.curr_log_offset + fixed_size + av * 4 = 4096 := by omega
    rw [if_pos (show av > 0 by omega)]
    by_cases hle : needed ≤ av
    · rw [if_pos hle]
      exact ⟨⟨(fun h => by cases h), trivial⟩, _, _, rfl, rfl, rfl⟩
    · rw [if_neg hle]
      have hoff2 : a.curr_log_offset + fixed_size + av * LIDX_SIZE ≤ BLOCK_SIZE := by
        unfold LIDX_SIZE BLOCK_SIZE; omega
      have hsub2 : sub32 BLOCK_SIZE (a.curr_log_offset + fixed_size + av * LIDX_SIZE) <
          fixed_size + LIDX_SIZE := by
        rw [sub32_of_le hoff2 (by unfold BLOCK_SIZE; omega)]
        unfold LIDX_SIZE BLOCK_SIZE; omega
      have hnd2 : sub32 needed av = needed - av := sub32_of_le (by omega) (by omega)
      rw [if_pos hoff2, if_pos hsub2, hnd2]
      apply sat_bind _ _ (fun _ => True) _ (alloc_sat 1 _ (by omega) (by omega))
      intro v _
      apply sat_bind _ _ _ _
        (ih _ (needed - av) { v.2 with curr_log_block_idx := v.1, curr_log_offset := 0 }
          (by omega) (by omega) (by show 0 + fixed_size + 4 ≤ 4096; omega) rfl)
      intro rest hrest
      obtain ⟨p1, g, rest1, e, pg1, pg2⟩ := hrest
      refine ⟨⟨fun _ => ⟨?_, g, rest1, e, ?_, pg2⟩, p1⟩, _, _, rfl, rfl, rfl⟩
      · show a.curr_log_offset + fixed_size + av * LIDX_SIZE = BLOCK_SIZE
        unfold LIDX_SIZE BLOCK_SIZE; omega
      · show some (false, v.1) = some (false, g.block_idx)
        rw [pg1]

theorem continues_not_same_block (fixed_size : Nat) :
    ∀ (frags : List Fragment), ContinuesInFreshBlock fixed_size frags →
      ∀ f ∈ frags, f.has_next = true →
        (∃ blk, f.next = some (false, blk)) ∧
        f.local_offset + fixed_size + f.num_lidxs * LIDX_SIZE = BLOCK_SIZE := by
  intro frags
  induction frags with
  | nil => intro _ f hf; cases hf
  | cons x rest ih =>
    intro h f hf hn
    rcases List.mem_cons.1 hf with e | e
    · subst e
      obtain ⟨h1, g, _, _, h2, _⟩ := h.1 hn
      exact ⟨⟨_, h2⟩, h1⟩
    · exact ih h.2 f e hn

theorem ensure_log_block_aligned (fixed_size : Nat) (a : Allocator)
    (hfix : fixed_size + 4 ≤ 4096) (hoff : a.curr_log_offset ≤ 4096)
    (hal : a.curr_log_offset % 4 = 0) :
    (ensure_log_block fixed_size a).sat
      (fun a0 => a0.curr_log_offset + fixed_size + 4 ≤ 4096 ∧ a0.curr_log_offset % 4 = 0) := by
  unfold ensure_log_block
  by_cases hc : a.curr_log_block_idx = 0 ∨
      sub32 BLOCK_SIZE a.curr_log_offset < fixed_size + LIDX_SIZE
  · rw [if_pos hc]
    apply sat_bind _ _ (fun _ => True) _ (alloc_sat 1 a (by omega) (by omega))
    intro v _
    show 0 + fixed_size + 4 ≤ 4096 ∧ 0 % 4 = 0
    omega
  · rw [if_neg hc]
    have h2 : ¬ sub32 BLOCK_SIZE a.curr_log_offset < fixed_size + LIDX_SIZE :=
      fun h => hc (Or.inr h)
    rw [sub32_of_le (show a.curr_log_offset ≤ BLOCK_SIZE from hoff)
      (by unfold BLOCK_SIZE; omega)] at h2
    unfold BLOCK_SIZE LIDX_SIZE at h2
    show a.curr_log_offset + fixed_size + 4 ≤ 4096 ∧ a.curr_log_offset % 4 = 0
    omega

/-- With a header too large for a block the assertion `avail_lidxs_cnt > 0` does
fail: 4094 bytes of header leave 2 bytes, less than a block index. -/
theorem alloc_log_entry_assert_fails_for_large_header :
    alloc_log_entry 4094 1 no_log_block = Outcome.fault := by
  rfl

/-- C33: if `curr_log_offset ≤ BLOCK_SIZE` holds before `alloc_log_entry`, the
assertion `avail_lidxs_cnt > 0` holds in every iteration (the call does not end
in a failed assertion): behind the header of every fragment at least
`sizeof(LogicalBlockIdx)` bytes of the block are left. Every fragment that is
not the last one reserves at least one slot, the last one too when
`num_blocks ≥ 1`, and the slots add up to `ceil(num_blocks/64)`; so the loop
ends after at most `ceil(num_blocks/64) + 1` iterations. The call returns when
`free_lists[0]` holds enough single blocks for the fresh log-entry blocks. -/
theorem alloc_log_entry_assert_holds (fixed_size nb : Nat) (a : Allocator)
    (hfix : fixed_size + LIDX_SIZE ≤ BLOCK_SIZE) (hnb : nb < 4294967296)
    (hoff : a.curr_log_offset ≤ BLOCK_SIZE) :
    (alloc_log_entry fixed_size nb a).sat (fun r =>
      (r.1.fragments.map Fragment.num_lidxs).sum = (nb + 63) / 64 ∧
      r.1.fragments.length ≤ (nb + 63) / 64 + 1 ∧
      ∀ f ∈ r.1.fragments, f.local_offset + fixed_size + LIDX_SIZE ≤ BLOCK_SIZE ∧
        (f.has_next = true → 1 ≤ f.num_lidxs) ∧ (1 ≤ nb → 1 ≤ f.num_lidxs)) ∧
    ((nb + 63) / 64 < (a.free_lists 0).length →
      ∃ r, alloc_log_entry fixed_size nb a = Outcome.ok r) := by
  have hfix1 : fixed_size + 4 ≤ 4096 := hfix
  have hoff1 : a.curr_log_offset ≤ 4096 := hoff
  refine ⟨?_, alloc_log_entry_returns fixed_size nb a hfix1 hnb hoff1⟩
  unfold alloc_log_entry
  apply sat_bind _ _ _ _ (ensure_log_block_sat fixed_size a hfix1 hoff1)
  intro a0 h0
  unfold place_log_entry
  rw [needed_lidxs_eq]
  apply sat_bind _ _ _ _
    (log_entry_loop_progress fixed_size hfix1 ((nb + 63) / 64 + 1) nb ((nb + 63) / 64) a0
      (by omega) (by omega) h0)
  intro r hr
  obtain ⟨p1, p2, p3⟩ := hr
  refine ⟨p1, p2, fun f hf => ?_⟩
  obtain ⟨q1, q2, q3⟩ := p3 f hf
  exact ⟨q1, q2, fun h => q3 (by omega)⟩

theorem alloc_log_entry_assert_holds_witness :
    (alloc_log_entry 12 200 log_block_nearly_full).sat (fun r =>
      (r.1.fragments.map Fragment.num_lidxs).sum = (200 + 63) / 64 ∧
      r.1.fragments.length ≤ (200 + 63) / 64 + 1 ∧
      ∀ f ∈ r.1.fragments, f.local_offset + 12 + LIDX_SIZE ≤ BLOCK_SIZE ∧
        (f.has_next = true → 1 ≤ f.num_lidxs) ∧ (1 ≤ 200 → 1 ≤ f.num_lidxs)) ∧
    ((200 + 63) / 64 < (log_block_nearly_full.free_lists 0).length →
      ∃ r, alloc_log_entry 12 200 log_block_nearly_full = Outcome.ok r) :=
  alloc_log_entry_assert_holds 12 200 log_block_nearly_full (by decide) (by decide)
    (by decide)

/-- C34: if `curr_log_offset` is a multiple of 4 (and at most `BLOCK_SIZE`) before
`alloc_log_entry` and `fixed_size` is a multiple of 4, every fragment written
with `has_next = true` has `is_next_same_block = false`: the fragment ends exactly
at the end of its block, `next.block_idx` is the block that `alloc(1)` returned,
and the next fragment is at offset 0 of that block. The call returns when
`free_lists[0]` holds enough single blocks. -/
theorem alloc_log_entry_never_same_block (fixed_size nb : Nat) (a : Allocator)
    (hfix : fixed_size + LIDX_SIZE ≤ BLOCK_SIZE) (hnb : nb < 4294967296)
    (hoff : a.curr_log_offset ≤ BLOCK_SIZE)
    (hfix4 : fixed_size % LIDX_SIZE = 0) (hal : a.curr_log_offset % LIDX_SIZE = 0) :
    (alloc_log_entry fixed_size nb a).sat (fun r =>
      ContinuesInFreshBlock fixed_size r.1.fragments ∧
      ∀ f ∈ r.1.fragments, f.has_next = true →
        (∃ blk, f.next = some (false, blk)) ∧
        f.local_offset + fixed_size + f.num_lidxs * LIDX_SIZE = BLOCK_SIZE) ∧
    ((nb + 63) / 64 < (a.free_lists 0).length →
      ∃ r, alloc_log_entry fixed_size nb a = Outcome.ok r) := by
  have hfix1 : fixed_size + 4 ≤ 4096 := hfix
  have hoff1 : a.curr_log_offset ≤ 4096 := hoff
  refine ⟨?_, alloc_log_entry_returns fixed_size nb a hfix1 hnb hoff1⟩
  unfold alloc_log_entry
  apply sat_bind _ _ _ _ (ensure_log_block_aligned fixed_size a hfix1 hoff1 hal)
  intro a0 h0
  unfold place_log_entry
  rw [needed_lidxs_eq]
  apply sat_bind _ _ _ _
    (log_entry_loop_fresh fixed_size hfix1 hfix4 ((nb + 63) / 64 + 1) nb ((nb + 63) / 64) a0
      (by omega) (by omega) h0.1 h0.2)
  intro r hr
  exact ⟨hr.1, continues_not_same_block fixed_size r.1 hr.1⟩

theorem alloc_log_entry_never_same_block_witness :
    (alloc_log_entry 12 200 log_block_nearly_full).sat (fun r =>
      ContinuesInFreshBlock 12 r.1.fragments ∧
      ∀ f ∈ r.1.fragments, f.has_next = true →
        (∃ blk, f.next = some (false, blk)) ∧
        f.local_offset + 12 + f.num_lidxs * LIDX_SIZE = BLOCK_SIZE) ∧
    ((200 + 63) / 64 < (log_block_nearly_full.free_lists 0).length →
      ∃ r, alloc_log_entry 12 200 log_block_nearly_full = Outcome.ok r) :=
  alloc_log_entry_never_same_block 12 200 log_block_nearly_full (by decide) (by decide)
    (by decide) (by decide) (by decide)

end MadFS
